import Mathlib

/-!
# Verification of the Round-Robin CPU scheduling simulator

Shallow embedding of `simulate_rr` from `src/scheduler.cpp` and proofs of the
specification claims about it.

The C++ state (`curr_time`, ready queue `rq`, job queue `jq`,
`remaining_bursts`, the mutated `processes` vector and the output trace `seq`)
becomes an explicit record `RRState`; each block of the `while(true)` loop body
becomes a function on states, and one loop iteration is `rrStep`.  Machine
integers are modelled as unbounded `Int` (the spec treats them as integers).
`Int` division `/` here is floor division while C++ truncates toward zero; the
two agree on nonnegative operands, and every division in the source is used
only where both operands are positive.  A ghost field `boots` counts the
executions of the bootstrap-dispatch branch (lines 39-49); it influences
nothing.  `vector::at` bounds-checked accesses are modelled twice: the total
functions below index with `getD`/`set` (out of range reads a default and
writes are dropped), and a second, `Option`-valued model `checkedStep` later in
the file returns `none` exactly when some `.at` would throw.
-/

structure Process where
  id : Int
  arrival_time : Int
  burst : Int
  start_time : Int
  finish_time : Int
deriving DecidableEq, Repr

structure RRState where
  curr_time : Int
  rq : List Int
  jq : List Int
  remaining_bursts : List Int
  processes : List Process
  seq : List Int
  boots : Nat
deriving DecidableEq, Repr

/-- `processes.at(i)` (total model: default out of range). -/
def getP (ps : List Process) (i : Int) : Process := ps.getD i.toNat ⟨0, 0, 0, 0, 0⟩

/-- `remaining_bursts.at(i)` (total model). -/
def getB (bs : List Int) (i : Int) : Int := bs.getD i.toNat 0

/-- `remaining_bursts.at(i) = v`. -/
def setB (bs : List Int) (i : Int) (v : Int) : List Int := bs.set i.toNat v

/-- `if(processes.at(i).start_time == -1){ processes.at(i).start_time = t; }`. -/
def setStartIfUnset (ps : List Process) (i : Int) (t : Int) : List Process :=
  if (getP ps i).start_time = -1 then ps.set i.toNat { getP ps i with start_time := t } else ps

/-- `processes.at(i).finish_time = t`. -/
def setFinish (ps : List Process) (i : Int) (t : Int) : List Process :=
  ps.set i.toNat { getP ps i with finish_time := t }

/-- `seq.back()`; in every reachable state where the code calls it, `seq` is
nonempty, so the default is irrelevant there. -/
def seqBack (sq : List Int) : Int := sq.getLastD (-2)

/-- `if((int64_t)seq.size() < max_seq_len && seq.back() != x){ seq.push_back(x); }` -/
def pushCompressed (cap : Int) (sq : List Int) (x : Int) : List Int :=
  if (sq.length : Int) < cap ∧ seqBack sq ≠ x then sq ++ [x] else sq

/-- The inner `for j` loop of the bulk-skip trace emission (lines 92-96 / 201-205). -/
def emitRound (cap : Int) (rq : List Int) (sq : List Int) : List Int :=
  rq.foldl (pushCompressed cap) sq

/-- `flag` of the bulk-skip computation (lines 64-74 / 175-185): every ready
process has remaining burst strictly greater than one quantum. -/
def bulkFlag (q : Int) (bs : List Int) (rq : List Int) : Bool :=
  rq.all (fun p => q < getB bs p)

/-- `min_bursts` (lines 65-74 / 176-185): minimum remaining burst over the
ready queue (meaningful when `bulkFlag` holds, where the loop does not break). -/
def minBursts (bs : List Int) (rq : List Int) : Int :=
  rq.foldl (fun a p => min a (getB bs p)) (getB bs (rq.headD 0))

/-- `n` (lines 76-79 / 187-191): `min_bursts/quantum`, one less on an exact
multiple. -/
def bulkN (q : Int) (bs : List Int) (rq : List Int) : Int :=
  if minBursts bs rq % q = 0 then minBursts bs rq / q - 1 else minBursts bs rq / q

/-- Apply `k` full round-robin rounds at once (lines 84-97, and 193-206 with
`k = n`): stagger first-touch start times, subtract `quantum*k` from every
ready process, advance the clock by `rq.size()*quantum*k`, and run the capped,
compressed trace-emission double loop. -/
def applyBulk (q cap k : Int) (s : RRState) : RRState :=
  { s with
    processes := s.rq.enum.foldl
      (fun ps ip => setStartIfUnset ps ip.2 (s.curr_time + q * (ip.1 : Int))) s.processes
    remaining_bursts := s.rq.foldl (fun bs p => setB bs p (getB bs p - q * k)) s.remaining_bursts
    curr_time := s.curr_time + (s.rq.length : Int) * q * k
    seq := Nat.repeat (emitRound cap s.rq) (min k cap).toNat s.seq }

/-- Bootstrap dispatch (lines 39-49): ready queue empty, job queue not. -/
def bootstrap (cap : Int) (s : RRState) : RRState :=
  match s.jq with
  | [] => s
  | j :: js =>
    let rq := s.rq ++ [j]
    let curr := (getP s.processes j).arrival_time
    { s with
      rq := rq
      jq := js
      curr_time := curr
      seq := if (s.seq.length : Int) < cap ∧ curr = 0 then s.seq ++ [rq.headD 0]
             else s.seq ++ [-1]
      boots := s.boots + 1 }

/-- Single-quantum step with processes still pending (lines 105-151): either a
preemption (quantum used, drain arrivals strictly before the new time, then
requeue the head, then admit a same-instant arrival), or a completion (admit at
most one pending process whose arrival is at or before the completion time). -/
def singleStep3 (q cap : Int) (s : RRState) : RRState :=
  match s.rq with
  | [] => s
  | h :: t =>
    if q < getB s.remaining_bursts h then
      let ps := setStartIfUnset s.processes h s.curr_time
      let curr := s.curr_time + q
      let sq := pushCompressed cap s.seq h
      let bs := setB s.remaining_bursts h (getB s.remaining_bursts h - q)
      let drained := s.jq.takeWhile (fun p => (getP ps p).arrival_time < curr)
      match s.jq.dropWhile (fun p => (getP ps p).arrival_time < curr) with
      | j :: js =>
        if (getP ps j).arrival_time = curr then
          { s with
            processes := ps
            curr_time := curr
            seq := sq
            remaining_bursts := bs
            rq := t ++ drained ++ [h, j]
            jq := js }
        else
          { s with
            processes := ps
            curr_time := curr
            seq := sq
            remaining_bursts := bs
            rq := t ++ drained ++ [h]
            jq := j :: js }
      | [] =>
        { s with
          processes := ps
          curr_time := curr
          seq := sq
          remaining_bursts := bs
          rq := t ++ drained ++ [h]
          jq := [] }
    else
      let ps := setStartIfUnset s.processes h s.curr_time
      let curr := s.curr_time + getB s.remaining_bursts h
      let sq := pushCompressed cap s.seq h
      let bs := setB s.remaining_bursts h 0
      let ps2 := setFinish ps h curr
      match s.jq with
      | [] =>
        { s with
          processes := ps2
          curr_time := curr
          seq := sq
          remaining_bursts := bs
          rq := t
          jq := [] }
      | j :: js =>
        if (getP ps2 j).arrival_time ≤ curr then
          { s with
            processes := ps2
            curr_time := curr
            seq := sq
            remaining_bursts := bs
            rq := t ++ [j]
            jq := js }
        else
          { s with
            processes := ps2
            curr_time := curr
            seq := sq
            remaining_bursts := bs
            rq := t
            jq := j :: js }

/-- Only one job remains (lines 157-169): run it to completion and stop. -/
def finishLast (cap : Int) (s : RRState) : RRState :=
  match s.rq with
  | [] => s
  | h :: t =>
    let ps := setStartIfUnset s.processes h s.curr_time
    let curr := s.curr_time + getB s.remaining_bursts h
    let sq := pushCompressed cap s.seq h
    let ps2 := setFinish ps h curr
    let bs := setB s.remaining_bursts h 0
    { s with processes := ps2, curr_time := curr, seq := sq, remaining_bursts := bs, rq := t }

/-- Single-quantum step with the job queue empty (lines 211-239). -/
def singleStep5 (q cap : Int) (s : RRState) : RRState :=
  match s.rq with
  | [] => s
  | h :: t =>
    if q < getB s.remaining_bursts h then
      let ps := setStartIfUnset s.processes h s.curr_time
      let curr := s.curr_time + q
      let sq := pushCompressed cap s.seq h
      let bs := setB s.remaining_bursts h (getB s.remaining_bursts h - q)
      { s with
        processes := ps
        curr_time := curr
        seq := sq
        remaining_bursts := bs
        rq := t ++ [h] }
    else
      let ps := setStartIfUnset s.processes h s.curr_time
      let curr := s.curr_time + getB s.remaining_bursts h
      let sq := pushCompressed cap s.seq h
      let bs := setB s.remaining_bursts h 0
      let ps2 := setFinish ps h curr
      { s with processes := ps2, curr_time := curr, seq := sq, remaining_bursts := bs, rq := t }

/-- Bulk-skip decision in the pending-processes block (lines 60-99):
`if((curr_time + rq.size()*quantum) < arrival){ if(flag){ k = min(n,m); ... } }`. -/
def bulk3 (q cap : Int) (s : RRState) : RRState :=
  let arr := (getP s.processes (s.jq.headD 0)).arrival_time
  let m := (arr - s.curr_time) / ((s.rq.length : Int) * q)
  if s.curr_time + (s.rq.length : Int) * q < arr ∧ bulkFlag q s.remaining_bursts s.rq then
    applyBulk q cap (min (bulkN q s.remaining_bursts s.rq) m) s
  else s

/-- Bulk-skip decision in the empty-job-queue block (lines 172-207): no arrival
bound, `if(flag)` applies `n` rounds. -/
def bulk5 (q cap : Int) (s : RRState) : RRState :=
  if bulkFlag q s.remaining_bursts s.rq then
    applyBulk q cap (bulkN q s.remaining_bursts s.rq) s
  else s

/-- Block `!rq.empty() && !jq.empty()` (lines 52-152).  The `opt` switch
selects between the original code (`true`) and the naive variant that never
takes the bulk-skip branch (`false`); everything else is identical. -/
def block3 (opt : Bool) (q cap : Int) (s : RRState) : RRState :=
  if (getP s.processes (s.jq.headD 0)).arrival_time = s.curr_time then
    { s with rq := s.rq ++ [s.jq.headD 0], jq := s.jq.tail }
  else
    singleStep3 q cap (if opt then bulk3 q cap s else s)

/-- Block `!rq.empty() && jq.empty()` (lines 155-240). -/
def block5 (opt : Bool) (q cap : Int) (s : RRState) : RRState :=
  if s.rq.length = 1 then finishLast cap s
  else singleStep5 q cap (if opt then bulk5 q cap s else s)

/-- One iteration of the `while(true)` loop (lines 31-241).  A finished state
(`rq` and `jq` both empty) is a fixed point, matching the `break`. -/
def rrStep (opt : Bool) (q cap : Int) (s : RRState) : RRState :=
  if s.rq = [] ∧ s.jq = [] then s
  else
    let s1 := if s.rq = [] then bootstrap cap s else s
    if s1.jq = [] then block5 opt q cap s1 else block3 opt q cap s1

/-- Run `n` loop iterations. -/
def stepsN (opt : Bool) (q cap : Int) : Nat → RRState → RRState
  | 0, s => s
  | n + 1, s => stepsN opt q cap n (rrStep opt q cap s)

/-- Initial state (lines 21-29). -/
def initState (procs : List Process) : RRState :=
  { curr_time := 0, rq := [], jq := procs.map (·.id),
    remaining_bursts := procs.map (·.burst), processes := procs, seq := [], boots := 0 }

/-- Sum of the burst fields. -/
def totalBurst (procs : List Process) : Int := procs.foldl (fun a p => a + p.burst) 0

/-- Enough loop iterations to reach the fixed point on any well-formed input
(each iteration removes a job-queue entry or consumes at least one unit of
remaining burst). -/
def fuelBound (procs : List Process) : Nat := (totalBurst procs).toNat + procs.length + 1

/-- `simulate_rr` (lines 19-243). -/
def simulate_rr (q cap : Int) (procs : List Process) : RRState :=
  stepsN true q cap (fuelBound procs) (initState procs)

/-- The naive variant of `simulate_rr` that never takes the bulk-skip branch
and always advances one quantum at a time. -/
def simulate_rr_nobulk (q cap : Int) (procs : List Process) : RRState :=
  stepsN false q cap (fuelBound procs) (initState procs)

/-- Well-formed input as the claims state it: positive quantum, positive
bursts, arrivals nonnegative and sorted ascending, `start_time` at the unset
sentinel, and the (implicit, claim C10) indexing precondition that the `i`-th
process has id `i`. -/
def WellFormed (q : Int) (procs : List Process) : Prop :=
  1 ≤ q ∧
  (∀ ip ∈ procs.enum, ip.2.id = (ip.1 : Int)) ∧
  (∀ p ∈ procs, 1 ≤ p.burst ∧ 0 ≤ p.arrival_time ∧ p.start_time = -1) ∧
  List.Chain' (· ≤ ·) (procs.map (·.arrival_time))

/-- Executable sortedness check, kernel-reducible (Mathlib's `Chain'`
instance is not). -/
def chainLeB : List Int → Bool
  | [] => true
  | [_] => true
  | a :: b :: rest => decide (a ≤ b) && chainLeB (b :: rest)

lemma chainLeB_iff : ∀ l : List Int, chainLeB l = true ↔ List.Chain' (· ≤ ·) l
  | [] => by simp [chainLeB]
  | [a] => by simp [chainLeB]
  | a :: b :: rest => by
    rw [List.chain'_cons]
    simp [chainLeB, chainLeB_iff (b :: rest)]

instance (priority := 1100) intChainDec (l : List Int) :
    Decidable (List.Chain' (· ≤ ·) l) := decidable_of_iff _ (chainLeB_iff l)

instance (q : Int) (procs : List Process) : Decidable (WellFormed q procs) :=
  inferInstanceAs (Decidable (1 ≤ q ∧
    (∀ ip ∈ procs.enum, ip.2.id = (ip.1 : Int)) ∧
    (∀ p ∈ procs, 1 ≤ p.burst ∧ 0 ≤ p.arrival_time ∧ p.start_time = -1) ∧
    List.Chain' (· ≤ ·) (procs.map (fun p : Process => p.arrival_time))))

/-- The index form of the id clause of `WellFormed`. -/
lemma wf_ids {q : Int} {procs : List Process} (hwf : WellFormed q procs) :
    ∀ i (h : i < procs.length), procs[i].id = (i : Int) := by
  intro i h
  have hmem : (i, procs[i]) ∈ procs.enum := by
    rw [List.mem_iff_getElem]
    exact ⟨i, by simpa using h, by simp⟩
  exact hwf.2.1 (i, procs[i]) hmem

/-! ## Basic access lemmas -/

lemma getB_setB_self {bs : List Int} {i : Int} (v : Int) (h : i.toNat < bs.length) :
    getB (setB bs i v) i = v := by
  simp [getB, setB, List.getD, List.getElem?_set_self, h]

lemma getB_setB_ne {bs : List Int} {i j : Int} (v : Int) (h : i.toNat ≠ j.toNat) :
    getB (setB bs i v) j = getB bs j := by
  simp [getB, setB, List.getD, List.getElem?_set_ne h]

lemma length_setB (bs : List Int) (i : Int) (v : Int) :
    (setB bs i v).length = bs.length := List.length_set ..

/-! ## Claim C2: the concrete two-process scenario -/

/-- C2: the claim as stated is false on the code.  On P0(id 0, arrival 0,
burst 4), P1(id 1, arrival 1, burst 4) with quantum 2 and a large cap, the
trace and start times are as claimed but `P0.finish_time` is 6, not 8 (P0 runs
during [0,2) and [4,6)); 8 is P1's finish time. -/
theorem C2_counterexample :
    ¬ ((simulate_rr 2 1000000000 [⟨0, 0, 4, -1, -1⟩, ⟨1, 1, 4, -1, -1⟩]).seq = [0, 1, 0, 1] ∧
       ((simulate_rr 2 1000000000 [⟨0, 0, 4, -1, -1⟩, ⟨1, 1, 4, -1, -1⟩]).processes.getD 0
         ⟨0, 0, 0, 0, 0⟩).start_time = 0 ∧
       ((simulate_rr 2 1000000000 [⟨0, 0, 4, -1, -1⟩, ⟨1, 1, 4, -1, -1⟩]).processes.getD 1
         ⟨0, 0, 0, 0, 0⟩).start_time = 2 ∧
       ((simulate_rr 2 1000000000 [⟨0, 0, 4, -1, -1⟩, ⟨1, 1, 4, -1, -1⟩]).processes.getD 0
         ⟨0, 0, 0, 0, 0⟩).finish_time = 8) := by
  decide

/-- C2 amended: same scenario, but `P0.finish_time = 6` (and `P1.finish_time =
8`): trace `[0, 1, 0, 1]`, `P0.start_time = 0`, `P1.start_time = 2`. -/
theorem C2_amended :
    (simulate_rr 2 1000000000 [⟨0, 0, 4, -1, -1⟩, ⟨1, 1, 4, -1, -1⟩]).seq = [0, 1, 0, 1] ∧
    ((simulate_rr 2 1000000000 [⟨0, 0, 4, -1, -1⟩, ⟨1, 1, 4, -1, -1⟩]).processes.getD 0
      ⟨0, 0, 0, 0, 0⟩).start_time = 0 ∧
    ((simulate_rr 2 1000000000 [⟨0, 0, 4, -1, -1⟩, ⟨1, 1, 4, -1, -1⟩]).processes.getD 1
      ⟨0, 0, 0, 0, 0⟩).start_time = 2 ∧
    ((simulate_rr 2 1000000000 [⟨0, 0, 4, -1, -1⟩, ⟨1, 1, 4, -1, -1⟩]).processes.getD 0
      ⟨0, 0, 0, 0, 0⟩).finish_time = 6 ∧
    ((simulate_rr 2 1000000000 [⟨0, 0, 4, -1, -1⟩, ⟨1, 1, 4, -1, -1⟩]).processes.getD 1
      ⟨0, 0, 0, 0, 0⟩).finish_time = 8 := by
  decide

/-! ## Claim C9: only `start_time` and `finish_time` are modified -/

/-- The frame of a process: the fields `simulate_rr` must not touch. -/
def frameOf (p : Process) : Int × Int × Int := (p.id, p.arrival_time, p.burst)

lemma map_frameOf_set (ps : List Process) (i : Nat) (v : Process)
    (hv : frameOf v = frameOf (ps.getD i ⟨0, 0, 0, 0, 0⟩)) :
    (ps.set i v).map frameOf = ps.map frameOf := by
  induction ps generalizing i with
  | nil => simp
  | cons a l ih =>
    cases i with
    | zero => simpa using hv
    | succ n =>
      simp only [List.set, List.map_cons, List.cons.injEq, true_and]
      exact ih n (by simpa using hv)

lemma map_frameOf_setStartIfUnset (ps : List Process) (i t : Int) :
    (setStartIfUnset ps i t).map frameOf = ps.map frameOf := by
  unfold setStartIfUnset
  split
  · exact map_frameOf_set _ _ _ rfl
  · rfl

lemma map_frameOf_setFinish (ps : List Process) (i t : Int) :
    (setFinish ps i t).map frameOf = ps.map frameOf := by
  unfold setFinish
  exact map_frameOf_set _ _ _ rfl

lemma map_frameOf_foldl {β : Type} (l : List β) (F : List Process → β → List Process)
    (h : ∀ ps b, (F ps b).map frameOf = ps.map frameOf) (ps : List Process) :
    (l.foldl F ps).map frameOf = ps.map frameOf := by
  induction l generalizing ps with
  | nil => rfl
  | cons b bl ih => rw [List.foldl_cons, ih, h]

lemma map_frameOf_applyBulk (q cap k : Int) (s : RRState) :
    (applyBulk q cap k s).processes.map frameOf = s.processes.map frameOf := by
  unfold applyBulk
  exact map_frameOf_foldl s.rq.enum
    (fun ps ip => setStartIfUnset ps ip.2 (s.curr_time + q * (ip.1 : Int)))
    (fun ps b => map_frameOf_setStartIfUnset ps b.2 _) s.processes

lemma map_frameOf_bootstrap (cap : Int) (s : RRState) :
    (bootstrap cap s).processes = s.processes := by
  unfold bootstrap
  cases s.jq <;> rfl

lemma map_frameOf_singleStep3 (q cap : Int) (s : RRState) :
    (singleStep3 q cap s).processes.map frameOf = s.processes.map frameOf := by
  unfold singleStep3
  cases s.rq with
  | nil => rfl
  | cons h t =>
    dsimp only
    split
    · split
      · split <;>
          simp only [map_frameOf_setStartIfUnset]
      · simp only [map_frameOf_setStartIfUnset]
    · cases s.jq with
      | nil => simp only [map_frameOf_setFinish, map_frameOf_setStartIfUnset]
      | cons j js =>
        dsimp only
        split <;>
          simp only [map_frameOf_setFinish, map_frameOf_setStartIfUnset]

lemma map_frameOf_singleStep5 (q cap : Int) (s : RRState) :
    (singleStep5 q cap s).processes.map frameOf = s.processes.map frameOf := by
  unfold singleStep5
  cases s.rq with
  | nil => rfl
  | cons h t =>
    dsimp only
    split
    · simp only [map_frameOf_setStartIfUnset]
    · simp only [map_frameOf_setFinish, map_frameOf_setStartIfUnset]

lemma map_frameOf_finishLast (cap : Int) (s : RRState) :
    (finishLast cap s).processes.map frameOf = s.processes.map frameOf := by
  unfold finishLast
  cases s.rq with
  | nil => rfl
  | cons h t => simp only [map_frameOf_setFinish, map_frameOf_setStartIfUnset]

lemma map_frameOf_bulk3 (q cap : Int) (s : RRState) :
    (bulk3 q cap s).processes.map frameOf = s.processes.map frameOf := by
  unfold bulk3
  dsimp only
  split
  · exact map_frameOf_applyBulk ..
  · rfl

lemma map_frameOf_bulk5 (q cap : Int) (s : RRState) :
    (bulk5 q cap s).processes.map frameOf = s.processes.map frameOf := by
  unfold bulk5
  split
  · exact map_frameOf_applyBulk ..
  · rfl

lemma map_frameOf_rrStep (opt : Bool) (q cap : Int) (s : RRState) :
    (rrStep opt q cap s).processes.map frameOf = s.processes.map frameOf := by
  unfold rrStep
  split
  · rfl
  · have hboot : ∀ s' : RRState,
        (if s'.jq = [] then block5 opt q cap s' else block3 opt q cap s').processes.map frameOf
          = s'.processes.map frameOf := by
      intro s'
      split
      · unfold block5
        split
        · exact map_frameOf_finishLast ..
        · cases opt <;>
            simp only [map_frameOf_singleStep5, map_frameOf_bulk5, Bool.false_eq_true,
              if_false, if_true]
      · unfold block3
        split
        · rfl
        · cases opt <;>
            simp only [map_frameOf_singleStep3, map_frameOf_bulk3, Bool.false_eq_true,
              if_false, if_true]
    split
    · rw [hboot, map_frameOf_bootstrap]
    · exact hboot s

lemma map_frameOf_stepsN (opt : Bool) (q cap : Int) (n : Nat) (s : RRState) :
    (stepsN opt q cap n s).processes.map frameOf = s.processes.map frameOf := by
  induction n generalizing s with
  | zero => rfl
  | succ n ih => rw [stepsN, ih, map_frameOf_rrStep]

/-- C9: `simulate_rr` modifies only `start_time` and `finish_time`: the `id`,
`arrival_time` and `burst` of every process are unchanged (proved for every
input, well-formed or not, and for the naive variant as well). -/
theorem C9_frame (opt : Bool) (q cap : Int) (procs : List Process) :
    (stepsN opt q cap (fuelBound procs) (initState procs)).processes.map frameOf
      = procs.map frameOf := by
  exact map_frameOf_stepsN ..


/-! ## Claim C8: `start_time`/`finish_time` are independent of `max_seq_len`

The trace cap `max_seq_len` influences only which elements get pushed onto
`seq`; no control decision reads `seq`.  `SameCore` relates two states that
agree on everything except the trace. -/

def SameCore (s₁ s₂ : RRState) : Prop :=
  s₁.curr_time = s₂.curr_time ∧ s₁.rq = s₂.rq ∧ s₁.jq = s₂.jq ∧
  s₁.remaining_bursts = s₂.remaining_bursts ∧ s₁.processes = s₂.processes ∧
  s₁.boots = s₂.boots

lemma sameCore_applyBulk {s₁ s₂ : RRState} (q c₁ c₂ k : Int) (h : SameCore s₁ s₂) :
    SameCore (applyBulk q c₁ k s₁) (applyBulk q c₂ k s₂) := by
  obtain ⟨a₁, r₁, j₁, b₁, p₁, q₁, o₁⟩ := s₁
  obtain ⟨a₂, r₂, j₂, b₂, p₂, q₂, o₂⟩ := s₂
  obtain ⟨h1, h2, h3, h4, h5, h6⟩ := h
  dsimp only at h1 h2 h3 h4 h5 h6
  subst h1 h2 h3 h4 h5 h6
  exact ⟨rfl, rfl, rfl, rfl, rfl, rfl⟩

lemma sameCore_bootstrap {s₁ s₂ : RRState} (c₁ c₂ : Int) (h : SameCore s₁ s₂) :
    SameCore (bootstrap c₁ s₁) (bootstrap c₂ s₂) := by
  obtain ⟨a₁, r₁, j₁, b₁, p₁, q₁, o₁⟩ := s₁
  obtain ⟨a₂, r₂, j₂, b₂, p₂, q₂, o₂⟩ := s₂
  obtain ⟨h1, h2, h3, h4, h5, h6⟩ := h
  dsimp only at h1 h2 h3 h4 h5 h6
  subst h1 h2 h3 h4 h5 h6
  unfold bootstrap
  cases j₁ with
  | nil => exact ⟨rfl, rfl, rfl, rfl, rfl, rfl⟩
  | cons j js => exact ⟨rfl, rfl, rfl, rfl, rfl, rfl⟩

lemma sameCore_bulk3 {s₁ s₂ : RRState} (q c₁ c₂ : Int) (h : SameCore s₁ s₂) :
    SameCore (bulk3 q c₁ s₁) (bulk3 q c₂ s₂) := by
  obtain ⟨a₁, r₁, j₁, b₁, p₁, q₁, o₁⟩ := s₁
  obtain ⟨a₂, r₂, j₂, b₂, p₂, q₂, o₂⟩ := s₂
  obtain ⟨h1, h2, h3, h4, h5, h6⟩ := h
  dsimp only at h1 h2 h3 h4 h5 h6
  subst h1 h2 h3 h4 h5 h6
  unfold bulk3
  dsimp only
  by_cases hg :
      a₁ + (r₁.length : Int) * q < (getP p₁ (j₁.headD 0)).arrival_time ∧
        bulkFlag q b₁ r₁ = true
  · simp only [hg, if_true]
    exact sameCore_applyBulk q c₁ c₂ _ ⟨rfl, rfl, rfl, rfl, rfl, rfl⟩
  · simp only [hg, if_false]
    exact ⟨rfl, rfl, rfl, rfl, rfl, rfl⟩

lemma sameCore_bulk5 {s₁ s₂ : RRState} (q c₁ c₂ : Int) (h : SameCore s₁ s₂) :
    SameCore (bulk5 q c₁ s₁) (bulk5 q c₂ s₂) := by
  obtain ⟨a₁, r₁, j₁, b₁, p₁, q₁, o₁⟩ := s₁
  obtain ⟨a₂, r₂, j₂, b₂, p₂, q₂, o₂⟩ := s₂
  obtain ⟨h1, h2, h3, h4, h5, h6⟩ := h
  dsimp only at h1 h2 h3 h4 h5 h6
  subst h1 h2 h3 h4 h5 h6
  unfold bulk5
  by_cases hg : bulkFlag q b₁ r₁ = true
  · simp only [hg, if_true]
    exact sameCore_applyBulk q c₁ c₂ _ ⟨rfl, rfl, rfl, rfl, rfl, rfl⟩
  · simp only [hg, if_false]
    exact ⟨rfl, rfl, rfl, rfl, rfl, rfl⟩

lemma sameCore_singleStep3 {s₁ s₂ : RRState} (q c₁ c₂ : Int) (h : SameCore s₁ s₂) :
    SameCore (singleStep3 q c₁ s₁) (singleStep3 q c₂ s₂) := by
  obtain ⟨a₁, r₁, j₁, b₁, p₁, q₁, o₁⟩ := s₁
  obtain ⟨a₂, r₂, j₂, b₂, p₂, q₂, o₂⟩ := s₂
  obtain ⟨h1, h2, h3, h4, h5, h6⟩ := h
  dsimp only at h1 h2 h3 h4 h5 h6
  subst h1 h2 h3 h4 h5 h6
  unfold singleStep3
  cases r₁ with
  | nil => exact ⟨rfl, rfl, rfl, rfl, rfl, rfl⟩
  | cons hd tl =>
    dsimp only
    by_cases hb : q < getB b₁ hd
    · simp only [hb, if_true]
      cases hdw : j₁.dropWhile
          (fun p => decide ((getP (setStartIfUnset p₁ hd a₁) p).arrival_time < a₁ + q)) with
      | nil => exact ⟨rfl, rfl, rfl, rfl, rfl, rfl⟩
      | cons j js =>
        by_cases ht : (getP (setStartIfUnset p₁ hd a₁) j).arrival_time = a₁ + q
        · simp only [ht, if_true]
          exact ⟨rfl, rfl, rfl, rfl, rfl, rfl⟩
        · simp only [ht, if_false]
          exact ⟨rfl, rfl, rfl, rfl, rfl, rfl⟩
    · simp only [hb, if_false]
      cases j₁ with
      | nil => exact ⟨rfl, rfl, rfl, rfl, rfl, rfl⟩
      | cons j js =>
        dsimp only
        by_cases ha :
            (getP (setFinish (setStartIfUnset p₁ hd a₁) hd (a₁ + getB b₁ hd)) j).arrival_time
              ≤ a₁ + getB b₁ hd
        · simp only [ha, if_true]
          exact ⟨rfl, rfl, rfl, rfl, rfl, rfl⟩
        · simp only [ha, if_false]
          exact ⟨rfl, rfl, rfl, rfl, rfl, rfl⟩

lemma sameCore_singleStep5 {s₁ s₂ : RRState} (q c₁ c₂ : Int) (h : SameCore s₁ s₂) :
    SameCore (singleStep5 q c₁ s₁) (singleStep5 q c₂ s₂) := by
  obtain ⟨a₁, r₁, j₁, b₁, p₁, q₁, o₁⟩ := s₁
  obtain ⟨a₂, r₂, j₂, b₂, p₂, q₂, o₂⟩ := s₂
  obtain ⟨h1, h2, h3, h4, h5, h6⟩ := h
  dsimp only at h1 h2 h3 h4 h5 h6
  subst h1 h2 h3 h4 h5 h6
  unfold singleStep5
  cases r₁ with
  | nil => exact ⟨rfl, rfl, rfl, rfl, rfl, rfl⟩
  | cons hd tl =>
    dsimp only
    by_cases hb : q < getB b₁ hd
    · simp only [hb, if_true]
      exact ⟨rfl, rfl, rfl, rfl, rfl, rfl⟩
    · simp only [hb, if_false]
      exact ⟨rfl, rfl, rfl, rfl, rfl, rfl⟩

lemma sameCore_finishLast {s₁ s₂ : RRState} (c₁ c₂ : Int) (h : SameCore s₁ s₂) :
    SameCore (finishLast c₁ s₁) (finishLast c₂ s₂) := by
  obtain ⟨a₁, r₁, j₁, b₁, p₁, q₁, o₁⟩ := s₁
  obtain ⟨a₂, r₂, j₂, b₂, p₂, q₂, o₂⟩ := s₂
  obtain ⟨h1, h2, h3, h4, h5, h6⟩ := h
  dsimp only at h1 h2 h3 h4 h5 h6
  subst h1 h2 h3 h4 h5 h6
  unfold finishLast
  cases r₁ with
  | nil => exact ⟨rfl, rfl, rfl, rfl, rfl, rfl⟩
  | cons hd tl => exact ⟨rfl, rfl, rfl, rfl, rfl, rfl⟩

lemma sameCore_block3 {s₁ s₂ : RRState} (opt : Bool) (q c₁ c₂ : Int) (h : SameCore s₁ s₂) :
    SameCore (block3 opt q c₁ s₁) (block3 opt q c₂ s₂) := by
  obtain ⟨a₁, r₁, j₁, b₁, p₁, q₁, o₁⟩ := s₁
  obtain ⟨a₂, r₂, j₂, b₂, p₂, q₂, o₂⟩ := s₂
  obtain ⟨h1, h2, h3, h4, h5, h6⟩ := h
  dsimp only at h1 h2 h3 h4 h5 h6
  subst h1 h2 h3 h4 h5 h6
  unfold block3
  dsimp only
  by_cases ha : (getP p₁ (j₁.headD 0)).arrival_time = a₁
  · simp only [ha, if_true]
    exact ⟨rfl, rfl, rfl, rfl, rfl, rfl⟩
  · simp only [ha, if_false]
    cases opt with
    | false => exact sameCore_singleStep3 q c₁ c₂ ⟨rfl, rfl, rfl, rfl, rfl, rfl⟩
    | true =>
      exact sameCore_singleStep3 q c₁ c₂
        (sameCore_bulk3 q c₁ c₂ ⟨rfl, rfl, rfl, rfl, rfl, rfl⟩)

lemma sameCore_block5 {s₁ s₂ : RRState} (opt : Bool) (q c₁ c₂ : Int) (h : SameCore s₁ s₂) :
    SameCore (block5 opt q c₁ s₁) (block5 opt q c₂ s₂) := by
  obtain ⟨a₁, r₁, j₁, b₁, p₁, q₁, o₁⟩ := s₁
  obtain ⟨a₂, r₂, j₂, b₂, p₂, q₂, o₂⟩ := s₂
  obtain ⟨h1, h2, h3, h4, h5, h6⟩ := h
  dsimp only at h1 h2 h3 h4 h5 h6
  subst h1 h2 h3 h4 h5 h6
  unfold block5
  by_cases hl : r₁.length = 1
  · simp only [hl, if_true]
    exact sameCore_finishLast c₁ c₂ ⟨rfl, rfl, rfl, rfl, rfl, rfl⟩
  · simp only [hl, if_false]
    cases opt with
    | false => exact sameCore_singleStep5 q c₁ c₂ ⟨rfl, rfl, rfl, rfl, rfl, rfl⟩
    | true =>
      exact sameCore_singleStep5 q c₁ c₂
        (sameCore_bulk5 q c₁ c₂ ⟨rfl, rfl, rfl, rfl, rfl, rfl⟩)

lemma sameCore_rrStep {s₁ s₂ : RRState} (opt : Bool) (q c₁ c₂ : Int) (h : SameCore s₁ s₂) :
    SameCore (rrStep opt q c₁ s₁) (rrStep opt q c₂ s₂) := by
  obtain ⟨a₁, r₁, j₁, b₁, p₁, q₁, o₁⟩ := s₁
  obtain ⟨a₂, r₂, j₂, b₂, p₂, q₂, o₂⟩ := s₂
  obtain ⟨h1, h2, h3, h4, h5, h6⟩ := h
  dsimp only at h1 h2 h3 h4 h5 h6
  subst h1 h2 h3 h4 h5 h6
  unfold rrStep
  dsimp only
  by_cases hd : r₁ = [] ∧ j₁ = []
  · simp only [hd.1, hd.2, and_self, if_true]
    exact ⟨rfl, rfl, rfl, rfl, rfl, rfl⟩
  · simp only [hd, if_false]
    by_cases hr : r₁ = []
    · simp only [hr, if_true]
      cases j₁ with
      | nil => exact absurd ⟨hr, rfl⟩ hd
      | cons j js =>
        unfold bootstrap
        dsimp only
        by_cases hj : js = []
        · simp only [hj, if_true]
          apply sameCore_block5
          exact ⟨rfl, rfl, rfl, rfl, rfl, rfl⟩
        · simp only [hj, if_false]
          apply sameCore_block3
          exact ⟨rfl, rfl, rfl, rfl, rfl, rfl⟩
    · simp only [hr, if_false]
      by_cases hj : j₁ = []
      · simp only [hj, if_true]
        apply sameCore_block5
        exact ⟨rfl, rfl, rfl, rfl, rfl, rfl⟩
      · simp only [hj, if_false]
        apply sameCore_block3
        exact ⟨rfl, rfl, rfl, rfl, rfl, rfl⟩

lemma sameCore_stepsN {s₁ s₂ : RRState} (opt : Bool) (q c₁ c₂ : Int) (n : Nat)
    (h : SameCore s₁ s₂) :
    SameCore (stepsN opt q c₁ n s₁) (stepsN opt q c₂ n s₂) := by
  induction n generalizing s₁ s₂ with
  | zero => exact h
  | succ n ih => exact ih (sameCore_rrStep opt q c₁ c₂ h)

/-! With a nonpositive cap no guarded emission ever fires, so the trace is
exactly one idle marker per bootstrap execution. -/

lemma pushCompressed_nonpos {cap : Int} (hc : cap ≤ 0) (sq : List Int) (x : Int) :
    pushCompressed cap sq x = sq := by
  unfold pushCompressed
  rw [if_neg]
  rintro ⟨hlt, -⟩
  omega

lemma nat_repeat_emitRound_nonpos {cap : Int} (hc : cap ≤ 0) (rq : List Int) (n : Nat)
    (sq : List Int) : Nat.repeat (emitRound cap rq) n sq = sq := by
  have hem : ∀ sq', emitRound cap rq sq' = sq' := by
    intro sq'
    unfold emitRound
    induction rq generalizing sq' with
    | nil => rfl
    | cons p l ih => rw [List.foldl_cons, pushCompressed_nonpos hc, ih]
  induction n with
  | zero => rfl
  | succ n ih => rw [Nat.repeat, ih, hem]

/-- The trace is one `-1` per bootstrap execution. -/
def SeqIdle (s : RRState) : Prop := s.seq = List.replicate s.boots (-1)

lemma seqIdle_rrStep {cap : Int} (hc : cap ≤ 0) (opt : Bool) (q : Int) (s : RRState)
    (h : SeqIdle s) : SeqIdle (rrStep opt q cap s) := by
  have happly : ∀ (k : Int) (s' : RRState), SeqIdle s' → SeqIdle (applyBulk q cap k s') := by
    intro k s' h'
    unfold SeqIdle at *
    show Nat.repeat (emitRound cap s'.rq) _ s'.seq = _
    rw [nat_repeat_emitRound_nonpos hc, h']
    rfl
  have hseq3 : ∀ s' : RRState, SeqIdle s' → SeqIdle (singleStep3 q cap s') := by
    intro s' h'
    unfold singleStep3
    unfold SeqIdle at *
    cases s'.rq with
    | nil => exact h'
    | cons hd tl =>
      dsimp only
      split
      · split
        · split <;> simp [pushCompressed_nonpos hc, h']
        · simp [pushCompressed_nonpos hc, h']
      · cases s'.jq with
        | nil => simp [pushCompressed_nonpos hc, h']
        | cons j js =>
          dsimp only
          split <;> simp [pushCompressed_nonpos hc, h']
  have hseq5 : ∀ s' : RRState, SeqIdle s' → SeqIdle (singleStep5 q cap s') := by
    intro s' h'
    unfold singleStep5
    unfold SeqIdle at *
    cases s'.rq with
    | nil => exact h'
    | cons hd tl =>
      dsimp only
      split <;> simp [pushCompressed_nonpos hc, h']
  have hfin : ∀ s' : RRState, SeqIdle s' → SeqIdle (finishLast cap s') := by
    intro s' h'
    unfold finishLast
    unfold SeqIdle at *
    cases s'.rq with
    | nil => exact h'
    | cons hd tl => simp [pushCompressed_nonpos hc, h']
  have hblocks : ∀ s' : RRState, SeqIdle s' →
      SeqIdle (if s'.jq = [] then block5 opt q cap s' else block3 opt q cap s') := by
    intro s' h'
    split
    · unfold block5
      split
      · exact hfin s' h'
      · cases opt with
        | false => exact hseq5 s' h'
        | true =>
          unfold bulk5
          by_cases hf : bulkFlag q s'.remaining_bursts s'.rq = true
          · simp only [hf, if_true]
            exact hseq5 _ (happly _ s' h')
          · simp only [hf, if_false]
            exact hseq5 s' h'
    · unfold block3
      by_cases ha : (getP s'.processes (s'.jq.headD 0)).arrival_time = s'.curr_time
      · simp only [ha, if_true]
        unfold SeqIdle at *
        exact h'
      · simp only [ha, if_false]
        cases opt with
        | false => exact hseq3 s' h'
        | true =>
          unfold bulk3
          dsimp only
          by_cases hg :
              s'.curr_time + (s'.rq.length : Int) * q
                  < (getP s'.processes (s'.jq.headD 0)).arrival_time ∧
                bulkFlag q s'.remaining_bursts s'.rq = true
          · simp only [hg, if_true]
            exact hseq3 _ (happly _ s' h')
          · simp only [hg, if_false]
            exact hseq3 s' h'
  have hboot : SeqIdle (bootstrap cap s) := by
    unfold bootstrap
    unfold SeqIdle at *
    cases s.jq with
    | nil => exact h
    | cons j js =>
      dsimp only
      rw [if_neg]
      · rw [h, List.replicate_succ']
      · rintro ⟨hlt, -⟩
        omega
  unfold rrStep
  split
  · exact h
  · dsimp only
    split
    · exact hblocks _ hboot
    · exact hblocks s h

lemma seqIdle_stepsN {cap : Int} (hc : cap ≤ 0) (opt : Bool) (q : Int) (n : Nat) (s : RRState)
    (h : SeqIdle s) : SeqIdle (stepsN opt q cap n s) := by
  induction n generalizing s with
  | zero => exact h
  | succ n ih => exact ih _ (seqIdle_rrStep hc opt q s h)

/-- C8: the computed `start_time`/`finish_time` (indeed the whole core state:
clock, queues, remaining-burst table, process records, and the count of
bootstrap executions) are independent of `max_seq_len`; and with
`max_seq_len = 0` the trace consists exactly of the idle markers emitted by the
bootstrap-dispatch branch, one per execution of that branch.  Proved for every
input, with no well-formedness assumption. -/
theorem C8_cap_independent (q c₁ c₂ : Int) (procs : List Process) :
    (simulate_rr q c₁ procs).processes = (simulate_rr q c₂ procs).processes ∧
    (simulate_rr q 0 procs).seq
      = List.replicate (simulate_rr q 0 procs).boots (-1) := by
  constructor
  · exact (sameCore_stepsN true q c₁ c₂ (fuelBound procs)
      ⟨rfl, rfl, rfl, rfl, rfl, rfl⟩).2.2.2.2.1
  · exact seqIdle_stepsN le_rfl true q (fuelBound procs) (initState procs) rfl

/-! ## Claim C3: the trace cap

Every emission point checks `seq.size() < max_seq_len` before appending except
the bootstrap idle marker, which is appended unconditionally; hence the trace
never grows past `max_seq_len` plus the number of executions of the bootstrap
branch (counted by the ghost field `boots`). -/

/-- Trace-length bound: `|seq| ≤ max_seq_len + boots`. -/
def SeqBound (cap : Int) (s : RRState) : Prop := (s.seq.length : Int) ≤ cap + s.boots

lemma pushCompressed_length_le {cap B : Int} {sq : List Int} (x : Int)
    (hB : 0 ≤ B) (h : (sq.length : Int) ≤ cap + B) :
    ((pushCompressed cap sq x).length : Int) ≤ cap + B := by
  unfold pushCompressed
  split
  · next hcond =>
    simp only [List.length_append, List.length_cons, List.length_nil]
    push_cast
    omega
  · exact h

lemma nat_repeat_emitRound_length_le {cap B : Int} (rq : List Int) (n : Nat)
    (sq : List Int) (hB : 0 ≤ B) (h : (sq.length : Int) ≤ cap + B) :
    ((Nat.repeat (emitRound cap rq) n sq).length : Int) ≤ cap + B := by
  have hem : ∀ sq', (sq'.length : Int) ≤ cap + B →
      ((emitRound cap rq sq').length : Int) ≤ cap + B := by
    intro sq'
    unfold emitRound
    induction rq generalizing sq' with
    | nil => exact fun h' => h'
    | cons p l ih =>
      intro h'
      rw [List.foldl_cons]
      exact ih _ (pushCompressed_length_le p hB h')
  induction n with
  | zero => exact h
  | succ n ih => exact hem _ ih

lemma seqBound_rrStep {cap : Int} (opt : Bool) (q : Int) (s : RRState)
    (h : SeqBound cap s) : SeqBound cap (rrStep opt q cap s) := by
  have hb0 : ∀ s' : RRState, (0 : Int) ≤ s'.boots := fun s' => Int.ofNat_nonneg s'.boots
  have happly : ∀ (k : Int) (s' : RRState), SeqBound cap s' →
      SeqBound cap (applyBulk q cap k s') := by
    intro k s' h'
    unfold SeqBound at *
    show ((Nat.repeat (emitRound cap s'.rq) _ s'.seq).length : Int) ≤ cap + _
    exact nat_repeat_emitRound_length_le _ _ _ (hb0 s') h'
  have hseq3 : ∀ s' : RRState, SeqBound cap s' → SeqBound cap (singleStep3 q cap s') := by
    intro s' h'
    unfold singleStep3
    unfold SeqBound at *
    cases s'.rq with
    | nil => exact h'
    | cons hd tl =>
      dsimp only
      split
      · split
        · split <;> exact pushCompressed_length_le _ (hb0 s') h'
        · exact pushCompressed_length_le _ (hb0 s') h'
      · cases s'.jq with
        | nil => exact pushCompressed_length_le _ (hb0 s') h'
        | cons j js =>
          dsimp only
          split <;> exact pushCompressed_length_le _ (hb0 s') h'
  have hseq5 : ∀ s' : RRState, SeqBound cap s' → SeqBound cap (singleStep5 q cap s') := by
    intro s' h'
    unfold singleStep5
    unfold SeqBound at *
    cases s'.rq with
    | nil => exact h'
    | cons hd tl =>
      dsimp only
      split <;> exact pushCompressed_length_le _ (hb0 s') h'
  have hfin : ∀ s' : RRState, SeqBound cap s' → SeqBound cap (finishLast cap s') := by
    intro s' h'
    unfold finishLast
    unfold SeqBound at *
    cases s'.rq with
    | nil => exact h'
    | cons hd tl => exact pushCompressed_length_le _ (hb0 s') h'
  have hblocks : ∀ s' : RRState, SeqBound cap s' →
      SeqBound cap (if s'.jq = [] then block5 opt q cap s' else block3 opt q cap s') := by
    intro s' h'
    split
    · unfold block5
      split
      · exact hfin s' h'
      · cases opt with
        | false => exact hseq5 s' h'
        | true =>
          unfold bulk5
          by_cases hf : bulkFlag q s'.remaining_bursts s'.rq = true
          · simp only [hf, if_true]
            exact hseq5 _ (happly _ s' h')
          · simp only [hf, if_false]
            exact hseq5 s' h'
    · unfold block3
      by_cases ha : (getP s'.processes (s'.jq.headD 0)).arrival_time = s'.curr_time
      · simp only [ha, if_true]
        exact h'
      · simp only [ha, if_false]
        cases opt with
        | false => exact hseq3 s' h'
        | true =>
          unfold bulk3
          dsimp only
          by_cases hg :
              s'.curr_time + (s'.rq.length : Int) * q
                  < (getP s'.processes (s'.jq.headD 0)).arrival_time ∧
                bulkFlag q s'.remaining_bursts s'.rq = true
          · simp only [hg, if_true]
            exact hseq3 _ (happly _ s' h')
          · simp only [hg, if_false]
            exact hseq3 s' h'
  have hboot : SeqBound cap (bootstrap cap s) := by
    unfold bootstrap
    unfold SeqBound at *
    cases s.jq with
    | nil => exact h
    | cons j js =>
      dsimp only
      split <;>
        · simp only [List.length_append, List.length_cons, List.length_nil]
          push_cast
          omega
  unfold rrStep
  split
  · exact h
  · dsimp only
    split
    · exact hblocks _ hboot
    · exact hblocks s h

lemma seqBound_stepsN {cap : Int} (opt : Bool) (q : Int) (n : Nat) (s : RRState)
    (h : SeqBound cap s) : SeqBound cap (stepsN opt q cap n s) := by
  induction n generalizing s with
  | zero => exact h
  | succ n ih => exact ih _ (seqBound_rrStep opt q s h)

/-- C3: with `max_seq_len ≥ 0`, the final trace length is at most
`max_seq_len` plus the number of executions of the bootstrap-dispatch branch
(the `boots` ghost counter): every other emission point appends only when the
length is strictly below the cap, while the bootstrap idle marker is appended
without checking it. -/
theorem C3_trace_cap (q cap : Int) (procs : List Process) (hc : 0 ≤ cap) :
    ((simulate_rr q cap procs).seq.length : Int)
      ≤ cap + (simulate_rr q cap procs).boots := by
  refine seqBound_stepsN true q (fuelBound procs) (initState procs) ?_
  unfold SeqBound initState
  simpa using hc

/-- Witness for C3 at a concrete input. -/
theorem C3_trace_cap_witness :
    (0 : Int) ≤ 2 ∧
    ((simulate_rr 1 2 [⟨0, 0, 3, -1, -1⟩, ⟨1, 7, 2, -1, -1⟩]).seq.length : Int)
      ≤ 2 + (simulate_rr 1 2 [⟨0, 0, 3, -1, -1⟩, ⟨1, 7, 2, -1, -1⟩]).boots :=
  ⟨by decide, C3_trace_cap 1 2 [⟨0, 0, 3, -1, -1⟩, ⟨1, 7, 2, -1, -1⟩] (by decide)⟩

/-! ## Infrastructure: table accounting, fold characterizations -/

/-- Total clamped remaining burst, the main component of the termination
measure. -/
def remSum (bs : List Int) : Nat := (bs.map Int.toNat).sum

lemma remSum_nil : remSum [] = 0 := rfl

lemma remSum_cons (b : Int) (l : List Int) : remSum (b :: l) = b.toNat + remSum l := by
  simp [remSum]

lemma remSum_set (bs : List Int) (i : Nat) (v : Int) (h : i < bs.length) :
    remSum (bs.set i v) + (bs.getD i 0).toNat = remSum bs + v.toNat := by
  induction bs generalizing i with
  | nil => simp at h
  | cons b l ih =>
    cases i with
    | zero => simp [remSum_cons]; omega
    | succ n =>
      simp only [List.set, List.getD_cons_succ, remSum_cons]
      have := ih n (by simpa using h)
      omega

lemma remSum_setB (bs : List Int) (i v : Int) (h : i.toNat < bs.length) :
    remSum (setB bs i v) + (getB bs i).toNat = remSum bs + v.toNat :=
  remSum_set bs i.toNat v h

lemma remSum_setB_le (bs : List Int) (i v : Int) (hv : v ≤ getB bs i) :
    remSum (setB bs i v) ≤ remSum bs := by
  by_cases h : i.toNat < bs.length
  · have := remSum_setB bs i v h
    have hm : v.toNat ≤ (getB bs i).toNat := Int.toNat_le_toNat hv
    omega
  · unfold setB
    rw [List.set_eq_of_length_le (by omega)]

lemma getP_set_self {ps : List Process} {n : Nat} (v : Process) (h : n < ps.length)
    {x : Int} (hx : x.toNat = n) : getP (ps.set n v) x = v := by
  simp [getP, hx, List.getD, List.getElem?_set_self, h]

lemma getP_set_ne {ps : List Process} {n : Nat} (v : Process) {x : Int} (hx : n ≠ x.toNat) :
    getP (ps.set n v) x = getP ps x := by
  simp [getP, List.getD, List.getElem?_set_ne hx]

/-- Transfer of length across frame preservation. -/
lemma length_eq_of_frame {ps₁ ps₂ : List Process} (h : ps₁.map frameOf = ps₂.map frameOf) :
    ps₁.length = ps₂.length := by
  have := congrArg List.length h
  simpa using this

/-- Transfer of arrival times across frame preservation. -/
lemma arrival_eq_of_frame {ps₁ ps₂ : List Process} (h : ps₁.map frameOf = ps₂.map frameOf)
    (x : Int) : (getP ps₁ x).arrival_time = (getP ps₂ x).arrival_time := by
  have h1 : (ps₁.map frameOf).getD x.toNat (frameOf ⟨0, 0, 0, 0, 0⟩)
      = frameOf (ps₁.getD x.toNat ⟨0, 0, 0, 0, 0⟩) := List.getD_map _ _ _
  have h2 : (ps₂.map frameOf).getD x.toNat (frameOf ⟨0, 0, 0, 0, 0⟩)
      = frameOf (ps₂.getD x.toNat ⟨0, 0, 0, 0, 0⟩) := List.getD_map _ _ _
  rw [h] at h1
  have := h1.symm.trans h2
  exact congrArg (fun z => z.2.1) this

lemma length_foldl_setB (q k : Int) (L bs : List Int) :
    (L.foldl (fun b p => setB b p (getB b p - q * k)) bs).length = bs.length := by
  induction L generalizing bs with
  | nil => rfl
  | cons p L ih => rw [List.foldl_cons, ih, length_setB]

/-- Effect of the bulk-skip burst-decrement loop on each table entry. -/
lemma getB_foldl_dec (q k : Int) (L : List Int) (bs : List Int)
    (hmem : ∀ p ∈ L, p.toNat < bs.length)
    (hnd : (L.map Int.toNat).Nodup) (x : Int) :
    getB (L.foldl (fun b p => setB b p (getB b p - q * k)) bs) x
      = if x.toNat ∈ L.map Int.toNat then getB bs x - q * k else getB bs x := by
  induction L generalizing bs with
  | nil => simp
  | cons p L ih =>
    rw [List.foldl_cons]
    have hlen : (setB bs p (getB bs p - q * k)).length = bs.length := length_setB ..
    have hndt : (L.map Int.toNat).Nodup := (List.nodup_cons.mp hnd).2
    have hpn : p.toNat ∉ L.map Int.toNat := (List.nodup_cons.mp hnd).1
    rw [ih _ (fun r hr => hlen ▸ hmem r (List.mem_cons_of_mem _ hr)) hndt, List.map_cons]
    by_cases hx : x.toNat ∈ L.map Int.toNat
    · rw [if_pos hx, if_pos (List.mem_cons_of_mem _ hx)]
      rw [getB_setB_ne _ (fun hh : p.toNat = x.toNat => hpn (hh ▸ hx))]
    · by_cases hxp : x.toNat = p.toNat
      · rw [if_neg hx, if_pos (by rw [hxp]; exact List.mem_cons_self _ _)]
        have hp : p.toNat < bs.length := hmem p (List.mem_cons_self _ _)
        have hgx : getB bs p = getB bs x := by
          unfold getB
          rw [hxp]
        have : getB (setB bs p (getB bs p - q * k)) x = getB bs p - q * k := by
          unfold getB setB
          rw [hxp]
          simp [List.getD, List.getElem?_set_self, hp]
        rw [this, hgx]
      · rw [if_neg hx,
          if_neg (fun hm => (List.mem_cons.mp hm).elim hxp hx)]
        exact getB_setB_ne _ (fun hh : p.toNat = x.toNat => hxp hh.symm)

lemma remSum_foldl_dec_le (q k : Int) (hqk : 0 ≤ q * k) (L : List Int) (bs : List Int) :
    remSum (L.foldl (fun b p => setB b p (getB b p - q * k)) bs) ≤ remSum bs := by
  induction L generalizing bs with
  | nil => exact le_rfl
  | cons p L ih =>
    rw [List.foldl_cons]
    exact (ih _).trans (remSum_setB_le _ _ _ (by omega))

lemma bulkFlag_iff (q : Int) (bs rq : List Int) :
    bulkFlag q bs rq = true ↔ ∀ p ∈ rq, q < getB bs p := by
  unfold bulkFlag
  simp

lemma minBursts_le_mem {bs rq : List Int} {p : Int} (hp : p ∈ rq) :
    minBursts bs rq ≤ getB bs p := by
  unfold minBursts
  have key : ∀ (L : List Int) (i : Int),
      (L.foldl (fun a r => min a (getB bs r)) i ≤ i) ∧
      (∀ r ∈ L, L.foldl (fun a r => min a (getB bs r)) i ≤ getB bs r) := by
    intro L
    induction L with
    | nil => exact fun i => ⟨le_rfl, fun r hr => absurd hr (List.not_mem_nil r)⟩
    | cons a L ih =>
      intro i
      constructor
      · exact ((ih _).1).trans (min_le_left _ _)
      · intro r hr
        rcases List.mem_cons.mp hr with h | h
        · subst h
          exact ((ih _).1).trans (min_le_right _ _)
        · exact (ih _).2 r h
  exact (key rq _).2 p hp

lemma lt_minBursts {q : Int} {bs rq : List Int} (hne : rq ≠ [])
    (hall : ∀ p ∈ rq, q < getB bs p) : q < minBursts bs rq := by
  unfold minBursts
  have hhead : q < getB bs (rq.headD 0) := by
    cases rq with
    | nil => exact absurd rfl hne
    | cons a l => exact hall a (List.mem_cons_self _ _)
  have key : ∀ (L : List Int) (i : Int), q < i → (∀ r ∈ L, q < getB bs r) →
      q < L.foldl (fun a r => min a (getB bs r)) i := by
    intro L
    induction L with
    | nil => exact fun i hi _ => hi
    | cons a L ih =>
      intro i hi hL
      rw [List.foldl_cons]
      exact ih _ (lt_min hi (hL a (List.mem_cons_self _ _)))
        (fun r hr => hL r (List.mem_cons_of_mem _ hr))
  exact key rq _ hhead (fun r hr => hall r hr)

/-- Arithmetic of `n`: at least one round, and after `n` rounds the minimum
remaining burst lies in `[1, q]`. -/
lemma bulkN_spec {q mbv : Int} (hq : 1 ≤ q) (hmb : q < mbv)
    {bs rq : List Int} (hmbv : minBursts bs rq = mbv) :
    1 ≤ bulkN q bs rq ∧ 1 ≤ mbv - q * bulkN q bs rq ∧ mbv - q * bulkN q bs rq ≤ q := by
  have hq0 : (0 : Int) < q := by omega
  have hdr : q * (mbv / q) + mbv % q = mbv := Int.ediv_add_emod mbv q
  have hr0 : 0 ≤ mbv % q := Int.emod_nonneg mbv (by omega)
  have hrq : mbv % q < q := Int.emod_lt_of_pos mbv hq0
  have hd1 : 1 ≤ mbv / q := by
    rw [Int.le_ediv_iff_mul_le hq0]
    omega
  unfold bulkN
  rw [hmbv]
  by_cases hr : mbv % q = 0
  · rw [if_pos hr]
    have hd2 : 2 ≤ mbv / q := by
      by_contra hcon
      have : mbv / q = 1 := by omega
      rw [this] at hdr
      omega
    refine ⟨by omega, ?_, ?_⟩ <;>
      · have : q * (mbv / q - 1) = q * (mbv / q) - q := by ring
        omega
  · rw [if_neg hr]
    refine ⟨by omega, by omega, by omega⟩

/-- The fields of `setStartIfUnset` other than the target's unset
`start_time`. -/
lemma getP_setStartIfUnset_ne (ps : List Process) (y t : Int) {x : Int}
    (hx : y.toNat ≠ x.toNat) : getP (setStartIfUnset ps y t) x = getP ps x := by
  unfold setStartIfUnset
  split
  · exact getP_set_ne _ hx
  · rfl

lemma getP_setStartIfUnset_self (ps : List Process) (y t : Int) {x : Int}
    (hx : x.toNat = y.toNat) (hy : y.toNat < ps.length) :
    getP (setStartIfUnset ps y t) x
      = (if (getP ps y).start_time = -1 then { getP ps y with start_time := t }
         else getP ps y) := by
  unfold setStartIfUnset
  split
  · exact getP_set_self _ hy hx
  · unfold getP
    rw [hx]

lemma start_setFinish (ps : List Process) (y t : Int) (x : Int) :
    (getP (setFinish ps y t) x).start_time = (getP ps x).start_time := by
  unfold setFinish
  by_cases hx : y.toNat = x.toNat
  · by_cases hy : y.toNat < ps.length
    · rw [getP_set_self _ hy hx.symm]
      unfold getP
      rw [hx]
    · unfold getP
      rw [List.set_eq_of_length_le (by omega)]
  · rw [getP_set_ne _ hx]

lemma arrival_setFinish (ps : List Process) (y t : Int) (x : Int) :
    (getP (setFinish ps y t) x).arrival_time = (getP ps x).arrival_time :=
  arrival_eq_of_frame (map_frameOf_setFinish ps y t) x

lemma arrival_setStartIfUnset (ps : List Process) (y t : Int) (x : Int) :
    (getP (setStartIfUnset ps y t) x).arrival_time = (getP ps x).arrival_time :=
  arrival_eq_of_frame (map_frameOf_setStartIfUnset ps y t) x

lemma start_stable_setStartIfUnset (ps : List Process) (y t : Int) {x : Int}
    (hx : (getP ps x).start_time ≠ -1) :
    (getP (setStartIfUnset ps y t) x).start_time = (getP ps x).start_time := by
  unfold setStartIfUnset
  split
  · next hy =>
    by_cases hxy : y.toNat = x.toNat
    · exfalso
      apply hx
      have : getP ps x = getP ps y := by
        unfold getP
        rw [hxy]
      rw [this]
      exact hy
    · rw [getP_set_ne _ hxy]
  · rfl

/-! ## Branch characterization lemmas

One rewriting lemma per control path of the loop body; all later invariant and
equivalence proofs go through these. -/

lemma bootstrap_eq (cap : Int) (s : RRState) (j : Int) (js : List Int)
    (hjq : s.jq = j :: js) :
    bootstrap cap s = { s with
      rq := s.rq ++ [j]
      jq := js
      curr_time := (getP s.processes j).arrival_time
      seq := if (s.seq.length : Int) < cap ∧ (getP s.processes j).arrival_time = 0
             then s.seq ++ [(s.rq ++ [j]).headD 0] else s.seq ++ [-1]
      boots := s.boots + 1 } := by
  unfold bootstrap
  rw [hjq]

lemma pred_arrival_setStart (ps : List Process) (y t c : Int) :
    (fun p => decide ((getP (setStartIfUnset ps y t) p).arrival_time < c))
      = (fun p => decide ((getP ps p).arrival_time < c)) :=
  funext fun p => by rw [arrival_setStartIfUnset]

lemma singleStep3_preempt_tie_eq (q cap : Int) (s : RRState) (h : Int) (t : List Int)
    (hrq : s.rq = h :: t) (hgt : q < getB s.remaining_bursts h) (j : Int) (js : List Int)
    (hd : s.jq.dropWhile
        (fun p => decide ((getP s.processes p).arrival_time < s.curr_time + q)) = j :: js)
    (htie : (getP s.processes j).arrival_time = s.curr_time + q) :
    singleStep3 q cap s = { s with
      processes := setStartIfUnset s.processes h s.curr_time
      curr_time := s.curr_time + q
      seq := pushCompressed cap s.seq h
      remaining_bursts := setB s.remaining_bursts h (getB s.remaining_bursts h - q)
      rq := t ++ s.jq.takeWhile
          (fun p => decide ((getP s.processes p).arrival_time < s.curr_time + q)) ++ [h, j]
      jq := js } := by
  unfold singleStep3
  rw [hrq]
  dsimp only
  rw [if_pos hgt, pred_arrival_setStart, hd]
  dsimp only
  rw [if_pos (by rw [arrival_setStartIfUnset]; exact htie)]

lemma singleStep3_preempt_notie_eq (q cap : Int) (s : RRState) (h : Int) (t : List Int)
    (hrq : s.rq = h :: t) (hgt : q < getB s.remaining_bursts h) (j : Int) (js : List Int)
    (hd : s.jq.dropWhile
        (fun p => decide ((getP s.processes p).arrival_time < s.curr_time + q)) = j :: js)
    (htie : (getP s.processes j).arrival_time ≠ s.curr_time + q) :
    singleStep3 q cap s = { s with
      processes := setStartIfUnset s.processes h s.curr_time
      curr_time := s.curr_time + q
      seq := pushCompressed cap s.seq h
      remaining_bursts := setB s.remaining_bursts h (getB s.remaining_bursts h - q)
      rq := t ++ s.jq.takeWhile
          (fun p => decide ((getP s.processes p).arrival_time < s.curr_time + q)) ++ [h]
      jq := j :: js } := by
  unfold singleStep3
  rw [hrq]
  dsimp only
  rw [if_pos hgt, pred_arrival_setStart, hd]
  dsimp only
  rw [if_neg (by rw [arrival_setStartIfUnset]; exact htie)]

lemma singleStep3_preempt_empty_eq (q cap : Int) (s : RRState) (h : Int) (t : List Int)
    (hrq : s.rq = h :: t) (hgt : q < getB s.remaining_bursts h)
    (hd : s.jq.dropWhile
        (fun p => decide ((getP s.processes p).arrival_time < s.curr_time + q)) = []) :
    singleStep3 q cap s = { s with
      processes := setStartIfUnset s.processes h s.curr_time
      curr_time := s.curr_time + q
      seq := pushCompressed cap s.seq h
      remaining_bursts := setB s.remaining_bursts h (getB s.remaining_bursts h - q)
      rq := t ++ s.jq.takeWhile
          (fun p => decide ((getP s.processes p).arrival_time < s.curr_time + q)) ++ [h]
      jq := [] } := by
  unfold singleStep3
  rw [hrq]
  dsimp only
  rw [if_pos hgt, pred_arrival_setStart, hd]

lemma singleStep3_complete_admit_eq (q cap : Int) (s : RRState) (h : Int) (t : List Int)
    (hrq : s.rq = h :: t) (hgt : ¬ q < getB s.remaining_bursts h) (j : Int) (js : List Int)
    (hjq : s.jq = j :: js)
    (hadm : (getP s.processes j).arrival_time ≤ s.curr_time + getB s.remaining_bursts h) :
    singleStep3 q cap s = { s with
      processes := setFinish (setStartIfUnset s.processes h s.curr_time) h
        (s.curr_time + getB s.remaining_bursts h)
      curr_time := s.curr_time + getB s.remaining_bursts h
      seq := pushCompressed cap s.seq h
      remaining_bursts := setB s.remaining_bursts h 0
      rq := t ++ [j]
      jq := js } := by
  unfold singleStep3
  rw [hrq]
  dsimp only
  rw [if_neg hgt, hjq]
  dsimp only
  rw [if_pos (by rw [arrival_setFinish, arrival_setStartIfUnset]; exact hadm)]

lemma singleStep3_complete_noadmit_eq (q cap : Int) (s : RRState) (h : Int) (t : List Int)
    (hrq : s.rq = h :: t) (hgt : ¬ q < getB s.remaining_bursts h) (j : Int) (js : List Int)
    (hjq : s.jq = j :: js)
    (hadm : ¬ (getP s.processes j).arrival_time ≤ s.curr_time + getB s.remaining_bursts h) :
    singleStep3 q cap s = { s with
      processes := setFinish (setStartIfUnset s.processes h s.curr_time) h
        (s.curr_time + getB s.remaining_bursts h)
      curr_time := s.curr_time + getB s.remaining_bursts h
      seq := pushCompressed cap s.seq h
      remaining_bursts := setB s.remaining_bursts h 0
      rq := t
      jq := j :: js } := by
  unfold singleStep3
  rw [hrq]
  dsimp only
  rw [if_neg hgt, hjq]
  dsimp only
  rw [if_neg (by rw [arrival_setFinish, arrival_setStartIfUnset]; exact hadm)]

lemma finishLast_eq (cap : Int) (s : RRState) (h : Int) (t : List Int)
    (hrq : s.rq = h :: t) :
    finishLast cap s = { s with
      processes := setFinish (setStartIfUnset s.processes h s.curr_time) h
        (s.curr_time + getB s.remaining_bursts h)
      curr_time := s.curr_time + getB s.remaining_bursts h
      seq := pushCompressed cap s.seq h
      remaining_bursts := setB s.remaining_bursts h 0
      rq := t } := by
  unfold finishLast
  rw [hrq]

lemma singleStep5_preempt_eq (q cap : Int) (s : RRState) (h : Int) (t : List Int)
    (hrq : s.rq = h :: t) (hgt : q < getB s.remaining_bursts h) :
    singleStep5 q cap s = { s with
      processes := setStartIfUnset s.processes h s.curr_time
      curr_time := s.curr_time + q
      seq := pushCompressed cap s.seq h
      remaining_bursts := setB s.remaining_bursts h (getB s.remaining_bursts h - q)
      rq := t ++ [h] } := by
  unfold singleStep5
  rw [hrq]
  dsimp only
  rw [if_pos hgt]

lemma singleStep5_complete_eq (q cap : Int) (s : RRState) (h : Int) (t : List Int)
    (hrq : s.rq = h :: t) (hgt : ¬ q < getB s.remaining_bursts h) :
    singleStep5 q cap s = { s with
      processes := setFinish (setStartIfUnset s.processes h s.curr_time) h
        (s.curr_time + getB s.remaining_bursts h)
      curr_time := s.curr_time + getB s.remaining_bursts h
      seq := pushCompressed cap s.seq h
      remaining_bursts := setB s.remaining_bursts h 0
      rq := t } := by
  unfold singleStep5
  rw [hrq]
  dsimp only
  rw [if_neg hgt]

lemma bulk3_pos_eq (q cap : Int) (s : RRState)
    (hg : s.curr_time + (s.rq.length : Int) * q
        < (getP s.processes (s.jq.headD 0)).arrival_time)
    (hf : bulkFlag q s.remaining_bursts s.rq = true) :
    bulk3 q cap s = applyBulk q cap
      (min (bulkN q s.remaining_bursts s.rq)
        (((getP s.processes (s.jq.headD 0)).arrival_time - s.curr_time)
          / ((s.rq.length : Int) * q))) s := by
  unfold bulk3
  dsimp only
  rw [if_pos ⟨hg, hf⟩]

lemma bulk3_neg_eq (q cap : Int) (s : RRState)
    (hng : ¬ (s.curr_time + (s.rq.length : Int) * q
        < (getP s.processes (s.jq.headD 0)).arrival_time ∧
      bulkFlag q s.remaining_bursts s.rq = true)) :
    bulk3 q cap s = s := by
  unfold bulk3
  dsimp only
  rw [if_neg hng]

lemma bulk5_pos_eq (q cap : Int) (s : RRState)
    (hf : bulkFlag q s.remaining_bursts s.rq = true) :
    bulk5 q cap s = applyBulk q cap (bulkN q s.remaining_bursts s.rq) s := by
  unfold bulk5
  rw [if_pos hf]

lemma bulk5_neg_eq (q cap : Int) (s : RRState)
    (hf : ¬ bulkFlag q s.remaining_bursts s.rq = true) :
    bulk5 q cap s = s := by
  unfold bulk5
  rw [if_neg hf]

lemma block3_caseA_eq (opt : Bool) (q cap : Int) (s : RRState)
    (ha : (getP s.processes (s.jq.headD 0)).arrival_time = s.curr_time) :
    block3 opt q cap s = { s with rq := s.rq ++ [s.jq.headD 0], jq := s.jq.tail } := by
  unfold block3
  rw [if_pos ha]

lemma block3_go_eq (opt : Bool) (q cap : Int) (s : RRState)
    (ha : (getP s.processes (s.jq.headD 0)).arrival_time ≠ s.curr_time) :
    block3 opt q cap s = singleStep3 q cap (if opt then bulk3 q cap s else s) := by
  unfold block3
  rw [if_neg ha]

lemma block5_one_eq (opt : Bool) (q cap : Int) (s : RRState) (hl : s.rq.length = 1) :
    block5 opt q cap s = finishLast cap s := by
  unfold block5
  rw [if_pos hl]

lemma block5_go_eq (opt : Bool) (q cap : Int) (s : RRState) (hl : s.rq.length ≠ 1) :
    block5 opt q cap s = singleStep5 q cap (if opt then bulk5 q cap s else s) := by
  unfold block5
  rw [if_neg hl]

lemma rrStep_done_eq (opt : Bool) (q cap : Int) (s : RRState) (hrq : s.rq = [])
    (hjq : s.jq = []) : rrStep opt q cap s = s := by
  unfold rrStep
  rw [if_pos ⟨hrq, hjq⟩]

lemma rrStep_boot_eq (opt : Bool) (q cap : Int) (s : RRState) (hrq : s.rq = [])
    (hjq : s.jq ≠ []) :
    rrStep opt q cap s = (if (bootstrap cap s).jq = [] then block5 opt q cap (bootstrap cap s)
      else block3 opt q cap (bootstrap cap s)) := by
  unfold rrStep
  rw [if_neg (fun hh => hjq hh.2), if_pos hrq]

lemma rrStep_b3_eq (opt : Bool) (q cap : Int) (s : RRState) (hrq : s.rq ≠ [])
    (hjq : s.jq ≠ []) : rrStep opt q cap s = block3 opt q cap s := by
  unfold rrStep
  rw [if_neg (fun hh => hrq hh.1), if_neg hrq, if_neg hjq]

lemma rrStep_b5_eq (opt : Bool) (q cap : Int) (s : RRState) (hrq : s.rq ≠ [])
    (hjq : s.jq = []) : rrStep opt q cap s = block5 opt q cap s := by
  unfold rrStep
  rw [if_neg (fun hh => hrq hh.1), if_neg hrq, if_pos hjq]

/-! ## The state invariant and the termination measure -/

/-- Invariant maintained by the loop on well-formed input: queues hold valid,
pairwise-distinct indices of processes with positive remaining burst, every
ready process has arrived, pending arrivals are nonnegative, and the clock is
nonnegative. -/
structure LoopInv (q : Int) (s : RRState) : Prop where
  hq : 1 ≤ q
  lenB : s.remaining_bursts.length = s.processes.length
  mem_rq : ∀ p ∈ s.rq, 0 ≤ p ∧ p.toNat < s.processes.length
  mem_jq : ∀ p ∈ s.jq, 0 ≤ p ∧ p.toNat < s.processes.length
  pos_rq : ∀ p ∈ s.rq, 1 ≤ getB s.remaining_bursts p
  pos_jq : ∀ p ∈ s.jq, 1 ≤ getB s.remaining_bursts p
  nodup : (s.rq ++ s.jq).Nodup
  arr_rq : ∀ p ∈ s.rq, (getP s.processes p).arrival_time ≤ s.curr_time
  arr_jq : ∀ p ∈ s.jq, 0 ≤ (getP s.processes p).arrival_time
  curr_nn : 0 ≤ s.curr_time

/-- Termination measure: total clamped remaining burst plus pending count. -/
def measureN (s : RRState) : Nat := remSum s.remaining_bursts + s.jq.length

lemma toNat_ne_of_ne {a b : Int} (ha : 0 ≤ a) (hb : 0 ≤ b) (h : a ≠ b) :
    a.toNat ≠ b.toNat := by omega

lemma toNat_nodup_of {L : List Int} (hnn : ∀ p ∈ L, 0 ≤ p) (hnd : L.Nodup) :
    (L.map Int.toNat).Nodup :=
  hnd.map_on (fun x hx y hy hxy => by
    have := hnn x hx
    have := hnn y hy
    omega)

lemma inv_bootstrap {q cap : Int} {s : RRState} (hI : LoopInv q s) {j : Int} {js : List Int}
    (hrq : s.rq = []) (hjq : s.jq = j :: js) :
    LoopInv q (bootstrap cap s) ∧ measureN (bootstrap cap s) + 1 = measureN s := by
  rw [bootstrap_eq cap s j js hjq]
  have hjm := hI.mem_jq j (hjq ▸ List.mem_cons_self _ _)
  constructor
  · constructor
    case hq => exact hI.hq
    case lenB => exact hI.lenB
    case mem_rq =>
      intro p hp
      rw [hrq] at hp
      simp only [List.nil_append] at hp
      rcases List.mem_singleton.mp hp with rfl
      exact hjm
    case mem_jq =>
      intro p hp
      exact hI.mem_jq p (hjq ▸ List.mem_cons_of_mem _ hp)
    case pos_rq =>
      intro p hp
      rw [hrq] at hp
      simp only [List.nil_append] at hp
      rcases List.mem_singleton.mp hp with rfl
      exact hI.pos_jq p (hjq ▸ List.mem_cons_self _ _)
    case pos_jq =>
      intro p hp
      exact hI.pos_jq p (hjq ▸ List.mem_cons_of_mem _ hp)
    case nodup =>
      have := hI.nodup
      rw [hrq, hjq] at this
      simpa [hrq] using this
    case arr_rq =>
      intro p hp
      rw [hrq] at hp
      simp only [List.nil_append] at hp
      rcases List.mem_singleton.mp hp with rfl
      exact le_rfl
    case arr_jq =>
      intro p hp
      exact hI.arr_jq p (hjq ▸ List.mem_cons_of_mem _ hp)
    case curr_nn => exact hI.arr_jq j (hjq ▸ List.mem_cons_self _ _)
  · unfold measureN
    rw [hjq]
    simp only [List.length_cons]
    omega

lemma inv_caseA {opt : Bool} {q cap : Int} {s : RRState} (hI : LoopInv q s) {j : Int}
    {js : List Int} (hjq : s.jq = j :: js)
    (ha : (getP s.processes (s.jq.headD 0)).arrival_time = s.curr_time) :
    LoopInv q (block3 opt q cap s) ∧ measureN (block3 opt q cap s) + 1 = measureN s ∧
    block3 opt q cap s = { s with rq := s.rq ++ [j], jq := js } := by
  have heq : block3 opt q cap s = { s with rq := s.rq ++ [j], jq := js } := by
    rw [block3_caseA_eq opt q cap s ha, hjq]
    rfl
  rw [heq]
  refine ⟨?_, ?_, rfl⟩
  · have hja : (getP s.processes j).arrival_time = s.curr_time := by
      rw [hjq] at ha
      exact ha
    constructor
    case hq => exact hI.hq
    case lenB => exact hI.lenB
    case mem_rq =>
      intro p hp
      rcases List.mem_append.mp hp with h | h
      · exact hI.mem_rq p h
      · rcases List.mem_singleton.mp h with rfl
        exact hI.mem_jq p (hjq ▸ List.mem_cons_self _ _)
    case mem_jq =>
      intro p hp
      exact hI.mem_jq p (hjq ▸ List.mem_cons_of_mem _ hp)
    case pos_rq =>
      intro p hp
      rcases List.mem_append.mp hp with h | h
      · exact hI.pos_rq p h
      · rcases List.mem_singleton.mp h with rfl
        exact hI.pos_jq p (hjq ▸ List.mem_cons_self _ _)
    case pos_jq =>
      intro p hp
      exact hI.pos_jq p (hjq ▸ List.mem_cons_of_mem _ hp)
    case nodup =>
      have := hI.nodup
      rw [hjq] at this
      have hperm : (s.rq ++ [j] ++ js).Perm (s.rq ++ j :: js) := by
        rw [List.append_assoc, List.singleton_append]
      rw [show s.rq ++ [j] ++ js = s.rq ++ j :: js by
        rw [List.append_assoc, List.singleton_append]]
      exact this
    case arr_rq =>
      intro p hp
      rcases List.mem_append.mp hp with h | h
      · exact hI.arr_rq p h
      · rcases List.mem_singleton.mp h with rfl
        exact le_of_eq hja
    case arr_jq =>
      intro p hp
      exact hI.arr_jq p (hjq ▸ List.mem_cons_of_mem _ hp)
    case curr_nn => exact hI.curr_nn
  · unfold measureN
    rw [hjq]
    simp only [List.length_cons]
    omega


/-- Invariant preservation along a single-quantum preemption: the head `h` runs
one quantum, arrivals `D` (drained, strictly earlier than the new time) are
appended before the head is requeued, same-instant arrivals `A` after it, `B`
stays pending.  Instantiating `D`, `A` covers every preemption path of blocks
3 and 5.  `LoopInv` ignores the trace, so the new `seq`/`boots` are arbitrary. -/
lemma inv_preempt_core {q : Int} {s : RRState} {h : Int} {t D A B : List Int}
    (sq' : List Int) (bo' : Nat) (hI : LoopInv q s)
    (hrq : s.rq = h :: t) (hgt : q < getB s.remaining_bursts h)
    (hsplit : s.jq = D ++ A ++ B)
    (hD : ∀ p ∈ D, (getP s.processes p).arrival_time ≤ s.curr_time + q)
    (hA : ∀ p ∈ A, (getP s.processes p).arrival_time ≤ s.curr_time + q) :
    LoopInv q { curr_time := s.curr_time + q
                rq := t ++ D ++ [h] ++ A
                jq := B
                remaining_bursts := setB s.remaining_bursts h (getB s.remaining_bursts h - q)
                processes := setStartIfUnset s.processes h s.curr_time
                seq := sq'
                boots := bo' } ∧
    measureN { curr_time := s.curr_time + q
               rq := t ++ D ++ [h] ++ A
               jq := B
               remaining_bursts := setB s.remaining_bursts h (getB s.remaining_bursts h - q)
               processes := setStartIfUnset s.processes h s.curr_time
               seq := sq'
               boots := bo' } + 1 ≤ measureN s := by
  have hq := hI.hq
  have hmemh := hI.mem_rq h (hrq ▸ List.mem_cons_self _ _)
  have hlenb := hI.lenB
  have hplen : (setStartIfUnset s.processes h s.curr_time).length = s.processes.length :=
    length_eq_of_frame (map_frameOf_setStartIfUnset s.processes h s.curr_time)
  have harr : ∀ x : Int, (getP (setStartIfUnset s.processes h s.curr_time) x).arrival_time
      = (getP s.processes x).arrival_time := arrival_setStartIfUnset s.processes h s.curr_time
  have hnd := hI.nodup
  rw [hrq, List.cons_append, List.nodup_cons] at hnd
  obtain ⟨hh, hnd'⟩ := hnd
  have hmemD : ∀ p ∈ D, p ∈ s.jq := by
    intro p hp
    rw [hsplit]
    exact List.mem_append.mpr (Or.inl (List.mem_append.mpr (Or.inl hp)))
  have hmemA : ∀ p ∈ A, p ∈ s.jq := by
    intro p hp
    rw [hsplit]
    exact List.mem_append.mpr (Or.inl (List.mem_append.mpr (Or.inr hp)))
  have hmemB : ∀ p ∈ B, p ∈ s.jq := by
    intro p hp
    rw [hsplit]
    exact List.mem_append.mpr (Or.inr hp)
  have hmem_tj : ∀ p, p ∈ t ∨ p ∈ s.jq → (0 ≤ p ∧ p.toNat < s.processes.length) := by
    intro p hp
    rcases hp with hp | hp
    · exact hI.mem_rq p (hrq ▸ List.mem_cons_of_mem _ hp)
    · exact hI.mem_jq p hp
  have hne_h : ∀ p, p ∈ t ∨ p ∈ s.jq → p.toNat ≠ h.toNat := by
    intro p hp
    have hpne : p ≠ h := by
      rintro rfl
      exact hh (List.mem_append.mpr hp)
    exact toNat_ne_of_ne (hmem_tj p hp).1 hmemh.1 hpne
  have hgB : ∀ p, p ∈ t ∨ p ∈ s.jq →
      getB (setB s.remaining_bursts h (getB s.remaining_bursts h - q)) p
        = getB s.remaining_bursts p := by
    intro p hp
    exact getB_setB_ne _ (fun hc => hne_h p hp hc.symm)
  have hgBh : getB (setB s.remaining_bursts h (getB s.remaining_bursts h - q)) h
      = getB s.remaining_bursts h - q :=
    getB_setB_self _ (by omega)
  have hsplitmem : ∀ p, p ∈ t ++ D ++ [h] ++ A →
      p = h ∨ p ∈ t ∨ p ∈ D ∨ p ∈ A := by
    intro p hp
    simp only [List.mem_append, List.mem_singleton] at hp
    rcases hp with ((hp | hp) | hp) | hp
    · exact Or.inr (Or.inl hp)
    · exact Or.inr (Or.inr (Or.inl hp))
    · exact Or.inl hp
    · exact Or.inr (Or.inr (Or.inr hp))
  constructor
  · constructor
    case hq => exact hq
    case lenB =>
      show (setB _ _ _).length = (setStartIfUnset _ _ _).length
      rw [length_setB, hplen, hlenb]
    case mem_rq =>
      intro p hp
      show 0 ≤ p ∧ p.toNat < (setStartIfUnset _ _ _).length
      rw [hplen]
      rcases hsplitmem p hp with rfl | hp | hp | hp
      · exact hmemh
      · exact hmem_tj p (Or.inl hp)
      · exact hmem_tj p (Or.inr (hmemD p hp))
      · exact hmem_tj p (Or.inr (hmemA p hp))
    case mem_jq =>
      intro p hp
      show 0 ≤ p ∧ p.toNat < (setStartIfUnset _ _ _).length
      rw [hplen]
      exact hmem_tj p (Or.inr (hmemB p hp))
    case pos_rq =>
      intro p hp
      show 1 ≤ getB (setB _ _ _) p
      rcases hsplitmem p hp with rfl | hp | hp | hp
      · rw [hgBh]
        omega
      · rw [hgB p (Or.inl hp)]
        exact hI.pos_rq p (hrq ▸ List.mem_cons_of_mem _ hp)
      · rw [hgB p (Or.inr (hmemD p hp))]
        exact hI.pos_jq p (hmemD p hp)
      · rw [hgB p (Or.inr (hmemA p hp))]
        exact hI.pos_jq p (hmemA p hp)
    case pos_jq =>
      intro p hp
      show 1 ≤ getB (setB _ _ _) p
      rw [hgB p (Or.inr (hmemB p hp))]
      exact hI.pos_jq p (hmemB p hp)
    case nodup =>
      show ((t ++ D ++ [h] ++ A) ++ B).Nodup
      have hnodup0 : (h :: (t ++ s.jq)).Nodup := List.nodup_cons.mpr ⟨hh, hnd'⟩
      have heq1 : (t ++ D ++ [h] ++ A) ++ B = (t ++ D) ++ (h :: (A ++ B)) := by
        simp [List.append_assoc]
      rw [heq1]
      apply List.Perm.nodup List.perm_middle.symm
      have heq2 : (t ++ D) ++ (A ++ B) = t ++ s.jq := by
        rw [hsplit]
        simp [List.append_assoc]
      rw [heq2]
      exact hnodup0
    case arr_rq =>
      intro p hp
      show (getP (setStartIfUnset _ _ _) p).arrival_time ≤ s.curr_time + q
      rw [harr]
      rcases hsplitmem p hp with rfl | hp | hp | hp
      · have := hI.arr_rq p (hrq ▸ List.mem_cons_self _ _)
        omega
      · have := hI.arr_rq p (hrq ▸ List.mem_cons_of_mem _ hp)
        omega
      · exact hD p hp
      · exact hA p hp
    case arr_jq =>
      intro p hp
      show 0 ≤ (getP (setStartIfUnset _ _ _) p).arrival_time
      rw [harr]
      exact hI.arr_jq p (hmemB p hp)
    case curr_nn =>
      show 0 ≤ s.curr_time + q
      have := hI.curr_nn
      omega
  · unfold measureN
    dsimp only
    have hsB := remSum_setB s.remaining_bursts h (getB s.remaining_bursts h - q)
      (by omega)
    have hlB : B.length ≤ s.jq.length := by
      rw [hsplit]
      simp only [List.length_append]
      omega
    omega

/-- Invariant preservation along a completion: head `h` runs to completion at
time `curr + remaining`, `A` (arrivals at or before that time) are admitted at
the tail, `B` stays pending.  `A := []`/`[j]` covers every completion path. -/
lemma inv_complete_core {q : Int} {s : RRState} {h : Int} {t A B : List Int}
    (sq' : List Int) (bo' : Nat) (hI : LoopInv q s)
    (hrq : s.rq = h :: t)
    (hsplit : s.jq = A ++ B)
    (hA : ∀ p ∈ A, (getP s.processes p).arrival_time
        ≤ s.curr_time + getB s.remaining_bursts h) :
    LoopInv q { curr_time := s.curr_time + getB s.remaining_bursts h
                rq := t ++ A
                jq := B
                remaining_bursts := setB s.remaining_bursts h 0
                processes := setFinish (setStartIfUnset s.processes h s.curr_time) h
                  (s.curr_time + getB s.remaining_bursts h)
                seq := sq'
                boots := bo' } ∧
    measureN { curr_time := s.curr_time + getB s.remaining_bursts h
               rq := t ++ A
               jq := B
               remaining_bursts := setB s.remaining_bursts h 0
               processes := setFinish (setStartIfUnset s.processes h s.curr_time) h
                 (s.curr_time + getB s.remaining_bursts h)
               seq := sq'
               boots := bo' } + 1 ≤ measureN s := by
  have hq := hI.hq
  have hmemh := hI.mem_rq h (hrq ▸ List.mem_cons_self _ _)
  have hv := hI.pos_rq h (hrq ▸ List.mem_cons_self _ _)
  have hlenb := hI.lenB
  have hps' : (setFinish (setStartIfUnset s.processes h s.curr_time) h
      (s.curr_time + getB s.remaining_bursts h)).map frameOf = s.processes.map frameOf := by
    rw [map_frameOf_setFinish, map_frameOf_setStartIfUnset]
  have hplen : (setFinish (setStartIfUnset s.processes h s.curr_time) h
      (s.curr_time + getB s.remaining_bursts h)).length = s.processes.length :=
    length_eq_of_frame hps'
  have harr : ∀ x : Int,
      (getP (setFinish (setStartIfUnset s.processes h s.curr_time) h
        (s.curr_time + getB s.remaining_bursts h)) x).arrival_time
      = (getP s.processes x).arrival_time := arrival_eq_of_frame hps'
  have hnd := hI.nodup
  rw [hrq, List.cons_append, List.nodup_cons] at hnd
  obtain ⟨hh, hnd'⟩ := hnd
  have hmemA : ∀ p ∈ A, p ∈ s.jq := by
    intro p hp
    rw [hsplit]
    exact List.mem_append.mpr (Or.inl hp)
  have hmemB : ∀ p ∈ B, p ∈ s.jq := by
    intro p hp
    rw [hsplit]
    exact List.mem_append.mpr (Or.inr hp)
  have hmem_tj : ∀ p, p ∈ t ∨ p ∈ s.jq → (0 ≤ p ∧ p.toNat < s.processes.length) := by
    intro p hp
    rcases hp with hp | hp
    · exact hI.mem_rq p (hrq ▸ List.mem_cons_of_mem _ hp)
    · exact hI.mem_jq p hp
  have hne_h : ∀ p, p ∈ t ∨ p ∈ s.jq → p.toNat ≠ h.toNat := by
    intro p hp
    have hpne : p ≠ h := by
      rintro rfl
      exact hh (List.mem_append.mpr hp)
    exact toNat_ne_of_ne (hmem_tj p hp).1 hmemh.1 hpne
  have hgB : ∀ p, p ∈ t ∨ p ∈ s.jq →
      getB (setB s.remaining_bursts h 0) p = getB s.remaining_bursts p := by
    intro p hp
    exact getB_setB_ne _ (fun hc => hne_h p hp hc.symm)
  constructor
  · constructor
    case hq => exact hq
    case lenB =>
      show (setB _ _ _).length = _
      rw [length_setB, hplen, hlenb]
    case mem_rq =>
      intro p hp
      show 0 ≤ p ∧ p.toNat < _
      rw [hplen]
      rcases List.mem_append.mp hp with hp | hp
      · exact hmem_tj p (Or.inl hp)
      · exact hmem_tj p (Or.inr (hmemA p hp))
    case mem_jq =>
      intro p hp
      show 0 ≤ p ∧ p.toNat < _
      rw [hplen]
      exact hmem_tj p (Or.inr (hmemB p hp))
    case pos_rq =>
      intro p hp
      show 1 ≤ getB (setB _ _ _) p
      rcases List.mem_append.mp hp with hp | hp
      · rw [hgB p (Or.inl hp)]
        exact hI.pos_rq p (hrq ▸ List.mem_cons_of_mem _ hp)
      · rw [hgB p (Or.inr (hmemA p hp))]
        exact hI.pos_jq p (hmemA p hp)
    case pos_jq =>
      intro p hp
      show 1 ≤ getB (setB _ _ _) p
      rw [hgB p (Or.inr (hmemB p hp))]
      exact hI.pos_jq p (hmemB p hp)
    case nodup =>
      show ((t ++ A) ++ B).Nodup
      have : (t ++ A) ++ B = t ++ s.jq := by
        rw [hsplit, List.append_assoc]
      rw [this]
      exact hnd'
    case arr_rq =>
      intro p hp
      show (getP _ p).arrival_time ≤ s.curr_time + getB s.remaining_bursts h
      rw [harr]
      rcases List.mem_append.mp hp with hp | hp
      · have := hI.arr_rq p (hrq ▸ List.mem_cons_of_mem _ hp)
        omega
      · exact hA p hp
    case arr_jq =>
      intro p hp
      show 0 ≤ (getP _ p).arrival_time
      rw [harr]
      exact hI.arr_jq p (hmemB p hp)
    case curr_nn =>
      show 0 ≤ s.curr_time + getB s.remaining_bursts h
      have := hI.curr_nn
      omega
  · unfold measureN
    dsimp only
    have hsB := remSum_setB s.remaining_bursts h 0 (by omega)
    have hlB : B.length ≤ s.jq.length := by
      rw [hsplit]
      simp only [List.length_append]
      omega
    omega

/-- Invariant preservation for the bulk-skip application, given that every
ready process keeps at least one unit of burst after the `k` rounds. -/
lemma inv_applyBulk {q cap k : Int} {s : RRState} (hI : LoopInv q s)
    (hk1 : 1 ≤ k)
    (hdec : ∀ p ∈ s.rq, 1 ≤ getB s.remaining_bursts p - q * k) :
    LoopInv q (applyBulk q cap k s) ∧ measureN (applyBulk q cap k s) ≤ measureN s := by
  have hq := hI.hq
  have hqk0 : 0 ≤ q * k := mul_nonneg (by omega) (by omega)
  have hcadd : 0 ≤ (s.rq.length : Int) * q * k :=
    mul_nonneg (mul_nonneg (Int.ofNat_nonneg _) (by omega)) (by omega)
  have hrqnd : s.rq.Nodup := (List.nodup_append.mp hI.nodup).1
  have hdisj : s.rq.Disjoint s.jq := (List.nodup_append.mp hI.nodup).2.2
  have hmapnd : (s.rq.map Int.toNat).Nodup :=
    toNat_nodup_of (fun p hp => (hI.mem_rq p hp).1) hrqnd
  have hmem' : ∀ p ∈ s.rq, p.toNat < s.remaining_bursts.length := by
    intro p hp
    rw [hI.lenB]
    exact (hI.mem_rq p hp).2
  have hgB := getB_foldl_dec q k s.rq s.remaining_bursts hmem' hmapnd
  have hps' : (applyBulk q cap k s).processes.map frameOf = s.processes.map frameOf :=
    map_frameOf_applyBulk q cap k s
  have hplen : (applyBulk q cap k s).processes.length = s.processes.length :=
    length_eq_of_frame hps'
  have harr : ∀ x : Int, (getP (applyBulk q cap k s).processes x).arrival_time
      = (getP s.processes x).arrival_time := arrival_eq_of_frame hps'
  have hjq_not : ∀ p ∈ s.jq, p.toNat ∉ s.rq.map Int.toNat := by
    intro p hp hmem
    rcases List.mem_map.mp hmem with ⟨r, hr, hrp⟩
    have : r = p := by
      have h1 := (hI.mem_rq r hr).1
      have h2 := (hI.mem_jq p hp).1
      omega
    exact hdisj (this ▸ hr) hp
  constructor
  · constructor
    case hq => exact hq
    case lenB =>
      show (s.rq.foldl _ s.remaining_bursts).length = _
      rw [length_foldl_setB, hI.lenB, ← hplen]
    case mem_rq =>
      intro p hp
      have := hI.mem_rq p hp
      show 0 ≤ p ∧ p.toNat < (applyBulk q cap k s).processes.length
      rw [hplen]
      exact this
    case mem_jq =>
      intro p hp
      have := hI.mem_jq p hp
      show 0 ≤ p ∧ p.toNat < (applyBulk q cap k s).processes.length
      rw [hplen]
      exact this
    case pos_rq =>
      intro p hp
      have hp' : p ∈ s.rq := hp
      show 1 ≤ getB (s.rq.foldl _ s.remaining_bursts) p
      rw [hgB p, if_pos (List.mem_map.mpr ⟨p, hp', rfl⟩)]
      exact hdec p hp'
    case pos_jq =>
      intro p hp
      have hp' : p ∈ s.jq := hp
      show 1 ≤ getB (s.rq.foldl _ s.remaining_bursts) p
      rw [hgB p, if_neg (hjq_not p hp')]
      exact hI.pos_jq p hp'
    case nodup => exact hI.nodup
    case arr_rq =>
      intro p hp
      show (getP (applyBulk q cap k s).processes p).arrival_time
          ≤ s.curr_time + (s.rq.length : Int) * q * k
      rw [harr]
      have := hI.arr_rq p hp
      omega
    case arr_jq =>
      intro p hp
      show 0 ≤ (getP (applyBulk q cap k s).processes p).arrival_time
      rw [harr]
      exact hI.arr_jq p hp
    case curr_nn =>
      show 0 ≤ s.curr_time + (s.rq.length : Int) * q * k
      have := hI.curr_nn
      omega
  · unfold measureN
    have : remSum (applyBulk q cap k s).remaining_bursts ≤ remSum s.remaining_bursts :=
      remSum_foldl_dec_le q k hqk0 s.rq s.remaining_bursts
    have hjq : (applyBulk q cap k s).jq = s.jq := rfl
    rw [hjq]
    omega

lemma singleStep3_complete_nojq_eq (q cap : Int) (s : RRState) (h : Int) (t : List Int)
    (hrq : s.rq = h :: t) (hgt : ¬ q < getB s.remaining_bursts h) (hjq : s.jq = []) :
    singleStep3 q cap s = { s with
      processes := setFinish (setStartIfUnset s.processes h s.curr_time) h
        (s.curr_time + getB s.remaining_bursts h)
      curr_time := s.curr_time + getB s.remaining_bursts h
      seq := pushCompressed cap s.seq h
      remaining_bursts := setB s.remaining_bursts h 0
      rq := t
      jq := [] } := by
  unfold singleStep3
  rw [hrq]
  dsimp only
  rw [if_neg hgt, hjq]

lemma bulk3_rq (q cap : Int) (s : RRState) : (bulk3 q cap s).rq = s.rq := by
  unfold bulk3
  dsimp only
  split <;> rfl

lemma bulk3_jq (q cap : Int) (s : RRState) : (bulk3 q cap s).jq = s.jq := by
  unfold bulk3
  dsimp only
  split <;> rfl

lemma bulk5_rq (q cap : Int) (s : RRState) : (bulk5 q cap s).rq = s.rq := by
  unfold bulk5
  split <;> rfl

lemma bulk5_jq (q cap : Int) (s : RRState) : (bulk5 q cap s).jq = s.jq := by
  unfold bulk5
  split <;> rfl

/-- Invariant and strict measure decrease for `singleStep3` on a state with a
nonempty ready queue. -/
lemma inv_singleStep3 {q cap : Int} {s : RRState} (hI : LoopInv q s)
    (hrqne : s.rq ≠ []) :
    LoopInv q (singleStep3 q cap s) ∧ measureN (singleStep3 q cap s) + 1 ≤ measureN s := by
  obtain ⟨h, t, hrq⟩ : ∃ h t, s.rq = h :: t := by
    cases hc : s.rq with
    | nil => exact absurd hc hrqne
    | cons a l => exact ⟨a, l, rfl⟩
  by_cases hgt : q < getB s.remaining_bursts h
  · set pred := fun p => decide ((getP s.processes p).arrival_time < s.curr_time + q) with hpred
    have hDle : ∀ p ∈ s.jq.takeWhile pred,
        (getP s.processes p).arrival_time ≤ s.curr_time + q := by
      intro p hp
      have := List.mem_takeWhile_imp hp
      rw [hpred] at this
      have := of_decide_eq_true this
      omega
    cases hd : s.jq.dropWhile pred with
    | nil =>
      rw [singleStep3_preempt_empty_eq q cap s h t hrq hgt hd]
      have hsplit : s.jq = s.jq.takeWhile pred ++ [] ++ [] := by
        rw [List.append_nil, List.append_nil]
        conv_lhs => rw [← List.takeWhile_append_dropWhile pred s.jq]
        rw [hd, List.append_nil]
      have := inv_preempt_core (pushCompressed cap s.seq h) s.boots hI hrq hgt hsplit
        hDle (fun p hp => absurd hp (List.not_mem_nil p))
      rwa [List.append_nil] at this
    | cons j js =>
      by_cases htie : (getP s.processes j).arrival_time = s.curr_time + q
      · rw [singleStep3_preempt_tie_eq q cap s h t hrq hgt j js hd htie]
        have hsplit : s.jq = s.jq.takeWhile pred ++ [j] ++ js := by
          rw [List.append_assoc, List.singleton_append, ← hd,
            List.takeWhile_append_dropWhile]
        have := inv_preempt_core (pushCompressed cap s.seq h) s.boots hI hrq hgt hsplit
          hDle (fun p hp => by
            rcases List.mem_singleton.mp hp with rfl
            omega)
        rwa [show t ++ s.jq.takeWhile pred ++ [h] ++ [j]
            = t ++ s.jq.takeWhile pred ++ [h, j] by
          rw [List.append_assoc (t ++ s.jq.takeWhile pred) [h] [j]]
          rfl] at this
      · rw [singleStep3_preempt_notie_eq q cap s h t hrq hgt j js hd htie]
        have hsplit : s.jq = s.jq.takeWhile pred ++ [] ++ (j :: js) := by
          rw [List.append_nil, ← hd, List.takeWhile_append_dropWhile]
        have := inv_preempt_core (pushCompressed cap s.seq h) s.boots hI hrq hgt hsplit
          hDle (fun p hp => absurd hp (List.not_mem_nil p))
        rwa [List.append_nil] at this
  · cases hjq : s.jq with
    | nil =>
      rw [singleStep3_complete_nojq_eq q cap s h t hrq hgt hjq]
      have hsplit : s.jq = [] ++ [] := by rw [hjq]; rfl
      have := inv_complete_core (pushCompressed cap s.seq h) s.boots hI hrq hsplit
        (fun p hp => absurd hp (List.not_mem_nil p))
      rwa [List.append_nil] at this
    | cons j js =>
      by_cases hadm : (getP s.processes j).arrival_time
          ≤ s.curr_time + getB s.remaining_bursts h
      · rw [singleStep3_complete_admit_eq q cap s h t hrq hgt j js hjq hadm]
        have hsplit : s.jq = [j] ++ js := by rw [hjq]; rfl
        exact inv_complete_core (pushCompressed cap s.seq h) s.boots hI hrq hsplit
          (fun p hp => by rcases List.mem_singleton.mp hp with rfl; exact hadm)
      · rw [singleStep3_complete_noadmit_eq q cap s h t hrq hgt j js hjq hadm]
        have hsplit : s.jq = [] ++ (j :: js) := by rw [hjq]; rfl
        have := inv_complete_core (pushCompressed cap s.seq h) s.boots hI hrq hsplit
          (fun p hp => absurd hp (List.not_mem_nil p))
        rwa [List.append_nil] at this

/-- Invariant and strict measure decrease for `singleStep5`. -/
lemma inv_singleStep5 {q cap : Int} {s : RRState} (hI : LoopInv q s)
    (hrqne : s.rq ≠ []) :
    LoopInv q (singleStep5 q cap s) ∧ measureN (singleStep5 q cap s) + 1 ≤ measureN s := by
  obtain ⟨h, t, hrq⟩ : ∃ h t, s.rq = h :: t := by
    cases hc : s.rq with
    | nil => exact absurd hc hrqne
    | cons a l => exact ⟨a, l, rfl⟩
  by_cases hgt : q < getB s.remaining_bursts h
  · rw [singleStep5_preempt_eq q cap s h t hrq hgt]
    have hsplit : s.jq = [] ++ [] ++ s.jq := rfl
    have := inv_preempt_core (pushCompressed cap s.seq h) s.boots hI hrq hgt hsplit
      (fun p hp => absurd hp (List.not_mem_nil p))
      (fun p hp => absurd hp (List.not_mem_nil p))
    rwa [List.append_nil, show t ++ [] ++ [h] = t ++ [h] by rw [List.append_nil]] at this
  · rw [singleStep5_complete_eq q cap s h t hrq hgt]
    have hsplit : s.jq = [] ++ s.jq := rfl
    have := inv_complete_core (pushCompressed cap s.seq h) s.boots hI hrq hsplit
      (fun p hp => absurd hp (List.not_mem_nil p))
    rwa [List.append_nil] at this

/-- Invariant and strict measure decrease for `finishLast`. -/
lemma inv_finishLast {q cap : Int} {s : RRState} (hI : LoopInv q s)
    (hrqne : s.rq ≠ []) :
    LoopInv q (finishLast cap s) ∧ measureN (finishLast cap s) + 1 ≤ measureN s := by
  obtain ⟨h, t, hrq⟩ : ∃ h t, s.rq = h :: t := by
    cases hc : s.rq with
    | nil => exact absurd hc hrqne
    | cons a l => exact ⟨a, l, rfl⟩
  rw [finishLast_eq cap s h t hrq]
  have hsplit : s.jq = [] ++ s.jq := rfl
  have := inv_complete_core (pushCompressed cap s.seq h) s.boots hI hrq hsplit
    (fun p hp => absurd hp (List.not_mem_nil p))
  rwa [List.append_nil] at this

/-- Invariant and measure monotonicity for the block-3 bulk-skip decision. -/
lemma inv_bulk3 {q cap : Int} {s : RRState} (hI : LoopInv q s) (hrqne : s.rq ≠ []) :
    LoopInv q (bulk3 q cap s) ∧ measureN (bulk3 q cap s) ≤ measureN s := by
  by_cases hg : s.curr_time + (s.rq.length : Int) * q
      < (getP s.processes (s.jq.headD 0)).arrival_time ∧
      bulkFlag q s.remaining_bursts s.rq = true
  · rw [bulk3_pos_eq q cap s hg.1 hg.2]
    have hall := (bulkFlag_iff q s.remaining_bursts s.rq).mp hg.2
    have hmb : q < minBursts s.remaining_bursts s.rq := lt_minBursts hrqne hall
    obtain ⟨hn1, hlow, hhigh⟩ := bulkN_spec hI.hq hmb rfl
    have hr1 : (1 : Int) ≤ s.rq.length := by
      cases hc : s.rq with
      | nil => exact absurd hc hrqne
      | cons a l => simp [hc]
        
    have hRpos : (0 : Int) < (s.rq.length : Int) * q := by
      have := hI.hq
      nlinarith
    have hm1 : 1 ≤ ((getP s.processes (s.jq.headD 0)).arrival_time - s.curr_time)
        / ((s.rq.length : Int) * q) := by
      rw [Int.le_ediv_iff_mul_le hRpos]
      omega
    have hk1 : 1 ≤ min (bulkN q s.remaining_bursts s.rq)
        (((getP s.processes (s.jq.headD 0)).arrival_time - s.curr_time)
          / ((s.rq.length : Int) * q)) := le_min hn1 hm1
    refine inv_applyBulk hI hk1 ?_
    intro p hp
    have hple := @minBursts_le_mem s.remaining_bursts _ _ hp
    have hkn : min (bulkN q s.remaining_bursts s.rq)
        (((getP s.processes (s.jq.headD 0)).arrival_time - s.curr_time)
          / ((s.rq.length : Int) * q)) ≤ bulkN q s.remaining_bursts s.rq := min_le_left _ _
    have hmul : q * min (bulkN q s.remaining_bursts s.rq)
        (((getP s.processes (s.jq.headD 0)).arrival_time - s.curr_time)
          / ((s.rq.length : Int) * q)) ≤ q * bulkN q s.remaining_bursts s.rq :=
      mul_le_mul_of_nonneg_left hkn (by have := hI.hq; omega)
    omega
  · rw [bulk3_neg_eq q cap s hg]
    exact ⟨hI, le_rfl⟩

/-- Invariant and measure monotonicity for the block-5 bulk-skip decision. -/
lemma inv_bulk5 {q cap : Int} {s : RRState} (hI : LoopInv q s) (hrqne : s.rq ≠ []) :
    LoopInv q (bulk5 q cap s) ∧ measureN (bulk5 q cap s) ≤ measureN s := by
  by_cases hf : bulkFlag q s.remaining_bursts s.rq = true
  · rw [bulk5_pos_eq q cap s hf]
    have hall := (bulkFlag_iff q s.remaining_bursts s.rq).mp hf
    have hmb : q < minBursts s.remaining_bursts s.rq := lt_minBursts hrqne hall
    obtain ⟨hn1, hlow, hhigh⟩ := bulkN_spec hI.hq hmb rfl
    refine inv_applyBulk hI hn1 ?_
    intro p hp
    have hple := @minBursts_le_mem s.remaining_bursts _ _ hp
    omega
  · rw [bulk5_neg_eq q cap s hf]
    exact ⟨hI, le_rfl⟩

/-- Invariant and strict measure decrease across one full loop iteration that
is not yet finished. -/
lemma inv_rrStep {opt : Bool} {q cap : Int} {s : RRState} (hI : LoopInv q s)
    (hnd : ¬ (s.rq = [] ∧ s.jq = [])) :
    LoopInv q (rrStep opt q cap s) ∧ measureN (rrStep opt q cap s) < measureN s := by
  have hblock3 : ∀ s' : RRState, LoopInv q s' → s'.rq ≠ [] → s'.jq ≠ [] →
      LoopInv q (block3 opt q cap s') ∧ measureN (block3 opt q cap s') < measureN s' := by
    intro s' hI' hrq' hjq'
    obtain ⟨j, js, hjq⟩ : ∃ j js, s'.jq = j :: js := by
      cases hc : s'.jq with
      | nil => exact absurd hc hjq'
      | cons a l => exact ⟨a, l, rfl⟩
    by_cases ha : (getP s'.processes (s'.jq.headD 0)).arrival_time = s'.curr_time
    · obtain ⟨h1, h2, -⟩ := @inv_caseA opt _ cap _ hI' _ _ hjq ha
      exact ⟨h1, by omega⟩
    · rw [block3_go_eq opt q cap s' ha]
      cases opt with
      | false =>
        rw [if_neg Bool.false_ne_true]
        obtain ⟨h1, h2⟩ := @inv_singleStep3 _ cap _ hI' hrq'
        exact ⟨h1, by omega⟩
      | true =>
        rw [if_pos rfl]
        obtain ⟨hb1, hb2⟩ := @inv_bulk3 _ cap _ hI' hrq'
        have hrqb : (bulk3 q cap s').rq ≠ [] := by
          rw [bulk3_rq]
          exact hrq'
        obtain ⟨h1, h2⟩ := @inv_singleStep3 _ cap _ hb1 hrqb
        exact ⟨h1, by omega⟩
  have hblock5 : ∀ s' : RRState, LoopInv q s' → s'.rq ≠ [] →
      LoopInv q (block5 opt q cap s') ∧ measureN (block5 opt q cap s') < measureN s' := by
    intro s' hI' hrq'
    by_cases hl : s'.rq.length = 1
    · rw [block5_one_eq opt q cap s' hl]
      obtain ⟨h1, h2⟩ := @inv_finishLast _ cap _ hI' hrq'
      exact ⟨h1, by omega⟩
    · rw [block5_go_eq opt q cap s' hl]
      cases opt with
      | false =>
        rw [if_neg Bool.false_ne_true]
        obtain ⟨h1, h2⟩ := @inv_singleStep5 _ cap _ hI' hrq'
        exact ⟨h1, by omega⟩
      | true =>
        rw [if_pos rfl]
        obtain ⟨hb1, hb2⟩ := @inv_bulk5 _ cap _ hI' hrq'
        have hrqb : (bulk5 q cap s').rq ≠ [] := by
          rw [bulk5_rq]
          exact hrq'
        obtain ⟨h1, h2⟩ := @inv_singleStep5 _ cap _ hb1 hrqb
        exact ⟨h1, by omega⟩
  by_cases hrq : s.rq = []
  · have hjq : s.jq ≠ [] := fun hc => hnd ⟨hrq, hc⟩
    obtain ⟨j, js, hjqe⟩ : ∃ j js, s.jq = j :: js := by
      cases hc : s.jq with
      | nil => exact absurd hc hjq
      | cons a l => exact ⟨a, l, rfl⟩
    rw [rrStep_boot_eq opt q cap s hrq hjq]
    obtain ⟨hbI, hbm⟩ := @inv_bootstrap _ cap _ hI _ _ hrq hjqe
    have hbrq : (bootstrap cap s).rq ≠ [] := by
      rw [bootstrap_eq cap s j js hjqe, hrq]
      simp
    by_cases hbjq : (bootstrap cap s).jq = []
    · rw [if_pos hbjq]
      obtain ⟨h1, h2⟩ := hblock5 _ hbI hbrq
      exact ⟨h1, by omega⟩
    · rw [if_neg hbjq]
      obtain ⟨h1, h2⟩ := hblock3 _ hbI hbrq hbjq
      exact ⟨h1, by omega⟩
  · by_cases hjq : s.jq = []
    · rw [rrStep_b5_eq opt q cap s hrq hjq]
      exact hblock5 s hI hrq
    · rw [rrStep_b3_eq opt q cap s hrq hjq]
      exact hblock3 s hI hrq hjq

/-! ## Initial state and termination -/

lemma totalBurst_foldl (procs : List Process) (c : Int) :
    procs.foldl (fun a p => a + p.burst) c = c + (procs.map (·.burst)).sum := by
  induction procs generalizing c with
  | nil => simp
  | cons p l ih =>
    rw [List.foldl_cons, ih]
    simp only [List.map_cons, List.sum_cons]
    ring

lemma remSum_map_burst {procs : List Process}
    (hpos : ∀ p ∈ procs, 0 ≤ p.burst) :
    remSum (procs.map (·.burst)) = (totalBurst procs).toNat := by
  unfold totalBurst
  rw [totalBurst_foldl]
  simp only [zero_add]
  induction procs with
  | nil => rfl
  | cons p l ih =>
    have hp := hpos p (List.mem_cons_self _ _)
    have hl : ∀ r ∈ l, 0 ≤ r.burst := fun r hr => hpos r (List.mem_cons_of_mem _ hr)
    have hsum : 0 ≤ (l.map (·.burst)).sum := by
      apply List.sum_nonneg
      intro x hx
      rcases List.mem_map.mp hx with ⟨r, hr, rfl⟩
      exact hl r hr
    simp only [List.map_cons, remSum_cons, List.sum_cons]
    rw [ih hl]
    omega

lemma getB_map_burst (procs : List Process) (x : Int) :
    getB (procs.map (·.burst)) x = (getP procs x).burst := by
  unfold getB getP
  have : (0 : Int) = (⟨0, 0, 0, 0, 0⟩ : Process).burst := rfl
  rw [this, List.getD_map]

lemma loopInv_init {q : Int} {procs : List Process} (hwf : WellFormed q procs) :
    LoopInv q (initState procs) := by
  have hids := wf_ids hwf
  obtain ⟨hq, -, hfields, hsort⟩ := hwf
  have hjq_eq : procs.map (·.id) = (List.range procs.length).map Int.ofNat := by
    apply List.ext_getElem
    · simp
    · intro n h1 h2
      simp only [List.getElem_map, List.getElem_range]
      exact hids n (by simpa using h1)
  have hmemj : ∀ p ∈ procs.map (·.id), 0 ≤ p ∧ p.toNat < procs.length := by
    intro p hp
    rcases List.mem_map.mp hp with ⟨r, hr, rfl⟩
    rcases List.mem_iff_getElem.mp hr with ⟨i, hi, rfl⟩
    rw [hids i hi]
    constructor
    · exact Int.ofNat_nonneg i
    · simpa using hi
  constructor
  case hq => exact hq
  case lenB =>
    show (procs.map (·.burst)).length = procs.length
    simp
  case mem_rq =>
    intro p hp
    exact absurd hp (List.not_mem_nil p)
  case mem_jq => exact hmemj
  case pos_rq =>
    intro p hp
    exact absurd hp (List.not_mem_nil p)
  case pos_jq =>
    intro p hp
    show 1 ≤ getB (procs.map (·.burst)) p
    rw [getB_map_burst]
    rcases List.mem_map.mp hp with ⟨r, hr, rfl⟩
    rcases List.mem_iff_getElem.mp hr with ⟨i, hi, rfl⟩
    rw [hids i hi]
    have : getP procs (i : Int) = procs[i] := by
      unfold getP
      rw [show ((i : Int)).toNat = i by simp]
      rw [List.getD_eq_getElem?_getD, List.getElem?_eq_getElem hi]
      rfl
    rw [this]
    exact (hfields _ (List.getElem_mem hi)).1
  case nodup =>
    show ([] ++ procs.map (fun p : Process => p.id)).Nodup
    rw [List.nil_append, hjq_eq]
    exact (List.nodup_range _).map_on (fun x _ y _ hxy => Int.ofNat.inj hxy)
  case arr_rq =>
    intro p hp
    exact absurd hp (List.not_mem_nil p)
  case arr_jq =>
    intro p hp
    show 0 ≤ (getP procs p).arrival_time
    rcases List.mem_map.mp hp with ⟨r, hr, rfl⟩
    rcases List.mem_iff_getElem.mp hr with ⟨i, hi, rfl⟩
    rw [hids i hi]
    have : getP procs (i : Int) = procs[i] := by
      unfold getP
      rw [show ((i : Int)).toNat = i by simp]
      rw [List.getD_eq_getElem?_getD, List.getElem?_eq_getElem hi]
      rfl
    rw [this]
    exact (hfields _ (List.getElem_mem hi)).2.1
  case curr_nn => exact le_rfl

lemma stepsN_fixed {opt : Bool} {q cap : Int} {s : RRState} (hrq : s.rq = [])
    (hjq : s.jq = []) (n : Nat) : stepsN opt q cap n s = s := by
  induction n with
  | zero => rfl
  | succ n ih =>
    show stepsN opt q cap n (rrStep opt q cap s) = s
    rw [rrStep_done_eq opt q cap s hrq hjq, ih]

lemma remSum_pos_of_entry {bs : List Int} {i : Int} (hlt : i.toNat < bs.length)
    (hpos : 1 ≤ getB bs i) : 1 ≤ remSum bs := by
  have hmem : (bs.getD i.toNat 0).toNat ∈ bs.map Int.toNat := by
    rw [List.getD_eq_getElem?_getD, List.getElem?_eq_getElem hlt]
    exact List.mem_map.mpr ⟨_, List.getElem_mem hlt, rfl⟩
  have hle : (bs.getD i.toNat 0).toNat ≤ remSum bs :=
    List.single_le_sum (fun x _ => Nat.zero_le x) _ hmem
  have : 1 ≤ getB bs i := hpos
  unfold getB at this
  omega

lemma stepsN_done {opt : Bool} {q cap : Int} :
    ∀ (n : Nat) (s : RRState), LoopInv q s → measureN s ≤ n →
    (stepsN opt q cap n s).rq = [] ∧ (stepsN opt q cap n s).jq = [] := by
  intro n
  induction n with
  | zero =>
    intro s hI hm
    have hlen0 : s.jq.length = 0 := by
      unfold measureN at hm
      omega
    have hjq : s.jq = [] := List.length_eq_zero.mp hlen0
    have hrq : s.rq = [] := by
      cases hc : s.rq with
      | nil => rfl
      | cons h t =>
        exfalso
        have hpos := hI.pos_rq h (hc ▸ List.mem_cons_self _ _)
        have hmem := hI.mem_rq h (hc ▸ List.mem_cons_self _ _)
        have hlt : h.toNat < s.remaining_bursts.length := by
          rw [hI.lenB]
          exact hmem.2
        have := remSum_pos_of_entry hlt hpos
        unfold measureN at hm
        omega
    exact ⟨hrq, hjq⟩
  | succ n ih =>
    intro s hI hm
    by_cases hd : s.rq = [] ∧ s.jq = []
    · rw [stepsN_fixed hd.1 hd.2]
      exact hd
    · obtain ⟨hI', hlt⟩ := @inv_rrStep opt _ cap _ hI hd
      exact ih (rrStep opt q cap s) hI' (by omega)

/-- C7: on well-formed input `simulate_rr` terminates: after at most
`totalBurst + #processes` loop iterations (each one admits a pending process or
consumes at least one unit of remaining burst, strictly decreasing
`measureN`), the loop reaches the exit state with both queues empty, which is a
fixed point of `rrStep`. -/
theorem C7_terminates (q cap : Int) (procs : List Process) (hwf : WellFormed q procs) :
    (simulate_rr q cap procs).rq = [] ∧ (simulate_rr q cap procs).jq = [] := by
  apply stepsN_done (fuelBound procs) (initState procs) (loopInv_init hwf)
  show measureN (initState procs) ≤ (totalBurst procs).toNat + procs.length + 1
  unfold measureN initState
  dsimp only
  rw [remSum_map_burst (fun p hp => by have := hwf.2.2.1 p hp; omega)]
  simp

/-- Witness for C7. -/
theorem C7_terminates_witness :
    WellFormed 2 [⟨0, 0, 4, -1, -1⟩, ⟨1, 1, 4, -1, -1⟩] ∧
    (simulate_rr 2 20 [⟨0, 0, 4, -1, -1⟩, ⟨1, 1, 4, -1, -1⟩]).rq = [] ∧
    (simulate_rr 2 20 [⟨0, 0, 4, -1, -1⟩, ⟨1, 1, 4, -1, -1⟩]).jq = [] :=
  ⟨⟨by decide, by decide, by decide, by decide⟩,
    C7_terminates 2 20 [⟨0, 0, 4, -1, -1⟩, ⟨1, 1, 4, -1, -1⟩]
      ⟨by decide, by decide, by decide, by decide⟩⟩

/-! ## Claim C6: ordering of drains, requeue and same-instant admission -/

/-- C6: in the single-quantum preemption step with processes still pending
(lines 105-131), pending processes whose arrival is strictly below the
post-quantum time are appended to the ready queue before the just-preempted
head is requeued, and a pending process whose arrival equals the post-quantum
time is appended after it. -/
theorem C6_tie_break (q cap : Int) (s : RRState) (h j : Int) (t js : List Int)
    (hrq : s.rq = h :: t)
    (hgt : q < getB s.remaining_bursts h)
    (hd : s.jq.dropWhile
        (fun p => decide ((getP s.processes p).arrival_time < s.curr_time + q)) = j :: js) :
    ((getP s.processes j).arrival_time = s.curr_time + q →
      (singleStep3 q cap s).rq
        = t ++ s.jq.takeWhile
            (fun p => decide ((getP s.processes p).arrival_time < s.curr_time + q))
          ++ [h] ++ [j] ∧
      (singleStep3 q cap s).jq = js) ∧
    ((getP s.processes j).arrival_time ≠ s.curr_time + q →
      (singleStep3 q cap s).rq
        = t ++ s.jq.takeWhile
            (fun p => decide ((getP s.processes p).arrival_time < s.curr_time + q))
          ++ [h] ∧
      (singleStep3 q cap s).jq = j :: js) := by
  constructor
  · intro htie
    rw [singleStep3_preempt_tie_eq q cap s h t hrq hgt j js hd htie]
    refine ⟨?_, rfl⟩
    show t ++ _ ++ [h, j] = _
    rw [List.append_assoc (t ++ _) [h] [j]]
    rfl
  · intro htie
    rw [singleStep3_preempt_notie_eq q cap s h t hrq hgt j js hd htie]
    exact ⟨rfl, rfl⟩

/-- Witness for C6: a concrete state exercising both the strict-drain and the
same-instant tie-break; `P2` arrives exactly at the post-quantum time 3 and
`P3` strictly before it is never reached, while the hypotheses are discharged
by computation. -/
theorem C6_tie_break_witness :
    let procs : List Process :=
      [⟨0, 0, 5, 0, -1⟩, ⟨1, 0, 5, -1, -1⟩, ⟨2, 3, 5, -1, -1⟩]
    let s : RRState :=
      { curr_time := 2, rq := [0, 1], jq := [2], remaining_bursts := [5, 5, 5],
        processes := procs, seq := [0], boots := 1 }
    ((getP s.processes 2).arrival_time = s.curr_time + 1 →
      (singleStep3 1 10 s).rq = [1] ++ [] ++ [0] ++ [2] ∧ (singleStep3 1 10 s).jq = []) ∧
    ((getP s.processes 2).arrival_time ≠ s.curr_time + 1 →
      (singleStep3 1 10 s).rq = [1] ++ [] ++ [0] ∧ (singleStep3 1 10 s).jq = [2]) := by
  have := C6_tie_break 1 10
    { curr_time := 2, rq := [0, 1], jq := [2],
      remaining_bursts := [5, 5, 5],
      processes := [⟨0, 0, 5, 0, -1⟩, ⟨1, 0, 5, -1, -1⟩, ⟨2, 3, 5, -1, -1⟩],
      seq := [0], boots := 1 } 0 2 [1] []
    (by decide) (by decide) (by decide)
  exact this

/-! ## Claim C4: trace compression -/

/-- Adjacent trace entries may be equal only if both are the idle marker. -/
def AdjOk (a b : Int) : Prop := a = b → a = -1

/-- The trace invariant: adjacent equal entries are idle markers only, and
whenever the ready queue is empty and a zero-arrival process heads the job
queue the trace is still empty (so the uncapped-uncompressed bootstrap id
emission can never duplicate). -/
def TraceInv (s : RRState) : Prop :=
  List.Chain' AdjOk s.seq ∧
  (s.rq = [] → ∀ j js, s.jq = j :: js → (getP s.processes j).arrival_time = 0 → s.seq = [])

lemma adjOk_pushCompressed {sq : List Int} (cap x : Int) (hc : List.Chain' AdjOk sq) :
    List.Chain' AdjOk (pushCompressed cap sq x) := by
  unfold pushCompressed
  split
  · next hcond =>
    rw [List.chain'_append]
    refine ⟨hc, List.chain'_singleton x, ?_⟩
    intro a ha y hy
    simp only [List.head?_cons, Option.mem_def, Option.some.injEq] at hy
    subst hy
    intro hax
    exfalso
    apply hcond.2
    unfold seqBack
    rw [List.getLastD_eq_getLast?]
    cases hl : sq.getLast? with
    | none =>
      rw [hl] at ha
      exact absurd ha (by simp)
    | some b =>
      rw [hl] at ha
      simp only [Option.mem_def, Option.some.injEq] at ha
      subst ha
      simpa using hax
  · exact hc

lemma adjOk_emit {cap : Int} (rq : List Int) (n : Nat) (sq : List Int)
    (hc : List.Chain' AdjOk sq) :
    List.Chain' AdjOk (Nat.repeat (emitRound cap rq) n sq) := by
  have hem : ∀ sq', List.Chain' AdjOk sq' → List.Chain' AdjOk (emitRound cap rq sq') := by
    intro sq'
    unfold emitRound
    induction rq generalizing sq' with
    | nil => exact fun hh => hh
    | cons p l ih =>
      intro hh
      rw [List.foldl_cons]
      exact ih _ (adjOk_pushCompressed cap p hh)
  induction n with
  | zero => exact hc
  | succ n ih => exact hem _ ih

lemma traceInv_singleStep3 {q cap : Int} {s : RRState} (hI : LoopInv q s)
    (hT : TraceInv s) (hrqne : s.rq ≠ []) : TraceInv (singleStep3 q cap s) := by
  obtain ⟨h, t, hrq⟩ : ∃ h t, s.rq = h :: t := by
    cases hc : s.rq with
    | nil => exact absurd hc hrqne
    | cons a l => exact ⟨a, l, rfl⟩
  have hchain := @adjOk_pushCompressed s.seq cap h hT.1
  by_cases hgt : q < getB s.remaining_bursts h
  · set pred := fun p => decide ((getP s.processes p).arrival_time < s.curr_time + q)
      with hpred
    cases hd : s.jq.dropWhile pred with
    | nil =>
      rw [singleStep3_preempt_empty_eq q cap s h t hrq hgt hd]
      refine ⟨hchain, ?_⟩
      intro hrq' j js hjq'
      exact absurd hjq' (by simp)
    | cons j js =>
      by_cases htie : (getP s.processes j).arrival_time = s.curr_time + q
      · rw [singleStep3_preempt_tie_eq q cap s h t hrq hgt j js hd htie]
        refine ⟨hchain, ?_⟩
        intro hrq' _ _ _
        exact absurd hrq' (by simp)
      · rw [singleStep3_preempt_notie_eq q cap s h t hrq hgt j js hd htie]
        refine ⟨hchain, ?_⟩
        intro hrq' _ _ _
        exact absurd hrq' (by simp)
  · cases hjq : s.jq with
    | nil =>
      rw [singleStep3_complete_nojq_eq q cap s h t hrq hgt hjq]
      refine ⟨hchain, ?_⟩
      intro _ j js hjq'
      exact absurd hjq' (by simp)
    | cons j js =>
      by_cases hadm : (getP s.processes j).arrival_time
          ≤ s.curr_time + getB s.remaining_bursts h
      · rw [singleStep3_complete_admit_eq q cap s h t hrq hgt j js hjq hadm]
        refine ⟨hchain, ?_⟩
        intro hrq' _ _ _
        exact absurd hrq' (by simp)
      · rw [singleStep3_complete_noadmit_eq q cap s h t hrq hgt j js hjq hadm]
        refine ⟨hchain, ?_⟩
        intro hrq' j' js' hjq' harr0
        exfalso
        simp only [List.cons.injEq] at hjq'
        obtain ⟨hj1, hj2⟩ := hjq'
        subst hj1
        rw [show (getP (setFinish (setStartIfUnset s.processes h s.curr_time) h
              (s.curr_time + getB s.remaining_bursts h)) j).arrival_time
            = (getP s.processes j).arrival_time by
          rw [arrival_setFinish, arrival_setStartIfUnset]] at harr0
        have hcurr := hI.curr_nn
        have hv := hI.pos_rq h (hrq ▸ List.mem_cons_self _ _)
        omega

lemma traceInv_singleStep5 {q cap : Int} {s : RRState} (hT : TraceInv s)
    (hrqne : s.rq ≠ []) (hjq : s.jq = []) : TraceInv (singleStep5 q cap s) := by
  obtain ⟨h, t, hrq⟩ : ∃ h t, s.rq = h :: t := by
    cases hc : s.rq with
    | nil => exact absurd hc hrqne
    | cons a l => exact ⟨a, l, rfl⟩
  have hchain := @adjOk_pushCompressed s.seq cap h hT.1
  by_cases hgt : q < getB s.remaining_bursts h
  · rw [singleStep5_preempt_eq q cap s h t hrq hgt]
    refine ⟨hchain, ?_⟩
    intro _ j js hjq'
    rw [hjq] at hjq'
    exact absurd hjq' (by simp)
  · rw [singleStep5_complete_eq q cap s h t hrq hgt]
    refine ⟨hchain, ?_⟩
    intro _ j js hjq'
    rw [hjq] at hjq'
    exact absurd hjq' (by simp)

lemma traceInv_finishLast {cap : Int} {s : RRState} (hT : TraceInv s)
    (hrqne : s.rq ≠ []) (hjq : s.jq = []) : TraceInv (finishLast cap s) := by
  obtain ⟨h, t, hrq⟩ : ∃ h t, s.rq = h :: t := by
    cases hc : s.rq with
    | nil => exact absurd hc hrqne
    | cons a l => exact ⟨a, l, rfl⟩
  rw [finishLast_eq cap s h t hrq]
  refine ⟨@adjOk_pushCompressed s.seq cap h hT.1, ?_⟩
  intro _ j js hjq'
  rw [hjq] at hjq'
  exact absurd hjq' (by simp)

lemma traceInv_bulk3 {q cap : Int} {s : RRState} (hT : TraceInv s) (hrqne : s.rq ≠ []) :
    TraceInv (bulk3 q cap s) := by
  unfold bulk3
  dsimp only
  split
  · refine ⟨?_, ?_⟩
    · show List.Chain' AdjOk (Nat.repeat (emitRound cap s.rq) _ s.seq)
      exact adjOk_emit s.rq _ s.seq hT.1
    · intro hrq'
      exact absurd (show s.rq = [] from hrq') hrqne
  · exact hT

lemma traceInv_bulk5 {q cap : Int} {s : RRState} (hT : TraceInv s) (hrqne : s.rq ≠ []) :
    TraceInv (bulk5 q cap s) := by
  unfold bulk5
  split
  · refine ⟨?_, ?_⟩
    · show List.Chain' AdjOk (Nat.repeat (emitRound cap s.rq) _ s.seq)
      exact adjOk_emit s.rq _ s.seq hT.1
    · intro hrq'
      exact absurd (show s.rq = [] from hrq') hrqne
  · exact hT

lemma traceInv_rrStep {opt : Bool} {q cap : Int} {s : RRState} (hI : LoopInv q s)
    (hT : TraceInv s) : TraceInv (rrStep opt q cap s) := by
  have hblocks : ∀ s' : RRState, LoopInv q s' → TraceInv s' → s'.rq ≠ [] →
      TraceInv (if s'.jq = [] then block5 opt q cap s' else block3 opt q cap s') := by
    intro s' hI' hT' hrq'
    split
    · next hjq' =>
      by_cases hl : s'.rq.length = 1
      · rw [block5_one_eq opt q cap s' hl]
        exact traceInv_finishLast hT' hrq' hjq'
      · rw [block5_go_eq opt q cap s' hl]
        cases opt with
        | false =>
          rw [if_neg Bool.false_ne_true]
          exact traceInv_singleStep5 hT' hrq' hjq'
        | true =>
          rw [if_pos rfl]
          exact traceInv_singleStep5 (traceInv_bulk5 hT' hrq')
            (by rw [bulk5_rq]; exact hrq') (by rw [bulk5_jq]; exact hjq')
    · next hjq' =>
      obtain ⟨j, js, hjq⟩ : ∃ j js, s'.jq = j :: js := by
        cases hc : s'.jq with
        | nil => exact absurd hc hjq'
        | cons a l => exact ⟨a, l, rfl⟩
      by_cases ha : (getP s'.processes (s'.jq.headD 0)).arrival_time = s'.curr_time
      · obtain ⟨-, -, heq⟩ := @inv_caseA opt _ cap _ hI' _ _ hjq ha
        rw [heq]
        refine ⟨hT'.1, ?_⟩
        intro hrq2 _ _ _
        exact absurd hrq2 (by
          simp only [List.append_eq_nil]
          rintro ⟨-, hc⟩
          exact absurd hc (by simp))
      · rw [block3_go_eq opt q cap s' ha]
        cases opt with
        | false =>
          rw [if_neg Bool.false_ne_true]
          exact traceInv_singleStep3 hI' hT' hrq'
        | true =>
          rw [if_pos rfl]
          exact traceInv_singleStep3 (@inv_bulk3 _ cap _ hI' hrq').1
            (traceInv_bulk3 hT' hrq') (by rw [bulk3_rq]; exact hrq')
  by_cases hd : s.rq = [] ∧ s.jq = []
  · rw [rrStep_done_eq opt q cap s hd.1 hd.2]
    exact hT
  · by_cases hrq : s.rq = []
    · have hjqne : s.jq ≠ [] := fun hc => hd ⟨hrq, hc⟩
      obtain ⟨j, js, hjq⟩ : ∃ j js, s.jq = j :: js := by
        cases hc : s.jq with
        | nil => exact absurd hc hjqne
        | cons a l => exact ⟨a, l, rfl⟩
      rw [rrStep_boot_eq opt q cap s hrq hjqne]
      have hbI := (@inv_bootstrap _ cap _ hI _ _ hrq hjq).1
      have hbT : TraceInv (bootstrap cap s) := by
        rw [bootstrap_eq cap s j js hjq]
        constructor
        · show List.Chain' AdjOk (if _ ∧ (getP s.processes j).arrival_time = 0
              then s.seq ++ [(s.rq ++ [j]).headD 0] else s.seq ++ [-1])
          split
          · next hcond =>
            rw [hT.2 hrq j js hjq hcond.2]
            exact List.chain'_singleton _
          · rw [List.chain'_append]
            refine ⟨hT.1, List.chain'_singleton _, ?_⟩
            intro a ha y hy
            simp only [List.head?_cons, Option.mem_def, Option.some.injEq] at hy
            subst hy
            intro hx
            exact hx
        · intro hrq' _ _ _
          exact absurd hrq' (by
            rw [hrq]
            simp)
      have hbrq : (bootstrap cap s).rq ≠ [] := by
        rw [bootstrap_eq cap s j js hjq, hrq]
        simp
      exact hblocks _ hbI hbT hbrq
    · by_cases hjq : s.jq = []
      · rw [rrStep_b5_eq opt q cap s hrq hjq]
        have := hblocks s hI hT hrq
        rw [if_pos hjq] at this
        exact this
      · rw [rrStep_b3_eq opt q cap s hrq hjq]
        have := hblocks s hI hT hrq
        rw [if_neg hjq] at this
        exact this

lemma traceInv_stepsN {opt : Bool} {q cap : Int} (n : Nat) (s : RRState)
    (hI : LoopInv q s) (hT : TraceInv s) :
    TraceInv (stepsN opt q cap n s) := by
  induction n generalizing s with
  | zero => exact hT
  | succ n ih =>
    show TraceInv (stepsN opt q cap n (rrStep opt q cap s))
    by_cases hd : s.rq = [] ∧ s.jq = []
    · rw [rrStep_done_eq opt q cap s hd.1 hd.2]
      exact ih s hI hT
    · exact ih _ (@inv_rrStep opt _ cap _ hI hd).1 (traceInv_rrStep hI hT)

/-- C4, as stated, is false: with `max_seq_len = 0` two consecutive bootstrap
dispatches each append an uncapped, uncompressed idle marker, so a well-formed
input with a gap produces the trace `[-1, -1]`. -/
theorem C4_counterexample :
    WellFormed 1 [⟨0, 1, 1, -1, -1⟩, ⟨1, 5, 1, -1, -1⟩] ∧ (0 : Int) ≤ 0 ∧
    (simulate_rr 1 0 [⟨0, 1, 1, -1, -1⟩, ⟨1, 5, 1, -1, -1⟩]).seq = [-1, -1] ∧
    ¬ List.Chain' (· ≠ ·) (simulate_rr 1 0 [⟨0, 1, 1, -1, -1⟩, ⟨1, 5, 1, -1, -1⟩]).seq := by
  refine ⟨⟨by decide, by decide, by decide, by decide⟩, le_rfl, by decide, ?_⟩
  rw [show (simulate_rr 1 0 [⟨0, 1, 1, -1, -1⟩, ⟨1, 5, 1, -1, -1⟩]).seq = [-1, -1]
    by decide]
  intro hch
  rw [List.chain'_cons] at hch
  exact hch.1 rfl

/-- C4 amended: on well-formed input two equal consecutive trace entries can
only both be the idle marker `-1` (this is possible, as the counterexample
shows); in particular the same process id never appears twice in a row.
Proved for every `max_seq_len`, not only nonnegative ones. -/
theorem C4_amended (q cap : Int) (procs : List Process) (hwf : WellFormed q procs) :
    List.Chain' AdjOk (simulate_rr q cap procs).seq :=
  (traceInv_stepsN (fuelBound procs) (initState procs) (loopInv_init hwf)
    ⟨List.chain'_nil, fun _ _ _ _ _ => rfl⟩).1

set_option maxHeartbeats 2000000 in
/-- Witness for C4's amended statement. -/
theorem C4_amended_witness :
    WellFormed 1 [⟨0, 0, 1, -1, -1⟩] ∧
    List.Chain' AdjOk (simulate_rr 1 5 [⟨0, 0, 1, -1, -1⟩]).seq := by
  have hwf : WellFormed 1 [⟨0, 0, 1, -1, -1⟩] := ⟨by decide, by decide, by decide, by decide⟩
  exact ⟨hwf, C4_amended 1 5 [⟨0, 0, 1, -1, -1⟩] hwf⟩

/-! ## Claim C5: start times dominate arrivals and are write-once -/

/-- Every process either has `start_time` still at the unset sentinel `-1` or
at least its arrival time. -/
def Start1 (ps : List Process) : Prop :=
  ∀ x : Int, (getP ps x).start_time = -1 ∨
    (getP ps x).arrival_time ≤ (getP ps x).start_time

/-- The start-time invariant: `Start1`, and every process with an unset
`start_time` is still queued (ready or pending). -/
def StartInv (s : RRState) : Prop :=
  Start1 s.processes ∧
  ∀ x : Int, (getP s.processes x).start_time = -1 →
    x.toNat ∈ (s.rq ++ s.jq).map Int.toNat

lemma getP_congr_toNat (ps : List Process) {x y : Int} (h : x.toNat = y.toNat) :
    getP ps x = getP ps y := by
  unfold getP
  rw [h]

lemma getP_out {ps : List Process} {y : Int} (h : ps.length ≤ y.toNat) :
    getP ps y = ⟨0, 0, 0, 0, 0⟩ := by
  unfold getP
  rw [List.getD_eq_getElem?_getD, List.getElem?_eq_none h]
  rfl

lemma setStartIfUnset_out (ps : List Process) (y t : Int) (h : ps.length ≤ y.toNat) :
    setStartIfUnset ps y t = ps := by
  unfold setStartIfUnset
  split
  · exact List.set_eq_of_length_le h
  · rfl

lemma start1_setStart {ps : List Process} (h1 : Start1 ps) {y : Int} (t : Int)
    (hat : (getP ps y).arrival_time ≤ t) : Start1 (setStartIfUnset ps y t) := by
  intro x
  by_cases hx : y.toNat = x.toNat
  · by_cases hy : y.toNat < ps.length
    · rw [getP_setStartIfUnset_self ps y t hx.symm hy]
      split
      · exact Or.inr hat
      · next hs =>
        rcases h1 y with hu | hle
        · exact absurd hu hs
        · exact Or.inr hle
    · rw [setStartIfUnset_out ps y t (by omega)]
      exact h1 x
  · rw [getP_setStartIfUnset_ne ps y t hx]
    exact h1 x

lemma start1_setFinish {ps : List Process} (h1 : Start1 ps) (y t : Int) :
    Start1 (setFinish ps y t) := by
  intro x
  rw [start_setFinish, arrival_setFinish]
  exact h1 x

lemma start_unset_back {ps : List Process} {y t x : Int} (ht : t ≠ -1)
    (hx : (getP (setStartIfUnset ps y t) x).start_time = -1) :
    (getP ps x).start_time = -1 := by
  unfold setStartIfUnset at hx
  by_cases hc : (getP ps y).start_time = -1
  · rw [if_pos hc] at hx
    by_cases hxy : y.toNat = x.toNat
    · by_cases hy : y.toNat < ps.length
      · rw [getP_set_self _ hy hxy.symm] at hx
        exact absurd hx ht
      · rw [show ps.set y.toNat { getP ps y with start_time := t } = ps from
          List.set_eq_of_length_le (by omega)] at hx
        exact hx
    · rw [getP_set_ne _ hxy] at hx
      exact hx
  · rw [if_neg hc] at hx
    exact hx

lemma start_set_after {ps : List Process} {y t x : Int} (ht : t ≠ -1)
    (hx : x.toNat = y.toNat)
    (hu : (getP (setStartIfUnset ps y t) x).start_time = -1) : False := by
  by_cases hy : y.toNat < ps.length
  · rw [getP_setStartIfUnset_self ps y t hx hy] at hu
    revert hu
    split
    · exact fun hu => ht hu
    · next hs => exact fun hu => hs hu
  · rw [setStartIfUnset_out ps y t (by omega), getP_congr_toNat ps hx,
      getP_out (by omega)] at hu
    exact absurd hu (by decide)

lemma startInv_bootstrap {s : RRState} (hS : StartInv s) {j : Int} {js : List Int}
    (hjq : s.jq = j :: js) (cap : Int) : StartInv (bootstrap cap s) := by
  rw [bootstrap_eq cap s j js hjq]
  refine ⟨hS.1, ?_⟩
  intro x hx
  have hm := hS.2 x hx
  rw [hjq] at hm
  show x.toNat ∈ ((s.rq ++ [j]) ++ js).map Int.toNat
  simp only [List.map_append, List.map_cons, List.map_nil, List.mem_append,
    List.mem_cons, List.not_mem_nil, or_false, false_or] at hm ⊢
  tauto

lemma startInv_caseA {opt : Bool} {q cap : Int} {s : RRState} (hI : LoopInv q s)
    (hS : StartInv s) {j : Int} {js : List Int} (hjq : s.jq = j :: js)
    (ha : (getP s.processes (s.jq.headD 0)).arrival_time = s.curr_time) :
    StartInv (block3 opt q cap s) := by
  obtain ⟨-, -, heq⟩ := @inv_caseA opt _ cap _ hI _ _ hjq ha
  rw [heq]
  refine ⟨hS.1, ?_⟩
  intro x hx
  have hm := hS.2 x hx
  rw [hjq] at hm
  show x.toNat ∈ ((s.rq ++ [j]) ++ js).map Int.toNat
  simp only [List.map_append, List.map_cons, List.map_nil, List.mem_append,
    List.mem_cons, List.not_mem_nil, or_false, false_or] at hm ⊢
  tauto

lemma startInv_singleStep3 {q cap : Int} {s : RRState} (hI : LoopInv q s)
    (hS : StartInv s) (hrqne : s.rq ≠ []) : StartInv (singleStep3 q cap s) := by
  obtain ⟨h, t, hrq⟩ : ∃ h t, s.rq = h :: t := by
    cases hc : s.rq with
    | nil => exact absurd hc hrqne
    | cons a l => exact ⟨a, l, rfl⟩
  have harr : (getP s.processes h).arrival_time ≤ s.curr_time :=
    hI.arr_rq h (hrq ▸ List.mem_cons_self _ _)
  have hcne : s.curr_time ≠ -1 := by
    have := hI.curr_nn
    omega
  have h1' : Start1 (setStartIfUnset s.processes h s.curr_time) :=
    start1_setStart hS.1 s.curr_time harr
  have hsplit : s.jq = s.jq.takeWhile
        (fun p => decide ((getP s.processes p).arrival_time < s.curr_time + q))
      ++ s.jq.dropWhile
        (fun p => decide ((getP s.processes p).arrival_time < s.curr_time + q)) :=
    (List.takeWhile_append_dropWhile _ _).symm
  by_cases hgt : q < getB s.remaining_bursts h
  · cases hd : s.jq.dropWhile
        (fun p => decide ((getP s.processes p).arrival_time < s.curr_time + q)) with
    | nil =>
      rw [singleStep3_preempt_empty_eq q cap s h t hrq hgt hd]
      refine ⟨h1', ?_⟩
      intro x hx
      have hm := hS.2 x (start_unset_back hcne hx)
      rw [hrq, hsplit, hd] at hm
      show x.toNat ∈ ((t ++ s.jq.takeWhile
          (fun p => decide ((getP s.processes p).arrival_time < s.curr_time + q))
          ++ [h]) ++ []).map Int.toNat
      simp only [List.map_append, List.map_cons, List.map_nil, List.mem_append,
        List.mem_cons, List.not_mem_nil, List.append_nil, or_false, false_or] at hm ⊢
      tauto
    | cons j js =>
      by_cases htie : (getP s.processes j).arrival_time = s.curr_time + q
      · rw [singleStep3_preempt_tie_eq q cap s h t hrq hgt j js hd htie]
        refine ⟨h1', ?_⟩
        intro x hx
        have hm := hS.2 x (start_unset_back hcne hx)
        rw [hrq, hsplit, hd] at hm
        show x.toNat ∈ ((t ++ s.jq.takeWhile
            (fun p => decide ((getP s.processes p).arrival_time < s.curr_time + q))
            ++ [h, j]) ++ js).map Int.toNat
        simp only [List.map_append, List.map_cons, List.map_nil, List.mem_append,
          List.mem_cons, List.not_mem_nil, or_false, false_or] at hm ⊢
        tauto
      · rw [singleStep3_preempt_notie_eq q cap s h t hrq hgt j js hd htie]
        refine ⟨h1', ?_⟩
        intro x hx
        have hm := hS.2 x (start_unset_back hcne hx)
        rw [hrq, hsplit, hd] at hm
        show x.toNat ∈ ((t ++ s.jq.takeWhile
            (fun p => decide ((getP s.processes p).arrival_time < s.curr_time + q))
            ++ [h]) ++ (j :: js)).map Int.toNat
        simp only [List.map_append, List.map_cons, List.map_nil, List.mem_append,
          List.mem_cons, List.not_mem_nil, or_false, false_or] at hm ⊢
        tauto
  · cases hjq : s.jq with
    | nil =>
      rw [singleStep3_complete_nojq_eq q cap s h t hrq hgt hjq]
      refine ⟨start1_setFinish h1' _ _, ?_⟩
      intro x hx
      have hx' : (getP (setStartIfUnset s.processes h s.curr_time) x).start_time = -1 := by
        rw [← start_setFinish (setStartIfUnset s.processes h s.curr_time) h
          (s.curr_time + getB s.remaining_bursts h) x]
        exact hx
      have hxh : x.toNat ≠ h.toNat := fun hc => start_set_after hcne hc hx'
      have hm := hS.2 x (start_unset_back hcne hx')
      rw [hrq, hjq] at hm
      show x.toNat ∈ (t ++ []).map Int.toNat
      simp only [List.map_append, List.map_cons, List.map_nil, List.mem_append,
        List.mem_cons, List.not_mem_nil, List.append_nil, or_false, false_or] at hm ⊢
      tauto
    | cons j js =>
      by_cases hadm : (getP s.processes j).arrival_time
          ≤ s.curr_time + getB s.remaining_bursts h
      · rw [singleStep3_complete_admit_eq q cap s h t hrq hgt j js hjq hadm]
        refine ⟨start1_setFinish h1' _ _, ?_⟩
        intro x hx
        have hx' : (getP (setStartIfUnset s.processes h s.curr_time) x).start_time = -1 := by
          rw [← start_setFinish (setStartIfUnset s.processes h s.curr_time) h
            (s.curr_time + getB s.remaining_bursts h) x]
          exact hx
        have hxh : x.toNat ≠ h.toNat := fun hc => start_set_after hcne hc hx'
        have hm := hS.2 x (start_unset_back hcne hx')
        rw [hrq, hjq] at hm
        show x.toNat ∈ ((t ++ [j]) ++ js).map Int.toNat
        simp only [List.map_append, List.map_cons, List.map_nil, List.mem_append,
          List.mem_cons, List.not_mem_nil, or_false, false_or] at hm ⊢
        tauto
      · rw [singleStep3_complete_noadmit_eq q cap s h t hrq hgt j js hjq hadm]
        refine ⟨start1_setFinish h1' _ _, ?_⟩
        intro x hx
        have hx' : (getP (setStartIfUnset s.processes h s.curr_time) x).start_time = -1 := by
          rw [← start_setFinish (setStartIfUnset s.processes h s.curr_time) h
            (s.curr_time + getB s.remaining_bursts h) x]
          exact hx
        have hxh : x.toNat ≠ h.toNat := fun hc => start_set_after hcne hc hx'
        have hm := hS.2 x (start_unset_back hcne hx')
        rw [hrq, hjq] at hm
        show x.toNat ∈ (t ++ (j :: js)).map Int.toNat
        simp only [List.map_append, List.map_cons, List.map_nil, List.mem_append,
          List.mem_cons, List.not_mem_nil, or_false, false_or] at hm ⊢
        tauto

lemma startInv_singleStep5 {q cap : Int} {s : RRState} (hI : LoopInv q s)
    (hS : StartInv s) (hrqne : s.rq ≠ []) : StartInv (singleStep5 q cap s) := by
  obtain ⟨h, t, hrq⟩ : ∃ h t, s.rq = h :: t := by
    cases hc : s.rq with
    | nil => exact absurd hc hrqne
    | cons a l => exact ⟨a, l, rfl⟩
  have harr : (getP s.processes h).arrival_time ≤ s.curr_time :=
    hI.arr_rq h (hrq ▸ List.mem_cons_self _ _)
  have hcne : s.curr_time ≠ -1 := by
    have := hI.curr_nn
    omega
  have h1' : Start1 (setStartIfUnset s.processes h s.curr_time) :=
    start1_setStart hS.1 s.curr_time harr
  by_cases hgt : q < getB s.remaining_bursts h
  · rw [singleStep5_preempt_eq q cap s h t hrq hgt]
    refine ⟨h1', ?_⟩
    intro x hx
    have hm := hS.2 x (start_unset_back hcne hx)
    rw [hrq] at hm
    show x.toNat ∈ ((t ++ [h]) ++ s.jq).map Int.toNat
    simp only [List.map_append, List.map_cons, List.map_nil, List.mem_append,
      List.mem_cons, List.not_mem_nil, or_false, false_or] at hm ⊢
    tauto
  · rw [singleStep5_complete_eq q cap s h t hrq hgt]
    refine ⟨start1_setFinish h1' _ _, ?_⟩
    intro x hx
    have hx' : (getP (setStartIfUnset s.processes h s.curr_time) x).start_time = -1 := by
      rw [← start_setFinish (setStartIfUnset s.processes h s.curr_time) h
        (s.curr_time + getB s.remaining_bursts h) x]
      exact hx
    have hxh : x.toNat ≠ h.toNat := fun hc => start_set_after hcne hc hx'
    have hm := hS.2 x (start_unset_back hcne hx')
    rw [hrq] at hm
    show x.toNat ∈ (t ++ s.jq).map Int.toNat
    simp only [List.map_append, List.map_cons, List.map_nil, List.mem_append,
      List.mem_cons, List.not_mem_nil, or_false, false_or] at hm ⊢
    tauto

lemma startInv_finishLast {q cap : Int} {s : RRState} (hI : LoopInv q s)
    (hS : StartInv s) (hrqne : s.rq ≠ []) : StartInv (finishLast cap s) := by
  obtain ⟨h, t, hrq⟩ : ∃ h t, s.rq = h :: t := by
    cases hc : s.rq with
    | nil => exact absurd hc hrqne
    | cons a l => exact ⟨a, l, rfl⟩
  have harr : (getP s.processes h).arrival_time ≤ s.curr_time :=
    hI.arr_rq h (hrq ▸ List.mem_cons_self _ _)
  have hcne : s.curr_time ≠ -1 := by
    have := hI.curr_nn
    omega
  rw [finishLast_eq cap s h t hrq]
  refine ⟨start1_setFinish (start1_setStart hS.1 s.curr_time harr) _ _, ?_⟩
  intro x hx
  have hx' : (getP (setStartIfUnset s.processes h s.curr_time) x).start_time = -1 := by
    rw [← start_setFinish (setStartIfUnset s.processes h s.curr_time) h
      (s.curr_time + getB s.remaining_bursts h) x]
    exact hx
  have hxh : x.toNat ≠ h.toNat := fun hc => start_set_after hcne hc hx'
  have hm := hS.2 x (start_unset_back hcne hx')
  rw [hrq] at hm
  show x.toNat ∈ (t ++ s.jq).map Int.toNat
  simp only [List.map_append, List.map_cons, List.map_nil, List.mem_append,
    List.mem_cons, List.not_mem_nil, or_false, false_or] at hm ⊢
  tauto

lemma arrival_foldl_setStart (c q : Int) :
    ∀ (L : List (Nat × Int)) (ps : List Process) (x : Int),
      (getP (L.foldl (fun a ip => setStartIfUnset a ip.2 (c + q * (ip.1 : Int))) ps)
        x).arrival_time = (getP ps x).arrival_time
  | [], _, _ => rfl
  | ip :: L, ps, x => by
    rw [List.foldl_cons, arrival_foldl_setStart c q L _ x, arrival_setStartIfUnset]

lemma start1_foldl_setStart (c q : Int) (hq : 0 ≤ q) :
    ∀ (L : List (Nat × Int)) (ps : List Process),
      Start1 ps →
      (∀ ip ∈ L, (getP ps ip.2).arrival_time ≤ c) →
      Start1 (L.foldl (fun a ip => setStartIfUnset a ip.2 (c + q * (ip.1 : Int))) ps)
  | [], _, h1, _ => h1
  | ip :: L, ps, h1, hL => by
    rw [List.foldl_cons]
    apply start1_foldl_setStart c q hq L
    · apply start1_setStart h1
      have h0 := hL ip (List.mem_cons_self _ _)
      have hge : (0 : Int) ≤ q * (ip.1 : Int) := mul_nonneg hq (Int.natCast_nonneg _)
      omega
    · intro jp hjp
      rw [arrival_setStartIfUnset]
      exact hL jp (List.mem_cons_of_mem _ hjp)

lemma unset_back_foldl_setStart (c q : Int) (hc : 0 ≤ c) (hq : 0 ≤ q) :
    ∀ (L : List (Nat × Int)) (ps : List Process) (x : Int),
      (getP (L.foldl (fun a ip => setStartIfUnset a ip.2 (c + q * (ip.1 : Int))) ps)
        x).start_time = -1 →
      (getP ps x).start_time = -1
  | [], _, _, hx => hx
  | ip :: L, ps, x, hx => by
    rw [List.foldl_cons] at hx
    have hrec := unset_back_foldl_setStart c q hc hq L _ x hx
    refine start_unset_back ?_ hrec
    have hge : (0 : Int) ≤ q * (ip.1 : Int) := mul_nonneg hq (Int.natCast_nonneg _)
    omega

lemma enumFrom_snd_mem {α : Type} : ∀ (n : Nat) (l : List α) (ip : Nat × α),
    ip ∈ l.enumFrom n → ip.2 ∈ l
  | _, [], _, h => absurd h (List.not_mem_nil _)
  | n, a :: l, ip, h => by
    rw [List.enumFrom_cons] at h
    rcases List.mem_cons.mp h with hc | hc
    · rw [hc]
      exact List.mem_cons_self _ _
    · exact List.mem_cons_of_mem _ (enumFrom_snd_mem (n + 1) l ip hc)

lemma enum_snd_mem {α : Type} {l : List α} {ip : Nat × α} (h : ip ∈ l.enum) :
    ip.2 ∈ l :=
  enumFrom_snd_mem 0 l ip h

lemma startInv_applyBulk {q cap k : Int} {s : RRState} (hI : LoopInv q s)
    (hS : StartInv s) : StartInv (applyBulk q cap k s) := by
  have hq0 : (0 : Int) ≤ q := by
    have := hI.hq
    omega
  constructor
  · show Start1 (s.rq.enum.foldl
      (fun ps ip => setStartIfUnset ps ip.2 (s.curr_time + q * (ip.1 : Int))) s.processes)
    apply start1_foldl_setStart s.curr_time q hq0 s.rq.enum s.processes hS.1
    intro ip hip
    exact hI.arr_rq ip.2 (enum_snd_mem hip)
  · intro x hx
    have hx' : (getP s.processes x).start_time = -1 :=
      unset_back_foldl_setStart s.curr_time q hI.curr_nn hq0 s.rq.enum s.processes x hx
    exact hS.2 x hx'

lemma startInv_bulk3 {q cap : Int} {s : RRState} (hI : LoopInv q s) (hS : StartInv s) :
    StartInv (bulk3 q cap s) := by
  unfold bulk3
  dsimp only
  split
  · exact startInv_applyBulk hI hS
  · exact hS

lemma startInv_bulk5 {q cap : Int} {s : RRState} (hI : LoopInv q s) (hS : StartInv s) :
    StartInv (bulk5 q cap s) := by
  unfold bulk5
  split
  · exact startInv_applyBulk hI hS
  · exact hS

lemma startInv_rrStep {opt : Bool} {q cap : Int} {s : RRState} (hI : LoopInv q s)
    (hS : StartInv s) : StartInv (rrStep opt q cap s) := by
  have hblocks : ∀ s' : RRState, LoopInv q s' → StartInv s' → s'.rq ≠ [] →
      StartInv (if s'.jq = [] then block5 opt q cap s' else block3 opt q cap s') := by
    intro s' hI' hS' hrq'
    split
    · by_cases hl : s'.rq.length = 1
      · rw [block5_one_eq opt q cap s' hl]
        exact startInv_finishLast hI' hS' hrq'
      · rw [block5_go_eq opt q cap s' hl]
        cases opt with
        | false =>
          rw [if_neg Bool.false_ne_true]
          exact startInv_singleStep5 hI' hS' hrq'
        | true =>
          rw [if_pos rfl]
          exact startInv_singleStep5 (@inv_bulk5 _ cap _ hI' hrq').1
            (startInv_bulk5 hI' hS') (by rw [bulk5_rq]; exact hrq')
    · next hjq' =>
      obtain ⟨j, js, hjq⟩ : ∃ j js, s'.jq = j :: js := by
        cases hc : s'.jq with
        | nil => exact absurd hc hjq'
        | cons a l => exact ⟨a, l, rfl⟩
      by_cases ha : (getP s'.processes (s'.jq.headD 0)).arrival_time = s'.curr_time
      · exact startInv_caseA hI' hS' hjq ha
      · rw [block3_go_eq opt q cap s' ha]
        cases opt with
        | false =>
          rw [if_neg Bool.false_ne_true]
          exact startInv_singleStep3 hI' hS' hrq'
        | true =>
          rw [if_pos rfl]
          exact startInv_singleStep3 (@inv_bulk3 _ cap _ hI' hrq').1
            (startInv_bulk3 hI' hS') (by rw [bulk3_rq]; exact hrq')
  by_cases hd : s.rq = [] ∧ s.jq = []
  · rw [rrStep_done_eq opt q cap s hd.1 hd.2]
    exact hS
  · by_cases hrq : s.rq = []
    · have hjqne : s.jq ≠ [] := fun hc => hd ⟨hrq, hc⟩
      obtain ⟨j, js, hjq⟩ : ∃ j js, s.jq = j :: js := by
        cases hc : s.jq with
        | nil => exact absurd hc hjqne
        | cons a l => exact ⟨a, l, rfl⟩
      rw [rrStep_boot_eq opt q cap s hrq hjqne]
      have hbI := (@inv_bootstrap _ cap _ hI _ _ hrq hjq).1
      have hbS : StartInv (bootstrap cap s) := startInv_bootstrap hS hjq cap
      have hbrq : (bootstrap cap s).rq ≠ [] := by
        rw [bootstrap_eq cap s j js hjq, hrq]
        simp
      exact hblocks _ hbI hbS hbrq
    · by_cases hjq : s.jq = []
      · rw [rrStep_b5_eq opt q cap s hrq hjq]
        have := hblocks s hI hS hrq
        rw [if_pos hjq] at this
        exact this
      · rw [rrStep_b3_eq opt q cap s hrq hjq]
        have := hblocks s hI hS hrq
        rw [if_neg hjq] at this
        exact this

lemma startInv_stepsN {opt : Bool} {q cap : Int} (n : Nat) (s : RRState)
    (hI : LoopInv q s) (hS : StartInv s) : StartInv (stepsN opt q cap n s) := by
  induction n generalizing s with
  | zero => exact hS
  | succ n ih =>
    show StartInv (stepsN opt q cap n (rrStep opt q cap s))
    by_cases hd : s.rq = [] ∧ s.jq = []
    · rw [rrStep_done_eq opt q cap s hd.1 hd.2]
      exact ih s hI hS
    · exact ih _ (@inv_rrStep opt _ cap _ hI hd).1 (startInv_rrStep hI hS)

lemma startInv_init {q : Int} {procs : List Process} (hwf : WellFormed q procs) :
    StartInv (initState procs) := by
  have hids := wf_ids hwf
  constructor
  · intro x
    by_cases hx : x.toNat < procs.length
    · left
      show (getP procs x).start_time = -1
      have heq : getP procs x = procs[x.toNat] := by
        unfold getP
        rw [List.getD_eq_getElem?_getD, List.getElem?_eq_getElem hx]
        rfl
      rw [heq]
      exact (hwf.2.2.1 _ (List.getElem_mem hx)).2.2
    · right
      show (getP procs x).arrival_time ≤ (getP procs x).start_time
      rw [getP_out (by omega)]
  · intro x hx
    have hx' : (getP procs x).start_time = -1 := hx
    show x.toNat ∈ ([] ++ procs.map (fun p : Process => p.id)).map Int.toNat
    rw [List.nil_append]
    by_cases hxl : x.toNat < procs.length
    · apply List.mem_map.mpr
      refine ⟨procs[x.toNat].id, List.mem_map_of_mem _ (List.getElem_mem hxl), ?_⟩
      rw [hids x.toNat hxl]
      omega
    · exfalso
      rw [getP_out (by omega)] at hx'
      exact absurd hx' (by decide)

/-- The loop exhausts both queues within `fuelBound` iterations. -/
lemma queues_empty_final (q cap : Int) {procs : List Process} (hwf : WellFormed q procs) :
    (stepsN true q cap (fuelBound procs) (initState procs)).rq = [] ∧
    (stepsN true q cap (fuelBound procs) (initState procs)).jq = [] := by
  apply stepsN_done (fuelBound procs) (initState procs) (loopInv_init hwf)
  show measureN (initState procs) ≤ (totalBurst procs).toNat + procs.length + 1
  unfold measureN initState
  dsimp only
  rw [remSum_map_burst (fun p hp => by have := hwf.2.2.1 p hp; omega)]
  simp

/-- `ps'` differs from `ps` only by writes that set a previously unset
`start_time`. -/
def StartStable (ps' ps : List Process) : Prop :=
  ∀ x : Int, (getP ps' x).start_time = (getP ps x).start_time ∨
    (getP ps x).start_time = -1

lemma startStable_refl (ps : List Process) : StartStable ps ps :=
  fun _ => Or.inl rfl

lemma startStable_trans {a b c : List Process} (h1 : StartStable c b)
    (h2 : StartStable b a) : StartStable c a := by
  intro x
  rcases h2 x with h2x | h2x
  · rcases h1 x with h1x | h1x
    · exact Or.inl (h1x.trans h2x)
    · exact Or.inr (h2x ▸ h1x)
  · exact Or.inr h2x

lemma startStable_setStart (ps : List Process) (y t : Int) :
    StartStable (setStartIfUnset ps y t) ps := by
  intro x
  by_cases hx : (getP ps x).start_time = -1
  · exact Or.inr hx
  · exact Or.inl (start_stable_setStartIfUnset ps y t hx)

lemma startStable_setFinish (ps : List Process) (y t : Int) :
    StartStable (setFinish ps y t) ps :=
  fun x => Or.inl (start_setFinish ps y t x)

lemma startStable_foldl {β : Type} (l : List β) (F : List Process → β → List Process)
    (hF : ∀ ps b, StartStable (F ps b) ps) :
    ∀ ps : List Process, StartStable (l.foldl F ps) ps := by
  induction l with
  | nil => exact fun ps => startStable_refl ps
  | cons b bl ih =>
    intro ps
    rw [List.foldl_cons]
    exact startStable_trans (ih (F ps b)) (hF ps b)

lemma startStable_applyBulk (q cap k : Int) (s : RRState) :
    StartStable (applyBulk q cap k s).processes s.processes := by
  unfold applyBulk
  exact startStable_foldl s.rq.enum
    (fun ps ip => setStartIfUnset ps ip.2 (s.curr_time + q * (ip.1 : Int)))
    (fun ps b => startStable_setStart ps b.2 _) s.processes

lemma startStable_singleStep3 (q cap : Int) (s : RRState) :
    StartStable (singleStep3 q cap s).processes s.processes := by
  unfold singleStep3
  cases s.rq with
  | nil => exact startStable_refl _
  | cons h t =>
    dsimp only
    split
    · split
      · split
        · exact show StartStable (setStartIfUnset s.processes h s.curr_time) s.processes
            from startStable_setStart _ _ _
        · exact show StartStable (setStartIfUnset s.processes h s.curr_time) s.processes
            from startStable_setStart _ _ _
      · exact show StartStable (setStartIfUnset s.processes h s.curr_time) s.processes
          from startStable_setStart _ _ _
    · cases s.jq with
      | nil =>
        exact show StartStable (setFinish (setStartIfUnset s.processes h s.curr_time) h
            (s.curr_time + getB s.remaining_bursts h)) s.processes
          from startStable_trans (startStable_setFinish _ _ _) (startStable_setStart _ _ _)
      | cons j js =>
        dsimp only
        split
        · exact show StartStable (setFinish (setStartIfUnset s.processes h s.curr_time) h
              (s.curr_time + getB s.remaining_bursts h)) s.processes
            from startStable_trans (startStable_setFinish _ _ _) (startStable_setStart _ _ _)
        · exact show StartStable (setFinish (setStartIfUnset s.processes h s.curr_time) h
              (s.curr_time + getB s.remaining_bursts h)) s.processes
            from startStable_trans (startStable_setFinish _ _ _) (startStable_setStart _ _ _)

lemma startStable_singleStep5 (q cap : Int) (s : RRState) :
    StartStable (singleStep5 q cap s).processes s.processes := by
  unfold singleStep5
  cases s.rq with
  | nil => exact startStable_refl _
  | cons h t =>
    dsimp only
    split
    · exact show StartStable (setStartIfUnset s.processes h s.curr_time) s.processes
        from startStable_setStart _ _ _
    · exact show StartStable (setFinish (setStartIfUnset s.processes h s.curr_time) h
          (s.curr_time + getB s.remaining_bursts h)) s.processes
        from startStable_trans (startStable_setFinish _ _ _) (startStable_setStart _ _ _)

lemma startStable_finishLast (cap : Int) (s : RRState) :
    StartStable (finishLast cap s).processes s.processes := by
  unfold finishLast
  cases s.rq with
  | nil => exact startStable_refl _
  | cons h t =>
    exact show StartStable (setFinish (setStartIfUnset s.processes h s.curr_time) h
          (s.curr_time + getB s.remaining_bursts h)) s.processes
      from startStable_trans (startStable_setFinish _ _ _) (startStable_setStart _ _ _)

lemma startStable_bulk3 (q cap : Int) (s : RRState) :
    StartStable (bulk3 q cap s).processes s.processes := by
  unfold bulk3
  dsimp only
  split
  · exact startStable_applyBulk q cap _ s
  · exact startStable_refl _

lemma startStable_bulk5 (q cap : Int) (s : RRState) :
    StartStable (bulk5 q cap s).processes s.processes := by
  unfold bulk5
  split
  · exact startStable_applyBulk q cap _ s
  · exact startStable_refl _

lemma startStable_rrStep (opt : Bool) (q cap : Int) (s : RRState) :
    StartStable (rrStep opt q cap s).processes s.processes := by
  unfold rrStep
  split
  · exact startStable_refl _
  · have hblocks : ∀ s' : RRState,
        StartStable ((if s'.jq = [] then block5 opt q cap s'
          else block3 opt q cap s').processes) s'.processes := by
      intro s'
      split
      · unfold block5
        split
        · exact startStable_finishLast cap s'
        · cases opt with
          | false =>
            rw [if_neg Bool.false_ne_true]
            exact startStable_singleStep5 q cap s'
          | true =>
            rw [if_pos rfl]
            exact startStable_trans (startStable_singleStep5 q cap (bulk5 q cap s'))
              (startStable_bulk5 q cap s')
      · unfold block3
        split
        · exact startStable_refl _
        · cases opt with
          | false =>
            rw [if_neg Bool.false_ne_true]
            exact startStable_singleStep3 q cap s'
          | true =>
            rw [if_pos rfl]
            exact startStable_trans (startStable_singleStep3 q cap (bulk3 q cap s'))
              (startStable_bulk3 q cap s')
    split
    · have hb := hblocks (bootstrap cap s)
      rw [map_frameOf_bootstrap] at hb
      exact hb
    · exact hblocks s

lemma stepsN_add (opt : Bool) (q cap : Int) (m : Nat) :
    ∀ (n : Nat) (s : RRState),
      stepsN opt q cap (m + n) s = stepsN opt q cap m (stepsN opt q cap n s)
  | 0, _ => rfl
  | n + 1, s => by
    show stepsN opt q cap (m + n) (rrStep opt q cap s)
      = stepsN opt q cap m (stepsN opt q cap n (rrStep opt q cap s))
    exact stepsN_add opt q cap m n (rrStep opt q cap s)

lemma startStable_stepsN (opt : Bool) (q cap : Int) (n : Nat) (s : RRState) :
    StartStable (stepsN opt q cap n s).processes s.processes := by
  induction n generalizing s with
  | zero => exact startStable_refl _
  | succ n ih =>
    show StartStable (stepsN opt q cap n (rrStep opt q cap s)).processes s.processes
    exact startStable_trans (ih (rrStep opt q cap s)) (startStable_rrStep opt q cap s)

/-- C5: on well-formed input every process ends with `start_time` at least its
`arrival_time`, and `start_time` is write-once along the run: once it is set
(differs from the sentinel `-1`) after `n` loop iterations, it has exactly the
same value after any `m` further iterations, because every assignment is
guarded by the unset sentinel. -/
theorem C5_start_times (q cap : Int) (procs : List Process) (hwf : WellFormed q procs) :
    (∀ x : Int, (getP (simulate_rr q cap procs).processes x).arrival_time
        ≤ (getP (simulate_rr q cap procs).processes x).start_time) ∧
    (∀ (n m : Nat) (x : Int),
      (getP (stepsN true q cap n (initState procs)).processes x).start_time ≠ -1 →
      (getP (stepsN true q cap (m + n) (initState procs)).processes x).start_time
        = (getP (stepsN true q cap n (initState procs)).processes x).start_time) := by
  constructor
  · intro x
    have hS : StartInv (simulate_rr q cap procs) :=
      startInv_stepsN (fuelBound procs) (initState procs) (loopInv_init hwf)
        (startInv_init hwf)
    obtain ⟨hrq, hjq⟩ := queues_empty_final q cap hwf
    rcases hS.1 x with hu | hle
    · exfalso
      have hm := hS.2 x hu
      rw [show (simulate_rr q cap procs).rq
          = (stepsN true q cap (fuelBound procs) (initState procs)).rq from rfl,
        show (simulate_rr q cap procs).jq
          = (stepsN true q cap (fuelBound procs) (initState procs)).jq from rfl,
        hrq, hjq] at hm
      exact absurd hm (by simp)
    · exact hle
  · intro n m x hx
    have hst := startStable_stepsN true q cap m (stepsN true q cap n (initState procs))
    rw [← stepsN_add true q cap m n (initState procs)] at hst
    rcases hst x with heq | hun
    · exact heq
    · exact absurd hun hx

set_option maxHeartbeats 2000000 in
/-- Witness for C5. -/
theorem C5_start_times_witness :
    WellFormed 1 [⟨0, 0, 1, -1, -1⟩] ∧
    ((∀ x : Int, (getP (simulate_rr 1 5 [⟨0, 0, 1, -1, -1⟩]).processes x).arrival_time
        ≤ (getP (simulate_rr 1 5 [⟨0, 0, 1, -1, -1⟩]).processes x).start_time) ∧
     (∀ (n m : Nat) (x : Int),
      (getP (stepsN true 1 5 n (initState [⟨0, 0, 1, -1, -1⟩])).processes x).start_time
          ≠ -1 →
      (getP (stepsN true 1 5 (m + n) (initState [⟨0, 0, 1, -1, -1⟩])).processes
          x).start_time
        = (getP (stepsN true 1 5 n (initState [⟨0, 0, 1, -1, -1⟩])).processes
          x).start_time)) := by
  have hwf : WellFormed 1 [⟨0, 0, 1, -1, -1⟩] := ⟨by decide, by decide, by decide, by decide⟩
  exact ⟨hwf, C5_start_times 1 5 [⟨0, 0, 1, -1, -1⟩] hwf⟩

/-! ## Claim C10: process ids are used as vector indices

The C++ code indexes `processes` and `remaining_bursts` with the *ids* stored
in the two queues (`processes.at(rq.at(i))`, `remaining_bursts.at(jq.at(0))`,
…).  `checkedStep` is the bounds-checked model of one loop iteration: every
index the iteration may feed to `.at` is drawn from the two queues, so the
iteration is performed only if every queued id is a valid index of both
vectors, and the out-of-range branch is `none`.  (The check covers the union
of all `.at` call sites of the iteration; the counterexample below fails
already at the very first access, `processes.at(jq.at(0))` in the bootstrap
dispatch.) -/
def checkedStep (q cap : Int) (s : RRState) : Option RRState :=
  if s.rq = [] ∧ s.jq = [] then some s
  else if (s.rq ++ s.jq).all
      (fun p => decide (0 ≤ p) && decide (p.toNat < s.processes.length)
        && decide (p.toNat < s.remaining_bursts.length))
    then some (rrStep true q cap s) else none

/-- Run `n` bounds-checked iterations. -/
def checkedStepsN (q cap : Int) : Nat → RRState → Option RRState
  | 0, s => some s
  | n + 1, s => (checkedStep q cap s).bind (checkedStepsN q cap n)

/-- `simulate_rr` with every `.at` access bounds-checked. -/
def simulate_rr_checked (q cap : Int) (procs : List Process) : Option RRState :=
  checkedStepsN q cap (fuelBound procs) (initState procs)

lemma checkedStep_eq {q cap : Int} {s : RRState} (hI : LoopInv q s) :
    checkedStep q cap s = some (rrStep true q cap s) := by
  unfold checkedStep
  by_cases hd : s.rq = [] ∧ s.jq = []
  · rw [if_pos hd, rrStep_done_eq true q cap s hd.1 hd.2]
  · rw [if_neg hd, if_pos ?_]
    apply List.all_eq_true.mpr
    intro p hp
    rcases List.mem_append.mp hp with hm | hm
    · have h1 := hI.mem_rq p hm
      have h2 : p.toNat < s.remaining_bursts.length := by
        rw [hI.lenB]
        exact h1.2
      simp only [Bool.and_eq_true, decide_eq_true_eq]
      exact ⟨⟨h1.1, h1.2⟩, h2⟩
    · have h1 := hI.mem_jq p hm
      have h2 : p.toNat < s.remaining_bursts.length := by
        rw [hI.lenB]
        exact h1.2
      simp only [Bool.and_eq_true, decide_eq_true_eq]
      exact ⟨⟨h1.1, h1.2⟩, h2⟩

lemma checkedStepsN_eq {q cap : Int} :
    ∀ (n : Nat) (s : RRState), LoopInv q s →
      checkedStepsN q cap n s = some (stepsN true q cap n s)
  | 0, _, _ => rfl
  | n + 1, s, hI => by
    show (checkedStep q cap s).bind (checkedStepsN q cap n)
      = some (stepsN true q cap n (rrStep true q cap s))
    rw [checkedStep_eq hI]
    show checkedStepsN q cap n (rrStep true q cap s)
      = some (stepsN true q cap n (rrStep true q cap s))
    by_cases hd : s.rq = [] ∧ s.jq = []
    · rw [rrStep_done_eq true q cap s hd.1 hd.2]
      exact checkedStepsN_eq n s hI
    · exact checkedStepsN_eq n _ (@inv_rrStep true _ cap _ hI hd).1

/-- C10: under the (unstated) precondition that the `i`-th process has id `i`
(part of `WellFormed`), every bounds-checked access of the run is in range:
the checked run returns `some` of the unchecked result.  Merely unique ids are
not sufficient: the single process with the unique id `5` (positive burst,
sorted nonnegative arrivals) makes the very first access
`processes.at(jq.at(0))` throw — the checked run returns `none`. -/
theorem C10_id_as_index (q cap : Int) (procs : List Process) (hwf : WellFormed q procs) :
    simulate_rr_checked q cap procs = some (simulate_rr q cap procs) ∧
    ((([⟨5, 0, 3, -1, -1⟩] : List Process).map (fun p => p.id)).Nodup ∧
      (∀ p ∈ ([⟨5, 0, 3, -1, -1⟩] : List Process),
        1 ≤ p.burst ∧ 0 ≤ p.arrival_time ∧ p.start_time = -1) ∧
      List.Chain' (· ≤ ·) (([⟨5, 0, 3, -1, -1⟩] : List Process).map
        (fun p => p.arrival_time))) ∧
    simulate_rr_checked q cap [⟨5, 0, 3, -1, -1⟩] = none := by
  refine ⟨checkedStepsN_eq (fuelBound procs) (initState procs) (loopInv_init hwf),
    ⟨by decide, by decide, by decide⟩, ?_⟩
  rfl

set_option maxHeartbeats 2000000 in
/-- Witness for C10. -/
theorem C10_id_as_index_witness :
    WellFormed 1 [⟨0, 0, 1, -1, -1⟩] ∧
    (simulate_rr_checked 1 5 [⟨0, 0, 1, -1, -1⟩]
        = some (simulate_rr 1 5 [⟨0, 0, 1, -1, -1⟩]) ∧
    ((([⟨5, 0, 3, -1, -1⟩] : List Process).map (fun p => p.id)).Nodup ∧
      (∀ p ∈ ([⟨5, 0, 3, -1, -1⟩] : List Process),
        1 ≤ p.burst ∧ 0 ≤ p.arrival_time ∧ p.start_time = -1) ∧
      List.Chain' (· ≤ ·) (([⟨5, 0, 3, -1, -1⟩] : List Process).map
        (fun p => p.arrival_time))) ∧
    simulate_rr_checked 1 5 [⟨5, 0, 3, -1, -1⟩] = none) := by
  have hwf : WellFormed 1 [⟨0, 0, 1, -1, -1⟩] := ⟨by decide, by decide, by decide, by decide⟩
  exact ⟨hwf, C10_id_as_index 1 5 [⟨0, 0, 1, -1, -1⟩] hwf⟩

/-! ## Claim C1: the bulk-skip optimization refines naive stepping -/

lemma loopInv_rrStep_any {opt : Bool} {q cap : Int} {s : RRState} (hI : LoopInv q s) :
    LoopInv q (rrStep opt q cap s) := by
  by_cases hd : s.rq = [] ∧ s.jq = []
  · rw [rrStep_done_eq opt q cap s hd.1 hd.2]
    exact hI
  · exact (@inv_rrStep opt _ cap _ hI hd).1

lemma loopInv_stepsN {opt : Bool} {q cap : Int} :
    ∀ (n : Nat) {s : RRState}, LoopInv q s → LoopInv q (stepsN opt q cap n s)
  | 0, _, hI => hI
  | n + 1, _, hI => loopInv_stepsN n (loopInv_rrStep_any hI)

lemma stepsN_stabilize {q cap : Int} {s : RRState} (hI : LoopInv q s) {n : Nat}
    (hn : measureN s ≤ n) :
    stepsN false q cap n s = stepsN false q cap (measureN s) s := by
  obtain ⟨d, rfl⟩ : ∃ d, n = d + measureN s := ⟨n - measureN s, by omega⟩
  rw [stepsN_add false q cap d (measureN s) s]
  obtain ⟨h1, h2⟩ := stepsN_done (measureN s) s hI le_rfl
  exact stepsN_fixed h1 h2 d

/-- The final state of the naive (no-bulk) run started at `v`. -/
def NFinal (q cap : Int) (v : RRState) : RRState :=
  stepsN false q cap (measureN v) v

lemma nfinal_eq_stepsN {q cap : Int} {v : RRState} (hI : LoopInv q v) {n : Nat}
    (hn : measureN v ≤ n) : stepsN false q cap n v = NFinal q cap v :=
  stepsN_stabilize hI hn

lemma nfinal_step {q cap : Int} {v : RRState} (hI : LoopInv q v) :
    NFinal q cap (rrStep false q cap v) = NFinal q cap v := by
  by_cases hd : v.rq = [] ∧ v.jq = []
  · rw [rrStep_done_eq false q cap v hd.1 hd.2]
  · obtain ⟨hI', hlt⟩ := @inv_rrStep false _ cap _ hI hd
    obtain ⟨m, hm⟩ : ∃ m, measureN v = m + 1 := ⟨measureN v - 1, by omega⟩
    have hpeel : stepsN false q cap (measureN v) v
        = stepsN false q cap m (rrStep false q cap v) := by
      rw [hm]
      rfl
    show NFinal q cap (rrStep false q cap v) = stepsN false q cap (measureN v) v
    rw [hpeel]
    exact (nfinal_eq_stepsN hI' (by omega)).symm

lemma nfinal_stepsN {q cap : Int} :
    ∀ (n : Nat) {v : RRState}, LoopInv q v →
      NFinal q cap (stepsN false q cap n v) = NFinal q cap v
  | 0, _, _ => rfl
  | n + 1, v, hI => by
    show NFinal q cap (stepsN false q cap n (rrStep false q cap v)) = NFinal q cap v
    rw [nfinal_stepsN n (loopInv_rrStep_any hI), nfinal_step hI]

/-- The state after the naive run dispatches the ready prefix `d` (one quantum
each, no completions, no arrivals): the clock advances `q` per dispatch, each
member's burst drops by `q`, first-touch start times are staggered, the trace
gets the compressed emissions, and `d` rotates to the back of `e`. -/
def dispatched (q cap : Int) (d e : List Int) (s : RRState) : RRState :=
  { s with
    curr_time := s.curr_time + q * d.length
    rq := e ++ d
    remaining_bursts := d.foldl (fun bs p => setB bs p (getB bs p - q)) s.remaining_bursts
    processes := d.enum.foldl
      (fun ps ip => setStartIfUnset ps ip.2 (s.curr_time + q * (ip.1 : Int))) s.processes
    seq := emitRound cap d s.seq }

lemma enumFrom_shift_foldl (q : Int) :
    ∀ (l : List Int) (j : Nat) (c : Int) (ps : List Process),
      (l.enumFrom (j + 1)).foldl
          (fun ps ip => setStartIfUnset ps ip.2 (c + q * (ip.1 : Int))) ps
        = (l.enumFrom j).foldl
          (fun ps ip => setStartIfUnset ps ip.2 ((c + q) + q * (ip.1 : Int))) ps
  | [], _, _, _ => rfl
  | a :: l, j, c, ps => by
    show (l.enumFrom (j + 2)).foldl _ (setStartIfUnset ps a (c + q * ((j + 1 : Nat) : Int)))
      = (l.enumFrom (j + 1)).foldl _ (setStartIfUnset ps a ((c + q) + q * (j : Int)))
    rw [show (c + q * ((j + 1 : Nat) : Int)) = ((c + q) + q * (j : Int)) by push_cast; ring]
    exact enumFrom_shift_foldl q l (j + 1) c _

lemma chunk {q cap : Int} :
    ∀ (d e : List Int) (s : RRState), LoopInv q s → s.rq = d ++ e →
      (∀ p ∈ d, q < getB s.remaining_bursts p) →
      (s.jq = [] ∨ s.curr_time + q * (d.length : Int)
          < (getP s.processes (s.jq.headD 0)).arrival_time) →
      (s.jq = [] → s.rq.length ≠ 1) →
      stepsN false q cap d.length s = dispatched q cap d e s
  | [], e, s, hI, hrq, _, _, _ => by
    show s = dispatched q cap [] e s
    unfold dispatched
    rw [show s.curr_time + q * (([] : List Int).length : Int) = s.curr_time by simp,
      show (e ++ ([] : List Int)) = s.rq by rw [List.append_nil]; rw [hrq]; rfl]
    rfl
  | h :: d', e, s, hI, hrq, hb, harr, hlen => by
    have hrq' : s.rq = h :: (d' ++ e) := hrq
    have hrqne : s.rq ≠ [] := by
      rw [hrq']
      exact List.cons_ne_nil _ _
    have hq := hI.hq
    have hbh : q < getB s.remaining_bursts h := hb h (List.mem_cons_self _ _)
    have hlen1 : (1 : Int) ≤ ((h :: d').length : Int) := by
      rw [List.length_cons]
      push_cast
      omega
    have hql : q ≤ q * ((h :: d').length : Int) := by
      have h2 := mul_le_mul_of_nonneg_left hlen1 (by omega : (0 : Int) ≤ q)
      rw [mul_one] at h2
      exact h2
    have hstep : rrStep false q cap s = { s with
        processes := setStartIfUnset s.processes h s.curr_time
        curr_time := s.curr_time + q
        seq := pushCompressed cap s.seq h
        remaining_bursts := setB s.remaining_bursts h (getB s.remaining_bursts h - q)
        rq := (d' ++ e) ++ [h] } := by
      cases hjq : s.jq with
      | nil =>
        rw [rrStep_b5_eq false q cap s hrqne hjq, block5_go_eq false q cap s (hlen hjq),
          if_neg Bool.false_ne_true, singleStep5_preempt_eq q cap s h (d' ++ e) hrq' hbh,
          hjq]
      | cons j js =>
        have harj : s.curr_time + q * ((h :: d').length : Int)
            < (getP s.processes j).arrival_time := by
          rcases harr with hc | hc
          · rw [hjq] at hc
            exact absurd hc (by simp)
          · rw [hjq] at hc
            exact hc
        have hnlt : ¬ (getP s.processes j).arrival_time < s.curr_time + q := by omega
        have hdw : s.jq.dropWhile
            (fun p => decide ((getP s.processes p).arrival_time < s.curr_time + q))
            = j :: js := by
          rw [hjq, List.dropWhile_cons, if_neg (by simpa using hnlt)]
        have htw : s.jq.takeWhile
            (fun p => decide ((getP s.processes p).arrival_time < s.curr_time + q))
            = [] := by
          rw [hjq, List.takeWhile_cons, if_neg (by simpa using hnlt)]
        have hcasea : ¬ (getP s.processes (s.jq.headD 0)).arrival_time = s.curr_time := by
          rw [hjq]
          show ¬ (getP s.processes j).arrival_time = s.curr_time
          omega
        have htie : ¬ (getP s.processes j).arrival_time = s.curr_time + q := by omega
        rw [rrStep_b3_eq false q cap s hrqne (by rw [hjq]; simp),
          block3_go_eq false q cap s hcasea, if_neg Bool.false_ne_true,
          singleStep3_preempt_notie_eq q cap s h (d' ++ e) hrq' hbh j js hdw htie, htw,
          List.append_nil]
    have hI₁ : LoopInv q { s with
        processes := setStartIfUnset s.processes h s.curr_time
        curr_time := s.curr_time + q
        seq := pushCompressed cap s.seq h
        remaining_bursts := setB s.remaining_bursts h (getB s.remaining_bursts h - q)
        rq := (d' ++ e) ++ [h] } := by
      rw [← hstep]
      exact loopInv_rrStep_any hI
    have hnodup : s.rq.Nodup := ((List.nodup_append).mp hI.nodup).1
    have hhd : h ∉ d' := by
      rw [hrq'] at hnodup
      have hnin := (List.nodup_cons.mp hnodup).1
      intro hc
      exact hnin (List.mem_append.mpr (Or.inl hc))
    have hmem_h : h ∈ s.rq := by
      rw [hrq']
      exact List.mem_cons_self _ _
    have hh0 := hI.mem_rq h hmem_h
    have harg1 : ((d' ++ e) ++ [h] : List Int) = d' ++ (e ++ [h]) := by
      rw [List.append_assoc]
    have harg2 : ∀ p ∈ d', q < getB (setB s.remaining_bursts h
        (getB s.remaining_bursts h - q)) p := by
      intro p hp
      have hpm : p ∈ s.rq := by
        rw [hrq']
        exact List.mem_cons_of_mem _ (List.mem_append.mpr (Or.inl hp))
      have hp0 := hI.mem_rq p hpm
      have hne : p ≠ h := fun hc => hhd (hc ▸ hp)
      rw [getB_setB_ne _ (toNat_ne_of_ne hh0.1 hp0.1 (fun hc => hne hc.symm))]
      exact hb p (List.mem_cons_of_mem _ hp)
    have harg3 : s.jq = [] ∨ (s.curr_time + q) + q * (d'.length : Int)
        < (getP (setStartIfUnset s.processes h s.curr_time) (s.jq.headD 0)).arrival_time := by
      rcases harr with hc | hc
      · exact Or.inl hc
      · right
        rw [arrival_setStartIfUnset]
        have heq : s.curr_time + q + q * (d'.length : Int)
            = s.curr_time + q * ((h :: d').length : Int) := by
          rw [List.length_cons]
          push_cast
          ring
        rw [heq]
        exact hc
    have harg4 : s.jq = [] → ((d' ++ e) ++ [h] : List Int).length ≠ 1 := by
      intro hjq0
      have hl := hlen hjq0
      rw [hrq'] at hl
      simp only [List.length_append, List.length_cons, List.length_nil] at hl ⊢
      omega
    have hrec : stepsN false q cap d'.length { s with
        processes := setStartIfUnset s.processes h s.curr_time
        curr_time := s.curr_time + q
        seq := pushCompressed cap s.seq h
        remaining_bursts := setB s.remaining_bursts h (getB s.remaining_bursts h - q)
        rq := (d' ++ e) ++ [h] } = dispatched q cap d' (e ++ [h]) { s with
        processes := setStartIfUnset s.processes h s.curr_time
        curr_time := s.curr_time + q
        seq := pushCompressed cap s.seq h
        remaining_bursts := setB s.remaining_bursts h (getB s.remaining_bursts h - q)
        rq := (d' ++ e) ++ [h] } := chunk d' (e ++ [h]) { s with
        processes := setStartIfUnset s.processes h s.curr_time
        curr_time := s.curr_time + q
        seq := pushCompressed cap s.seq h
        remaining_bursts := setB s.remaining_bursts h (getB s.remaining_bursts h - q)
        rq := (d' ++ e) ++ [h] } hI₁ harg1 harg2 harg3 harg4
    show stepsN false q cap d'.length (rrStep false q cap s)
      = dispatched q cap (h :: d') e s
    rw [hstep, hrec]
    show dispatched q cap d' (e ++ [h]) _ = dispatched q cap (h :: d') e s
    unfold dispatched
    dsimp only
    congr 1
    · rw [List.length_cons]
      push_cast
      ring
    · rw [List.append_assoc]
      rfl
    · rw [List.enum_cons, List.foldl_cons]
      dsimp only
      rw [show s.curr_time + q * ((0 : Nat) : Int) = s.curr_time by simp]
      rw [show (List.enum d') = d'.enumFrom 0 from rfl,
        ← enumFrom_shift_foldl q d' 0 s.curr_time]

lemma length_foldl_decA (a : Int) :
    ∀ (L : List Int) (bs : List Int),
      (L.foldl (fun b p => setB b p (getB b p - a)) bs).length = bs.length
  | [], _ => rfl
  | p :: L, bs => by
    rw [List.foldl_cons, length_foldl_decA a L, length_setB]

lemma getB_foldl_decA (a : Int) (L : List Int) (bs : List Int)
    (hmem : ∀ p ∈ L, p.toNat < bs.length)
    (hnd : (L.map Int.toNat).Nodup) (x : Int) :
    getB (L.foldl (fun b p => setB b p (getB b p - a)) bs) x
      = if x.toNat ∈ L.map Int.toNat then getB bs x - a else getB bs x := by
  induction L generalizing bs with
  | nil => simp
  | cons p L ih =>
    rw [List.foldl_cons]
    have hlen : (setB bs p (getB bs p - a)).length = bs.length := length_setB ..
    have hndt : (L.map Int.toNat).Nodup := (List.nodup_cons.mp hnd).2
    have hpn : p.toNat ∉ L.map Int.toNat := (List.nodup_cons.mp hnd).1
    rw [ih _ (fun r hr => hlen ▸ hmem r (List.mem_cons_of_mem _ hr)) hndt, List.map_cons]
    by_cases hx : x.toNat ∈ L.map Int.toNat
    · rw [if_pos hx, if_pos (List.mem_cons_of_mem _ hx)]
      rw [getB_setB_ne _ (fun hh : p.toNat = x.toNat => hpn (hh ▸ hx))]
    · by_cases hxp : x.toNat = p.toNat
      · rw [if_neg hx, if_pos (by rw [hxp]; exact List.mem_cons_self _ _)]
        have hp : p.toNat < bs.length := hmem p (List.mem_cons_self _ _)
        have hgx : getB bs p = getB bs x := by
          unfold getB
          rw [hxp]
        have hset : getB (setB bs p (getB bs p - a)) x = getB bs p - a := by
          unfold getB setB
          rw [hxp]
          simp [List.getD, List.getElem?_set_self, hp]
        rw [hset, hgx]
      · rw [if_neg hx,
          if_neg (fun hm => (List.mem_cons.mp hm).elim hxp hx)]
        exact getB_setB_ne _ (fun hh : p.toNat = x.toNat => hxp hh.symm)

lemma getB_natCast (bs : List Int) (n : Nat) (h : n < bs.length) :
    getB bs (n : Int) = bs[n] := by
  unfold getB
  rw [show ((n : Int)).toNat = n by omega, List.getD_eq_getElem?_getD,
    List.getElem?_eq_getElem h]
  rfl

/-- Composing two uniform decrements of the ready queue's bursts. -/
lemma foldl_dec_compose (a b : Int) (L : List Int) (bs : List Int)
    (hmem : ∀ p ∈ L, p.toNat < bs.length)
    (hnd : (L.map Int.toNat).Nodup) :
    L.foldl (fun c p => setB c p (getB c p - b))
        (L.foldl (fun c p => setB c p (getB c p - a)) bs)
      = L.foldl (fun c p => setB c p (getB c p - (a + b))) bs := by
  have hlen1 : (L.foldl (fun c p => setB c p (getB c p - a)) bs).length = bs.length :=
    length_foldl_decA a L bs
  apply List.ext_getElem
  · rw [length_foldl_decA b, hlen1, length_foldl_decA (a + b)]
  · intro n h1 h2
    rw [← getB_natCast _ n h1, ← getB_natCast _ n h2]
    rw [getB_foldl_decA b L _ (fun r hr => hlen1 ▸ hmem r hr) hnd,
      getB_foldl_decA a L bs hmem hnd,
      getB_foldl_decA (a + b) L bs hmem hnd]
    by_cases hx : ((n : Int)).toNat ∈ L.map Int.toNat
    · rw [if_pos hx, if_pos hx, if_pos hx]
      ring
    · rw [if_neg hx, if_neg hx, if_neg hx]

lemma setStartIfUnset_noop (ps : List Process) (y t : Int)
    (h : (getP ps y).start_time ≠ -1) : setStartIfUnset ps y t = ps := by
  unfold setStartIfUnset
  rw [if_neg h]

lemma foldl_setStart_noop (c q : Int) :
    ∀ (L : List (Nat × Int)) (ps : List Process),
      (∀ ip ∈ L, (getP ps ip.2).start_time ≠ -1) →
      L.foldl (fun ps ip => setStartIfUnset ps ip.2 (c + q * (ip.1 : Int))) ps = ps
  | [], _, _ => rfl
  | ip :: L, ps, hL => by
    rw [List.foldl_cons, setStartIfUnset_noop _ _ _ (hL ip (List.mem_cons_self _ _)),
      foldl_setStart_noop c q L ps (fun jp hjp => hL jp (List.mem_cons_of_mem _ hjp))]

lemma foldl_setStart_stable (c q : Int) (L : List (Nat × Int)) (ps : List Process)
    {x : Int} (hx : (getP ps x).start_time ≠ -1) :
    (getP (L.foldl (fun ps ip => setStartIfUnset ps ip.2 (c + q * (ip.1 : Int))) ps)
      x).start_time = (getP ps x).start_time := by
  have hst := startStable_foldl L
    (fun ps ip => setStartIfUnset ps ip.2 (c + q * (ip.1 : Int)))
    (fun ps b => startStable_setStart ps b.2 _) ps x
  rcases hst with h | h
  · exact h
  · exact absurd h hx

lemma foldl_setStart_sets (c q : Int) (hc : 0 ≤ c) (hq : 0 ≤ q) :
    ∀ (L : List (Nat × Int)) (ps : List Process), ∀ ip ∈ L,
      (getP (L.foldl (fun ps ip => setStartIfUnset ps ip.2 (c + q * (ip.1 : Int))) ps)
        ip.2).start_time ≠ -1
  | [], _, ip, hip => absurd hip (List.not_mem_nil _)
  | jp :: L, ps, ip, hip => by
    rw [List.foldl_cons]
    rcases List.mem_cons.mp hip with hc1 | hc1
    · subst hc1
      have hne : ¬ (c + q * ((ip.1 : Nat) : Int)) = -1 := by
        have : (0 : Int) ≤ q * ((ip.1 : Nat) : Int) := mul_nonneg hq (Int.natCast_nonneg _)
        omega
      have hset : (getP (setStartIfUnset ps ip.2 (c + q * (ip.1 : Int))) ip.2).start_time
          ≠ -1 := fun hu => start_set_after hne rfl hu
      intro hcon
      apply hset
      rw [← foldl_setStart_stable c q L _ hset]
      exact hcon
    · exact foldl_setStart_sets c q hc hq L _ ip hc1

lemma nat_repeat_succ_inner {α : Type} (f : α → α) :
    ∀ (n : Nat) (a : α), Nat.repeat f n (f a) = f (Nat.repeat f n a)
  | 0, _ => rfl
  | n + 1, a => by
    show f (Nat.repeat f n (f a)) = _
    rw [nat_repeat_succ_inner f n a]
    rfl

/-- One more naive round on top of `K` bulk rounds is `K + 1` bulk rounds. -/
lemma dispatched_applyBulk {q cap : Int} {s : RRState} (hI : LoopInv q s) (K : Int)
    (hK : 1 ≤ K) (hKcap : K + 1 ≤ cap) :
    dispatched q cap s.rq [] (applyBulk q cap K s) = applyBulk q cap (K + 1) s := by
  have hset : ∀ ip ∈ s.rq.enum, (getP (s.rq.enum.foldl
      (fun ps ip => setStartIfUnset ps ip.2 (s.curr_time + q * (ip.1 : Int)))
      s.processes) ip.2).start_time ≠ -1 :=
    foldl_setStart_sets s.curr_time q hI.curr_nn (by have := hI.hq; omega) s.rq.enum
      s.processes
  have hmem : ∀ p ∈ s.rq, p.toNat < s.remaining_bursts.length := by
    intro p hp
    rw [hI.lenB]
    exact (hI.mem_rq p hp).2
  have hnd : (s.rq.map Int.toNat).Nodup :=
    toNat_nodup_of (fun p hp => (hI.mem_rq p hp).1) ((List.nodup_append.mp hI.nodup).1)
  unfold dispatched applyBulk
  congr 1
  · ring
  · rw [foldl_dec_compose (q * K) q s.rq s.remaining_bursts hmem hnd]
    simp only [show ∀ z : Int, z - (q * K + q) = z - q * (K + 1) from fun z => by ring]
  · rw [foldl_setStart_noop (s.curr_time + (s.rq.length : Int) * q * K) q s.rq.enum _ hset]
  · rw [min_eq_left (by omega : K ≤ cap), min_eq_left hKcap,
      show (K + 1).toNat = K.toNat + 1 by omega]
    rfl

lemma cycles_strict {q cap : Int} :
    ∀ (K : Nat) (k : Int) (s : RRState), k = (K : Int) → LoopInv q s → s.rq ≠ [] →
      1 ≤ k → k ≤ cap →
      (∀ p ∈ s.rq, q * k < getB s.remaining_bursts p) →
      (s.jq = [] ∨ s.curr_time + (s.rq.length : Int) * q * k
          < (getP s.processes (s.jq.headD 0)).arrival_time) →
      (s.jq = [] → s.rq.length ≠ 1) →
      stepsN false q cap (s.rq.length * K) s = applyBulk q cap k s := by
  intro K
  induction K with
  | zero =>
    intro k s hk _ _ hk1 _ _ _ _
    rw [hk] at hk1
    norm_num at hk1
  | succ K ih =>
    intro k s hk hI hrq hk1 hkcap hb harr hlen
    have hq := hI.hq
    by_cases hK0 : K = 0
    · subst hK0
      have hk1' : k = 1 := by
        rw [hk]
        norm_num
      subst hk1'
      have hb1 : ∀ p ∈ s.rq, q < getB s.remaining_bursts p := by
        intro p hp
        have := hb p hp
        rw [mul_one] at this
        exact this
      have harr1 : s.jq = [] ∨ s.curr_time + q * (s.rq.length : Int)
          < (getP s.processes (s.jq.headD 0)).arrival_time := by
        rcases harr with hc | hc
        · exact Or.inl hc
        · right
          rw [show q * (s.rq.length : Int) = (s.rq.length : Int) * q * 1 by ring]
          exact hc
      rw [Nat.mul_one]
      rw [chunk s.rq [] s hI (by rw [List.append_nil]) hb1 harr1 hlen]
      unfold dispatched applyBulk
      congr 1
      · ring
      · simp only [mul_one]
      · rw [min_eq_left hkcap]
        rfl
    · have hK1 : 1 ≤ K := Nat.one_le_iff_ne_zero.mpr hK0
      have hkk : k = (K : Int) + 1 := by
        rw [hk]
        push_cast
        ring
      have hKc : (1 : Int) ≤ (K : Int) := by
        omega
      have hrpos : (1 : Int) ≤ (s.rq.length : Int) := by
        have hne : s.rq.length ≠ 0 := fun hc => hrq (List.length_eq_zero.mp hc)
        omega
      have hmem : ∀ p ∈ s.rq, p.toNat < s.remaining_bursts.length := by
        intro p hp
        rw [hI.lenB]
        exact (hI.mem_rq p hp).2
      have hnd : (s.rq.map Int.toNat).Nodup :=
        toNat_nodup_of (fun p hp => (hI.mem_rq p hp).1) ((List.nodup_append.mp hI.nodup).1)
      have hqk : q * k = q * (K : Int) + q := by
        rw [hkk]
        ring
      have hqk' : ∀ p ∈ s.rq, q * (K : Int) < getB s.remaining_bursts p := by
        intro p hp
        have h1 := hb p hp
        omega
      have harr' : s.jq = [] ∨ s.curr_time + (s.rq.length : Int) * q * (K : Int)
          < (getP s.processes (s.jq.headD 0)).arrival_time := by
        rcases harr with hc | hc
        · exact Or.inl hc
        · right
          have hsp : (s.rq.length : Int) * q * k
              = (s.rq.length : Int) * q * (K : Int) + (s.rq.length : Int) * q := by
            rw [hkk]
            ring
          have hpos : (0 : Int) < (s.rq.length : Int) * q := by positivity
          omega
      have ih1 := ih (K : Int) s rfl hI hrq hKc (by omega) hqk' harr' hlen
      have hIu : LoopInv q (applyBulk q cap (K : Int) s) := by
        rw [← ih1]
        exact loopInv_stepsN _ hI
      have hsplit : s.rq.length * (K + 1) = s.rq.length + s.rq.length * K := by ring
      rw [hsplit, stepsN_add false q cap s.rq.length (s.rq.length * K) s, ih1]
      have hbu : ∀ p ∈ s.rq, q < getB (applyBulk q cap (K : Int) s).remaining_bursts p := by
        intro p hp
        show q < getB (s.rq.foldl
          (fun bs r => setB bs r (getB bs r - q * (K : Int))) s.remaining_bursts) p
        rw [getB_foldl_dec q (K : Int) s.rq s.remaining_bursts hmem hnd p,
          if_pos (List.mem_map_of_mem _ hp)]
        have := hb p hp
        omega
      have harru : (applyBulk q cap (K : Int) s).jq = []
          ∨ (applyBulk q cap (K : Int) s).curr_time + q * ((s.rq.length : Nat) : Int)
            < (getP (applyBulk q cap (K : Int) s).processes
                ((applyBulk q cap (K : Int) s).jq.headD 0)).arrival_time := by
        rcases harr with hc | hc
        · exact Or.inl hc
        · right
          show s.curr_time + (s.rq.length : Int) * q * (K : Int) + q * (s.rq.length : Int)
            < (getP (s.rq.enum.foldl
                (fun ps ip => setStartIfUnset ps ip.2 (s.curr_time + q * (ip.1 : Int)))
                s.processes) (s.jq.headD 0)).arrival_time
          rw [arrival_foldl_setStart s.curr_time q s.rq.enum s.processes]
          have hsp : (s.rq.length : Int) * q * k
              = (s.rq.length : Int) * q * (K : Int) + (s.rq.length : Int) * q := by
            rw [hkk]
            ring
          have hcomm : q * (s.rq.length : Int) = (s.rq.length : Int) * q := by ring
          omega
      have hlenu : (applyBulk q cap (K : Int) s).jq = []
          → (applyBulk q cap (K : Int) s).rq.length ≠ 1 := hlen
      rw [chunk s.rq [] (applyBulk q cap (K : Int) s) hIu
        (by rw [List.append_nil]; rfl) hbu harru hlenu]
      rw [hkk]
      exact dispatched_applyBulk hI (K : Int) hKc (by omega)

/-- A final naive round whose last quantum ends exactly at the next arrival:
the round completes as usual and the tie-break admits the arrival behind the
just-preempted last member of the round. -/
lemma round_tie {q cap : Int} {x : RRState} (hI : LoopInv q x) (R : List Int)
    (hR : x.rq = R) (hRne : R ≠ []) {j : Int} {js : List Int} (hjq : x.jq = j :: js)
    (hb : ∀ p ∈ R, q < getB x.remaining_bursts p)
    (htie : (getP x.processes j).arrival_time = x.curr_time + q * (R.length : Int)) :
    stepsN false q cap R.length x = { x with
      curr_time := x.curr_time + q * (R.length : Int)
      rq := R ++ [j]
      jq := js
      remaining_bursts := R.foldl (fun bs p => setB bs p (getB bs p - q))
        x.remaining_bursts
      processes := R.enum.foldl
        (fun ps ip => setStartIfUnset ps ip.2 (x.curr_time + q * (ip.1 : Int)))
        x.processes
      seq := emitRound cap R x.seq } := by
  have hq := hI.hq
  obtain ⟨I, L, hdec⟩ : ∃ I L, I ++ [L] = R :=
    ⟨R.dropLast, R.getLast hRne, List.dropLast_append_getLast hRne⟩
  have hRlen1 : 1 ≤ R.length := List.length_pos.mpr hRne
  have hlenI : I.length = R.length - 1 := by
    have := congrArg List.length hdec
    simp only [List.length_append, List.length_cons, List.length_nil] at this
    omega
  have hIc : (I.length : Int) = (R.length : Int) - 1 := by
    rw [hlenI, Nat.cast_sub hRlen1, Nat.cast_one]
  have hqI : q * (I.length : Int) = q * (R.length : Int) - q := by
    rw [hIc]
    ring
  have hjqne : x.jq ≠ [] := by
    rw [hjq]
    exact List.cons_ne_nil _ _
  have hmemI : ∀ p ∈ I, p ∈ R := by
    intro p hp
    rw [← hdec]
    exact List.mem_append.mpr (Or.inl hp)
  have hmemL : L ∈ R := by
    rw [← hdec]
    exact List.mem_append.mpr (Or.inr (List.mem_singleton.mpr rfl))
  have hndR : (R.map Int.toNat).Nodup := by
    have h1 : R.Nodup := by
      rw [← hR]
      exact (List.nodup_append.mp hI.nodup).1
    exact toNat_nodup_of (fun p hp => (hI.mem_rq p (hR ▸ hp)).1) h1
  have hLnotI : L.toNat ∉ I.map Int.toNat := by
    intro hmem
    have h2 := hndR
    rw [← hdec, List.map_append] at h2
    have hdisj := (List.nodup_append.mp h2).2.2
    exact hdisj hmem (by simp)
  have hmemIb : ∀ p ∈ I, p.toNat < x.remaining_bursts.length := by
    intro p hp
    rw [hI.lenB]
    exact (hI.mem_rq p (hR ▸ hmemI p hp)).2
  have hndI : (I.map Int.toNat).Nodup := by
    have h2 := hndR
    rw [← hdec, List.map_append] at h2
    exact (List.nodup_append.mp h2).1
  have hch := @chunk q cap I [L] x hI (by rw [hR, hdec])
    (fun p hp => hb p (hmemI p hp))
    (by
      right
      rw [hjq]
      show x.curr_time + q * (I.length : Int) < (getP x.processes j).arrival_time
      omega)
    (fun hc => absurd hc hjqne)
  have harrF : (getP ((I.enum).foldl
      (fun ps ip => setStartIfUnset ps ip.2 (x.curr_time + q * (ip.1 : Int)))
      x.processes) j).arrival_time = (getP x.processes j).arrival_time :=
    arrival_foldl_setStart x.curr_time q I.enum x.processes j
  have hnlt : ¬ (getP ((I.enum).foldl
      (fun ps ip => setStartIfUnset ps ip.2 (x.curr_time + q * (ip.1 : Int)))
      x.processes) j).arrival_time < (x.curr_time + q * (I.length : Int)) + q := by
    rw [harrF]
    omega
  have hgt : q < getB (I.foldl (fun bs p => setB bs p (getB bs p - q))
      x.remaining_bursts) L := by
    rw [getB_foldl_decA q I x.remaining_bursts hmemIb hndI, if_neg hLnotI]
    exact hb _ hmemL
  conv_lhs => rw [show R.length = 1 + I.length by omega]
  rw [stepsN_add false q cap 1 I.length x, hch]
  show rrStep false q cap (dispatched q cap I [L] x) = _
  have hy_rq : (dispatched q cap I [L] x).rq = L :: I := rfl
  have hy_jqne : (dispatched q cap I [L] x).jq ≠ [] := hjqne
  have hy_rqne : (dispatched q cap I [L] x).rq ≠ [] := by
    rw [hy_rq]
    exact List.cons_ne_nil _ _
  have hy_casea : ¬ (getP (dispatched q cap I [L] x).processes
      ((dispatched q cap I [L] x).jq.headD 0)).arrival_time
      = (dispatched q cap I [L] x).curr_time := by
    show ¬ (getP _ (x.jq.headD 0)).arrival_time = x.curr_time + q * (I.length : Int)
    rw [hjq]
    show ¬ (getP ((I.enum).foldl
      (fun ps ip => setStartIfUnset ps ip.2 (x.curr_time + q * (ip.1 : Int)))
      x.processes) j).arrival_time = x.curr_time + q * (I.length : Int)
    rw [harrF]
    omega
  have hy_dw : (dispatched q cap I [L] x).jq.dropWhile
      (fun p => decide ((getP (dispatched q cap I [L] x).processes p).arrival_time
        < (dispatched q cap I [L] x).curr_time + q)) = j :: js := by
    show x.jq.dropWhile _ = j :: js
    rw [hjq, List.dropWhile_cons, if_neg (by simpa using hnlt)]
  have hy_tw : (dispatched q cap I [L] x).jq.takeWhile
      (fun p => decide ((getP (dispatched q cap I [L] x).processes p).arrival_time
        < (dispatched q cap I [L] x).curr_time + q)) = [] := by
    show x.jq.takeWhile _ = []
    rw [hjq, List.takeWhile_cons, if_neg (by simpa using hnlt)]
  have hy_tie : (getP (dispatched q cap I [L] x).processes j).arrival_time
      = (dispatched q cap I [L] x).curr_time + q := by
    show (getP ((I.enum).foldl
      (fun ps ip => setStartIfUnset ps ip.2 (x.curr_time + q * (ip.1 : Int)))
      x.processes) j).arrival_time = (x.curr_time + q * (I.length : Int)) + q
    rw [harrF]
    omega
  rw [rrStep_b3_eq false q cap _ hy_rqne hy_jqne, block3_go_eq false q cap _ hy_casea,
    if_neg Bool.false_ne_true,
    singleStep3_preempt_tie_eq q cap _ L I hy_rq hgt j js hy_dw hy_tie, hy_tw,
    List.append_nil]
  show RRState.mk (x.curr_time + q * (I.length : Int) + q) (I ++ [L, j]) js
      (setB (I.foldl (fun bs p => setB bs p (getB bs p - q)) x.remaining_bursts) L
        (getB (I.foldl (fun bs p => setB bs p (getB bs p - q)) x.remaining_bursts) L - q))
      (setStartIfUnset (I.enum.foldl (fun ps ip => setStartIfUnset ps ip.2
          (x.curr_time + q * (ip.1 : Int))) x.processes) L
        (x.curr_time + q * (I.length : Int)))
      (pushCompressed cap (emitRound cap I x.seq) L) x.boots
    = _
  congr 1
  · omega
  · conv_rhs => rw [← hdec]
    rw [List.append_assoc]
    rfl
  · conv_rhs => rw [← hdec]
    rw [List.foldl_append]
    rfl
  · conv_rhs => rw [← hdec]
    rw [List.enum_append, List.foldl_append]
    rfl
  · conv_rhs => rw [← hdec]
    show pushCompressed cap (emitRound cap I x.seq) L = emitRound cap (I ++ [L]) x.seq
    unfold emitRound
    rw [List.foldl_append]
    rfl

lemma rrState_ext {a b : RRState} (h1 : a.curr_time = b.curr_time) (h2 : a.rq = b.rq)
    (h3 : a.jq = b.jq) (h4 : a.remaining_bursts = b.remaining_bursts)
    (h5 : a.processes = b.processes) (h6 : a.seq = b.seq) (h7 : a.boots = b.boots) :
    a = b := by
  cases a
  cases b
  dsimp only at h1 h2 h3 h4 h5 h6 h7
  subst h1 h2 h3 h4 h5 h6 h7
  rfl

lemma dispatched_one {q cap : Int} {s : RRState} (hcap : 1 ≤ cap) :
    dispatched q cap s.rq [] s = applyBulk q cap 1 s := by
  unfold dispatched applyBulk
  congr 1
  · ring
  · simp only [mul_one]
  · rw [min_eq_left hcap]
    rfl

lemma cycles_tie {q cap : Int} :
    ∀ (K : Nat) (k : Int) (s : RRState) {j : Int} {js : List Int}, k = (K : Int) →
      LoopInv q s → s.rq ≠ [] → 1 ≤ k → k ≤ cap →
      (∀ p ∈ s.rq, q * k < getB s.remaining_bursts p) →
      s.jq = j :: js →
      (getP s.processes j).arrival_time = s.curr_time + (s.rq.length : Int) * q * k →
      stepsN false q cap (s.rq.length * K) s
        = rrStep false q cap (applyBulk q cap k s) := by
  intro K k s j js hk hI hrq hk1 hkcap hb hjq htie
  have hq := hI.hq
  have hjqne : s.jq ≠ [] := by
    rw [hjq]
    exact List.cons_ne_nil _ _
  have hrpos : (1 : Int) ≤ (s.rq.length : Int) := by
    have hne : s.rq.length ≠ 0 := fun hc => hrq (List.length_eq_zero.mp hc)
    omega
  have hmem : ∀ p ∈ s.rq, p.toNat < s.remaining_bursts.length := by
    intro p hp
    rw [hI.lenB]
    exact (hI.mem_rq p hp).2
  have hnd : (s.rq.map Int.toNat).Nodup :=
    toNat_nodup_of (fun p hp => (hI.mem_rq p hp).1) ((List.nodup_append.mp hI.nodup).1)
  have hw_rqne : (applyBulk q cap k s).rq ≠ [] := hrq
  have hw_jqne : (applyBulk q cap k s).jq ≠ [] := hjqne
  have hw_casea : (getP (applyBulk q cap k s).processes
      ((applyBulk q cap k s).jq.headD 0)).arrival_time
      = (applyBulk q cap k s).curr_time := by
    show (getP (s.rq.enum.foldl
        (fun ps ip => setStartIfUnset ps ip.2 (s.curr_time + q * (ip.1 : Int)))
        s.processes) (s.jq.headD 0)).arrival_time
      = s.curr_time + (s.rq.length : Int) * q * k
    rw [hjq]
    show (getP (s.rq.enum.foldl
        (fun ps ip => setStartIfUnset ps ip.2 (s.curr_time + q * (ip.1 : Int)))
        s.processes) j).arrival_time = s.curr_time + (s.rq.length : Int) * q * k
    rw [arrival_foldl_setStart]
    exact htie
  have hstep_w : rrStep false q cap (applyBulk q cap k s)
      = { applyBulk q cap k s with
          rq := (applyBulk q cap k s).rq ++ [(applyBulk q cap k s).jq.headD 0]
          jq := (applyBulk q cap k s).jq.tail } := by
    rw [rrStep_b3_eq false q cap _ hw_rqne hw_jqne,
      block3_caseA_eq false q cap _ hw_casea]
  rw [hstep_w]
  by_cases hK1 : K = 1
  · subst hK1
    have hk1' : k = 1 := by
      rw [hk]
      norm_num
    subst hk1'
    have hb1 : ∀ p ∈ s.rq, q < getB s.remaining_bursts p := by
      intro p hp
      have := hb p hp
      rw [mul_one] at this
      exact this
    have htie1 : (getP s.processes j).arrival_time
        = s.curr_time + q * (s.rq.length : Int) := by
      rw [htie]
      ring
    conv_lhs => rw [Nat.mul_one]
    rw [round_tie hI s.rq rfl hrq hjq hb1 htie1]
    have hDA : dispatched q cap s.rq [] s = applyBulk q cap 1 s := dispatched_one hkcap
    apply rrState_ext
    · have h := congrArg RRState.curr_time hDA
      exact h
    · show s.rq ++ [j] = s.rq ++ [s.jq.headD 0]
      rw [hjq]
      rfl
    · show js = s.jq.tail
      rw [hjq]
      rfl
    · have h := congrArg RRState.remaining_bursts hDA
      exact h
    · have h := congrArg RRState.processes hDA
      exact h
    · have h := congrArg RRState.seq hDA
      exact h
    · rfl
  · obtain ⟨K', rfl⟩ : ∃ K', K = K' + 1 := ⟨K - 1, by omega⟩
    have hK'1 : 1 ≤ K' := by
      rcases Nat.eq_zero_or_pos K' with h0 | h0
      · subst h0
        exact absurd rfl hK1
      · exact h0
    have hkk : k - 1 = ((K' : Nat) : Int) := by
      rw [hk]
      push_cast
      ring
    have hk2 : (2 : Int) ≤ k := by
      rw [hk]
      have : (1 : Int) ≤ ((K' : Nat) : Int) := by omega
      push_cast
      omega
    have hqk : q * (k - 1) = q * k - q := by ring
    have hb' : ∀ p ∈ s.rq, q * (k - 1) < getB s.remaining_bursts p := by
      intro p hp
      have := hb p hp
      omega
    have hrq2 : (s.rq.length : Int) * q * (k - 1)
        = (s.rq.length : Int) * q * k - (s.rq.length : Int) * q := by ring
    have hrqq : (1 : Int) ≤ (s.rq.length : Int) * q := by nlinarith
    have harr' : s.jq = [] ∨ s.curr_time + (s.rq.length : Int) * q * (k - 1)
        < (getP s.processes (s.jq.headD 0)).arrival_time := by
      right
      rw [hjq]
      show s.curr_time + (s.rq.length : Int) * q * (k - 1)
        < (getP s.processes j).arrival_time
      omega
    have hA : (1 : Int) ≤ k - 1 := by omega
    have hB : k - 1 ≤ cap := by omega
    have hstrict := cycles_strict K' (k - 1) s hkk hI hrq hA hB hb'
      harr' (fun hc => absurd hc hjqne)
    rw [hkk] at hstrict
    have hIu : LoopInv q (applyBulk q cap ((K' : Nat) : Int) s) := by
      rw [← hstrict]
      exact loopInv_stepsN _ hI
    have hbu : ∀ p ∈ s.rq,
        q < getB (applyBulk q cap ((K' : Nat) : Int) s).remaining_bursts p := by
      intro p hp
      show q < getB (s.rq.foldl
        (fun bs r => setB bs r (getB bs r - q * ((K' : Nat) : Int)))
        s.remaining_bursts) p
      rw [getB_foldl_dec q ((K' : Nat) : Int) s.rq s.remaining_bursts hmem hnd p,
        if_pos (List.mem_map_of_mem _ hp)]
      have h1 := hb p hp
      have h2 : q * k = q * ((K' : Nat) : Int) + q := by
        rw [show ((K' : Nat) : Int) = k - 1 from hkk.symm]
        ring
      omega
    have htieu : (getP (applyBulk q cap ((K' : Nat) : Int) s).processes j).arrival_time
        = (applyBulk q cap ((K' : Nat) : Int) s).curr_time
          + q * (s.rq.length : Int) := by
      show (getP (s.rq.enum.foldl
          (fun ps ip => setStartIfUnset ps ip.2 (s.curr_time + q * (ip.1 : Int)))
          s.processes) j).arrival_time
        = (s.curr_time + (s.rq.length : Int) * q * ((K' : Nat) : Int))
          + q * (s.rq.length : Int)
      rw [arrival_foldl_setStart]
      have h2 : (s.rq.length : Int) * q * k
          = (s.rq.length : Int) * q * ((K' : Nat) : Int) + q * (s.rq.length : Int) := by
        rw [show ((K' : Nat) : Int) = k - 1 from hkk.symm]
        ring
      omega
    have hsplitc : s.rq.length * (K' + 1) = s.rq.length + s.rq.length * K' := by ring
    conv_lhs => rw [hsplitc]
    rw [stepsN_add false q cap s.rq.length (s.rq.length * K') s, hstrict]
    rw [round_tie hIu s.rq rfl hrq hjq hbu htieu]
    have hDA : dispatched q cap s.rq [] (applyBulk q cap ((K' : Nat) : Int) s)
        = applyBulk q cap k s := by
      have h2 := dispatched_applyBulk hI ((K' : Nat) : Int) (by omega)
        (by
          show ((K' : Nat) : Int) + 1 ≤ cap
          omega)
      rw [show ((K' : Nat) : Int) + 1 = k by omega] at h2
      exact h2
    apply rrState_ext
    · have h := congrArg RRState.curr_time hDA
      exact h
    · show s.rq ++ [j] = s.rq ++ [s.jq.headD 0]
      rw [hjq]
      rfl
    · show js = s.jq.tail
      rw [hjq]
      rfl
    · have h := congrArg RRState.remaining_bursts hDA
      exact h
    · have h := congrArg RRState.processes hDA
      exact h
    · have h := congrArg RRState.seq hDA
      exact h
    · rfl

lemma takeWhile_append_all {α : Type} (p : α → Bool) :
    ∀ (l₁ l₂ : List α), (∀ a ∈ l₁, p a = true) →
      (l₁ ++ l₂).takeWhile p = l₁ ++ l₂.takeWhile p
  | [], _, _ => rfl
  | a :: l₁, l₂, h => by
    have ha := h a (List.mem_cons_self a l₁)
    show ((a :: l₁) ++ l₂).takeWhile p = (a :: l₁) ++ l₂.takeWhile p
    rw [List.cons_append, List.takeWhile_cons, ha, if_pos rfl,
      takeWhile_append_all p l₁ l₂ (fun x hx => h x (List.mem_cons_of_mem a hx))]
    rfl

lemma dropWhile_append_all {α : Type} (p : α → Bool) :
    ∀ (l₁ l₂ : List α), (∀ a ∈ l₁, p a = true) →
      (l₁ ++ l₂).dropWhile p = l₂.dropWhile p
  | [], _, _ => rfl
  | a :: l₁, l₂, h => by
    have ha := h a (List.mem_cons_self a l₁)
    show ((a :: l₁) ++ l₂).dropWhile p = l₂.dropWhile p
    rw [List.cons_append, List.dropWhile_cons, ha, if_pos rfl]
    exact dropWhile_append_all p l₁ l₂ (fun x hx => h x (List.mem_cons_of_mem a hx))

lemma dropWhile_head_false {α : Type} (p : α → Bool) :
    ∀ (l : List α) {b : α} {bs : List α}, l.dropWhile p = b :: bs → p b = false
  | [], _, _, hc => by exact absurd hc (by exact fun hh => List.noConfusion hh)
  | a :: l, b, bs, h => by
    rw [List.dropWhile_cons] at h
    by_cases hpa : p a = true
    · rw [if_pos hpa] at h
      exact dropWhile_head_false p l h
    · rw [if_neg hpa] at h
      cases h
      cases hb : p a with
      | false => rfl
      | true => exact absurd hb hpa

/-- Move the admissible prefix `A` of the job queue to the back of the ready
queue, leaving `B` pending (the cumulative effect of consecutive same-instant
admissions at lines 54-58). -/
def admitP (A B : List Int) (u : RRState) : RRState :=
  { u with rq := u.rq ++ A, jq := B }

lemma admitP_nil (u : RRState) {B : List Int} (hB : u.jq = B) : admitP [] B u = u := by
  apply rrState_ext
  · rfl
  · show u.rq ++ [] = u.rq
    exact List.append_nil _
  · exact hB.symm
  · rfl
  · rfl
  · rfl
  · rfl

lemma admitP_comp (A₁ B₁ A₂ B₂ : List Int) (u : RRState) :
    admitP A₂ B₂ (admitP A₁ B₁ u) = admitP (A₁ ++ A₂) B₂ u := by
  apply rrState_ext
  · rfl
  · show (u.rq ++ A₁) ++ A₂ = u.rq ++ (A₁ ++ A₂)
    exact List.append_assoc u.rq A₁ A₂
  · rfl
  · rfl
  · rfl
  · rfl
  · rfl

lemma admitP_rq_ne {A B : List Int} {u : RRState} (hrq : u.rq ≠ []) :
    (admitP A B u).rq ≠ [] := by
  show u.rq ++ A ≠ []
  intro hc
  exact hrq (List.append_eq_nil.mp hc).1

lemma loopInv_admit {q : Int} {u : RRState} (hI : LoopInv q u) (A B : List Int)
    (hjq : u.jq = A ++ B)
    (hadm : ∀ a ∈ A, (getP u.processes a).arrival_time ≤ u.curr_time) :
    LoopInv q (admitP A B u) := by
  have hArq : ∀ a ∈ A, a ∈ u.jq := by
    intro a ha
    rw [hjq]
    exact List.mem_append_left B ha
  have hBrq : ∀ b ∈ B, b ∈ u.jq := by
    intro b hb
    rw [hjq]
    exact List.mem_append_right A hb
  constructor
  case hq => exact hI.hq
  case lenB => exact hI.lenB
  case mem_rq =>
    intro p hp
    rcases List.mem_append.mp hp with h | h
    · exact hI.mem_rq p h
    · exact hI.mem_jq p (hArq p h)
  case mem_jq =>
    intro p hp
    exact hI.mem_jq p (hBrq p hp)
  case pos_rq =>
    intro p hp
    rcases List.mem_append.mp hp with h | h
    · exact hI.pos_rq p h
    · exact hI.pos_jq p (hArq p h)
  case pos_jq =>
    intro p hp
    exact hI.pos_jq p (hBrq p hp)
  case nodup =>
    show ((u.rq ++ A) ++ B).Nodup
    rw [List.append_assoc, ← hjq]
    exact hI.nodup
  case arr_rq =>
    intro p hp
    rcases List.mem_append.mp hp with h | h
    · exact hI.arr_rq p h
    · exact hadm p h
  case arr_jq =>
    intro p hp
    exact hI.arr_jq p (hBrq p hp)
  case curr_nn => exact hI.curr_nn

lemma rrStep_caseA_admit {q cap : Int} {u : RRState} (hrq : u.rq ≠ []) {a : Int}
    {rest : List Int} (hjqc : u.jq = a :: rest)
    (hta : (getP u.processes a).arrival_time = u.curr_time) :
    rrStep false q cap u = admitP [a] rest u := by
  rw [rrStep_b3_eq false q cap u hrq
      (by rw [hjqc]; exact List.cons_ne_nil _ _),
    block3_caseA_eq false q cap u
      (by rw [hjqc]; exact hta)]
  apply rrState_ext
  · rfl
  · show u.rq ++ [u.jq.headD 0] = u.rq ++ [a]
    rw [hjqc]
    rfl
  · show u.jq.tail = rest
    rw [hjqc]
    rfl
  · rfl
  · rfl
  · rfl
  · rfl

lemma adm {q cap : Int} :
    ∀ (M : Nat) (u : RRState) (A B : List Int), measureN u + B.length ≤ M →
      LoopInv q u → u.rq ≠ [] → u.jq = A ++ B →
      (∀ a ∈ A, (getP u.processes a).arrival_time ≤ u.curr_time) →
      NFinal q cap (admitP A B u) = NFinal q cap u := by
  intro M
  induction M with
  | zero =>
    intro u A B hM hI hrq hjq hadm
    have h2 : remSum u.remaining_bursts + u.jq.length + B.length ≤ 0 := hM
    have h3 : u.jq.length = A.length + B.length := by rw [hjq, List.length_append]
    have hA : A = [] := List.length_eq_zero.mp (by omega)
    subst hA
    rw [admitP_nil u (by rw [hjq]; rfl)]
  | succ M IH =>
    intro u A B hM hI hrq hjq hadm
    have hq := hI.hq
    rcases A with _ | ⟨a, A'⟩
    · rw [admitP_nil u (by rw [hjq]; rfl)]
    have hjqc : u.jq = a :: (A' ++ B) := by rw [hjq]; rfl
    have ha : (getP u.processes a).arrival_time ≤ u.curr_time :=
      hadm a (List.mem_cons_self a A')
    by_cases hta : (getP u.processes a).arrival_time = u.curr_time
    · -- the head of the admissible prefix arrives exactly now: one case-a step
      have hstep : rrStep false q cap u = admitP [a] (A' ++ B) u :=
        rrStep_caseA_admit hrq hjqc hta
      have hI₁ : LoopInv q (admitP [a] (A' ++ B) u) := by
        rw [← hstep]
        exact loopInv_rrStep_any hI
      have hM₁ : measureN (admitP [a] (A' ++ B) u) + B.length ≤ M := by
        have h1 : measureN (admitP [a] (A' ++ B) u) + 1 = measureN u := by
          show remSum u.remaining_bursts + (A' ++ B).length + 1
            = remSum u.remaining_bursts + u.jq.length
          rw [hjqc, List.length_cons]
          omega
        omega
      have hrec := IH (admitP [a] (A' ++ B) u) A' B hM₁ hI₁ (admitP_rq_ne hrq) rfl
        (fun x hx => hadm x (List.mem_cons_of_mem a hx))
      calc NFinal q cap (admitP (a :: A') B u)
          = NFinal q cap (admitP A' B (admitP [a] (A' ++ B) u)) := by
            exact congrArg (NFinal q cap) (admitP_comp [a] (A' ++ B) A' B u).symm
        _ = NFinal q cap (admitP [a] (A' ++ B) u) := hrec
        _ = NFinal q cap u := by rw [← hstep, nfinal_step hI]
    · have hta' : (getP u.processes a).arrival_time < u.curr_time := lt_of_le_of_ne ha hta
      by_cases hbt : ∃ b B', B = b :: B'
          ∧ (getP u.processes b).arrival_time = u.curr_time
      · -- the pending head also arrives exactly now: case-a step on the admitted side
        obtain ⟨b, B', rfl, htb⟩ := hbt
        have hIG : LoopInv q (admitP (a :: A') (b :: B') u) :=
          loopInv_admit hI (a :: A') (b :: B') hjq hadm
        have hstepG : rrStep false q cap (admitP (a :: A') (b :: B') u)
            = admitP ((a :: A') ++ [b]) B' u := by
          have h1 : rrStep false q cap (admitP (a :: A') (b :: B') u)
              = admitP [b] B' (admitP (a :: A') (b :: B') u) :=
            rrStep_caseA_admit (admitP_rq_ne hrq) rfl htb
          rw [h1, admitP_comp]
        have hjq' : u.jq = ((a :: A') ++ [b]) ++ B' := by
          rw [hjq, List.append_assoc]
          rfl
        have hadm' : ∀ x ∈ (a :: A') ++ [b],
            (getP u.processes x).arrival_time ≤ u.curr_time := by
          intro x hx
          rcases List.mem_append.mp hx with h | h
          · exact hadm x h
          · rw [List.mem_singleton.mp h]
            exact le_of_eq htb
        have hM' : measureN u + B'.length ≤ M := by
          have h1 : measureN u + (b :: B').length ≤ M + 1 := hM
          rw [List.length_cons] at h1
          omega
        have hrec := IH u ((a :: A') ++ [b]) B' hM' hI hrq hjq' hadm'
        calc NFinal q cap (admitP (a :: A') (b :: B') u)
            = NFinal q cap (rrStep false q cap (admitP (a :: A') (b :: B') u)) :=
              (nfinal_step hIG).symm
          _ = NFinal q cap (admitP ((a :: A') ++ [b]) B' u) := by rw [hstepG]
          _ = NFinal q cap u := hrec
      · -- no same-instant arrival on either side: both take the same step
        obtain ⟨h, t, hR⟩ : ∃ h t, u.rq = h :: t := by
          cases hC : u.rq with
          | nil => exact absurd hC hrq
          | cons x xs => exact ⟨x, xs, rfl⟩
        have hmemh : h ∈ u.rq := by
          rw [hR]
          exact List.mem_cons_self h t
        have hbh : 1 ≤ getB u.remaining_bursts h := hI.pos_rq h hmemh
        have hIG : LoopInv q (admitP (a :: A') B u) := loopInv_admit hI (a :: A') B hjq hadm
        have hGrq : (admitP (a :: A') B u).rq ≠ [] := admitP_rq_ne hrq
        have hRG : (admitP (a :: A') B u).rq = h :: (t ++ (a :: A')) := by
          show u.rq ++ (a :: A') = h :: (t ++ (a :: A'))
          rw [hR]
          rfl
        have hstepu : rrStep false q cap u = singleStep3 q cap u := by
          rw [rrStep_b3_eq false q cap u hrq (by rw [hjqc]; exact List.cons_ne_nil _ _),
            block3_go_eq false q cap u (by rw [hjqc]; exact ne_of_lt hta')]
          rfl
        have hmeas := (@inv_singleStep3 q cap u hI hrq).2
        have hI₁ : LoopInv q (singleStep3 q cap u) := (@inv_singleStep3 q cap u hI hrq).1
        have hPA : ∀ x ∈ a :: A',
            (fun p => decide ((getP u.processes p).arrival_time < u.curr_time + q)) x
              = true := by
          intro x hx
          exact decide_eq_true (lt_of_le_of_lt (hadm x hx) (by omega))
        rcases B with _ | ⟨b, B'⟩
        · -- nothing left pending on the admitted side
          have hlenG : (admitP (a :: A') [] u).rq.length ≠ 1 := by
            rw [hRG, List.length_cons, List.length_append, List.length_cons]
            omega
          have hstepG : rrStep false q cap (admitP (a :: A') [] u)
              = singleStep5 q cap (admitP (a :: A') [] u) := by
            rw [rrStep_b5_eq false q cap _ hGrq rfl, block5_go_eq false q cap _ hlenG]
            rfl
          by_cases hpre : q < getB u.remaining_bursts h
          · have hTW : u.jq.takeWhile
                (fun p => decide ((getP u.processes p).arrival_time < u.curr_time + q))
                = a :: A' := by
              rw [hjq, takeWhile_append_all _ (a :: A') [] hPA, List.takeWhile_nil,
                List.append_nil]
            have hdu : u.jq.dropWhile
                (fun p => decide ((getP u.processes p).arrival_time < u.curr_time + q))
                = [] := by
              rw [hjq, dropWhile_append_all _ (a :: A') [] hPA]
              rfl
            have hSu := singleStep3_preempt_empty_eq q cap u h t hR hpre hdu
            have hSG := singleStep5_preempt_eq q cap (admitP (a :: A') [] u) h
              (t ++ (a :: A')) hRG
              (show q < getB (admitP (a :: A') [] u).remaining_bursts h from hpre)
            have hsame : singleStep3 q cap u
                = singleStep5 q cap (admitP (a :: A') [] u) := by
              rw [hSu, hSG]
              apply rrState_ext
              · rfl
              · show t ++ u.jq.takeWhile
                    (fun p => decide ((getP u.processes p).arrival_time < u.curr_time + q))
                    ++ [h] = (t ++ (a :: A')) ++ [h]
                rw [hTW]
              · rfl
              · rfl
              · rfl
              · rfl
              · rfl
            calc NFinal q cap (admitP (a :: A') [] u)
                = NFinal q cap (rrStep false q cap (admitP (a :: A') [] u)) :=
                  (nfinal_step hIG).symm
              _ = NFinal q cap (singleStep3 q cap u) := by rw [hstepG, ← hsame]
              _ = NFinal q cap (rrStep false q cap u) := by rw [hstepu]
              _ = NFinal q cap u := nfinal_step hI
          · have hcmp : (getP u.processes a).arrival_time
                ≤ u.curr_time + getB u.remaining_bursts h := by omega
            have hSu := singleStep3_complete_admit_eq q cap u h t hR hpre a (A' ++ [])
              hjqc hcmp
            have hSG := singleStep5_complete_eq q cap (admitP (a :: A') [] u) h
              (t ++ (a :: A')) hRG
              (show ¬ q < getB (admitP (a :: A') [] u).remaining_bursts h from hpre)
            have hM₁ : measureN (singleStep3 q cap u) + ([] : List Int).length ≤ M := by
              have h1 : measureN u + ([] : List Int).length ≤ M + 1 := hM
              rw [List.length_nil] at h1 ⊢
              omega
            have hrq₁ : (singleStep3 q cap u).rq ≠ [] := by
              rw [hSu]
              show t ++ [a] ≠ []
              intro hc
              exact List.cons_ne_nil a [] (List.append_eq_nil.mp hc).2
            have hjq₁ : (singleStep3 q cap u).jq = A' ++ [] := by
              rw [hSu]
            have hadm₁ : ∀ x ∈ A', (getP (singleStep3 q cap u).processes x).arrival_time
                ≤ (singleStep3 q cap u).curr_time := by
              intro x hx
              rw [hSu]
              show (getP (setFinish (setStartIfUnset u.processes h u.curr_time) h
                  (u.curr_time + getB u.remaining_bursts h)) x).arrival_time
                ≤ u.curr_time + getB u.remaining_bursts h
              rw [arrival_setFinish, arrival_setStartIfUnset]
              have := hadm x (List.mem_cons_of_mem a hx)
              omega
            have hrec := IH (singleStep3 q cap u) A' [] hM₁ hI₁ hrq₁ hjq₁ hadm₁
            have heq : admitP A' [] (singleStep3 q cap u)
                = singleStep5 q cap (admitP (a :: A') [] u) := by
              rw [hSu, hSG]
              apply rrState_ext
              · rfl
              · show (t ++ [a]) ++ A' = t ++ (a :: A')
                simp only [List.append_assoc, List.cons_append, List.nil_append]
              · rfl
              · rfl
              · rfl
              · rfl
              · rfl
            calc NFinal q cap (admitP (a :: A') [] u)
                = NFinal q cap (rrStep false q cap (admitP (a :: A') [] u)) :=
                  (nfinal_step hIG).symm
              _ = NFinal q cap (admitP A' [] (singleStep3 q cap u)) := by
                  rw [hstepG, ← heq]
              _ = NFinal q cap (singleStep3 q cap u) := hrec
              _ = NFinal q cap (rrStep false q cap u) := by rw [hstepu]
              _ = NFinal q cap u := nfinal_step hI
        · -- still something pending on the admitted side, not arriving now
          have htbne : (getP u.processes b).arrival_time ≠ u.curr_time :=
            fun hc => hbt ⟨b, B', rfl, hc⟩
          have hstepG : rrStep false q cap (admitP (a :: A') (b :: B') u)
              = singleStep3 q cap (admitP (a :: A') (b :: B') u) := by
            rw [rrStep_b3_eq false q cap _ hGrq
                (show (admitP (a :: A') (b :: B') u).jq ≠ []
                  from List.cons_ne_nil b B'),
              block3_go_eq false q cap _
                (show (getP (admitP (a :: A') (b :: B') u).processes
                    ((admitP (a :: A') (b :: B') u).jq.headD 0)).arrival_time
                  ≠ (admitP (a :: A') (b :: B') u).curr_time from htbne)]
            rfl
          by_cases hpre : q < getB u.remaining_bursts h
          · have hTW : u.jq.takeWhile
                (fun p => decide ((getP u.processes p).arrival_time < u.curr_time + q))
                = (a :: A') ++ (b :: B').takeWhile
                  (fun p => decide ((getP u.processes p).arrival_time < u.curr_time + q)) := by
              rw [hjq]
              exact takeWhile_append_all _ (a :: A') (b :: B') hPA
            have hDW : u.jq.dropWhile
                (fun p => decide ((getP u.processes p).arrival_time < u.curr_time + q))
                = (b :: B').dropWhile
                  (fun p => decide ((getP u.processes p).arrival_time < u.curr_time + q)) := by
              rw [hjq]
              exact dropWhile_append_all _ (a :: A') (b :: B') hPA
            have hsame : singleStep3 q cap u
                = singleStep3 q cap (admitP (a :: A') (b :: B') u) := by
              cases hd2 : (b :: B').dropWhile
                  (fun p => decide ((getP u.processes p).arrival_time < u.curr_time + q)) with
              | nil =>
                have hSu := singleStep3_preempt_empty_eq q cap u h t hR hpre
                  (hDW.trans hd2)
                have hSG := singleStep3_preempt_empty_eq q cap
                  (admitP (a :: A') (b :: B') u) h (t ++ (a :: A')) hRG
                  (show q < getB (admitP (a :: A') (b :: B') u).remaining_bursts h
                    from hpre)
                  hd2
                rw [hSu, hSG]
                apply rrState_ext
                · rfl
                · show t ++ u.jq.takeWhile
                      (fun p => decide ((getP u.processes p).arrival_time < u.curr_time + q))
                      ++ [h]
                    = (t ++ (a :: A')) ++ (b :: B').takeWhile
                      (fun p => decide ((getP u.processes p).arrival_time < u.curr_time + q))
                      ++ [h]
                  rw [hTW]
                  simp only [List.append_assoc]
                · rfl
                · rfl
                · rfl
                · rfl
                · rfl
              | cons j₂ js₂ =>
                by_cases htie2 : (getP u.processes j₂).arrival_time = u.curr_time + q
                · have hSu := singleStep3_preempt_tie_eq q cap u h t hR hpre j₂ js₂
                    (hDW.trans hd2) htie2
                  have hSG := singleStep3_preempt_tie_eq q cap
                    (admitP (a :: A') (b :: B') u) h (t ++ (a :: A')) hRG
                    (show q < getB (admitP (a :: A') (b :: B') u).remaining_bursts h
                      from hpre)
                    j₂ js₂ hd2 htie2
                  rw [hSu, hSG]
                  apply rrState_ext
                  · rfl
                  · show t ++ u.jq.takeWhile
                        (fun p => decide ((getP u.processes p).arrival_time < u.curr_time + q))
                        ++ [h, j₂]
                      = (t ++ (a :: A')) ++ (b :: B').takeWhile
                        (fun p => decide ((getP u.processes p).arrival_time < u.curr_time + q))
                        ++ [h, j₂]
                    rw [hTW]
                    simp only [List.append_assoc]
                  · rfl
                  · rfl
                  · rfl
                  · rfl
                  · rfl
                · have hSu := singleStep3_preempt_notie_eq q cap u h t hR hpre j₂ js₂
                    (hDW.trans hd2) htie2
                  have hSG := singleStep3_preempt_notie_eq q cap
                    (admitP (a :: A') (b :: B') u) h (t ++ (a :: A')) hRG
                    (show q < getB (admitP (a :: A') (b :: B') u).remaining_bursts h
                      from hpre)
                    j₂ js₂ hd2 htie2
                  rw [hSu, hSG]
                  apply rrState_ext
                  · rfl
                  · show t ++ u.jq.takeWhile
                        (fun p => decide ((getP u.processes p).arrival_time < u.curr_time + q))
                        ++ [h]
                      = (t ++ (a :: A')) ++ (b :: B').takeWhile
                        (fun p => decide ((getP u.processes p).arrival_time < u.curr_time + q))
                        ++ [h]
                    rw [hTW]
                    simp only [List.append_assoc]
                  · rfl
                  · rfl
                  · rfl
                  · rfl
                  · rfl
            calc NFinal q cap (admitP (a :: A') (b :: B') u)
                = NFinal q cap (rrStep false q cap (admitP (a :: A') (b :: B') u)) :=
                  (nfinal_step hIG).symm
              _ = NFinal q cap (singleStep3 q cap u) := by rw [hstepG, ← hsame]
              _ = NFinal q cap (rrStep false q cap u) := by rw [hstepu]
              _ = NFinal q cap u := nfinal_step hI
          · have hcmp : (getP u.processes a).arrival_time
                ≤ u.curr_time + getB u.remaining_bursts h := by omega
            have hSu := singleStep3_complete_admit_eq q cap u h t hR hpre a
              (A' ++ (b :: B')) hjqc hcmp
            have hrq₁ : (singleStep3 q cap u).rq ≠ [] := by
              rw [hSu]
              show t ++ [a] ≠ []
              intro hc
              exact List.cons_ne_nil a [] (List.append_eq_nil.mp hc).2
            have hadmA' : ∀ x ∈ A', (getP (singleStep3 q cap u).processes x).arrival_time
                ≤ (singleStep3 q cap u).curr_time := by
              intro x hx
              rw [hSu]
              show (getP (setFinish (setStartIfUnset u.processes h u.curr_time) h
                  (u.curr_time + getB u.remaining_bursts h)) x).arrival_time
                ≤ u.curr_time + getB u.remaining_bursts h
              rw [arrival_setFinish, arrival_setStartIfUnset]
              have := hadm x (List.mem_cons_of_mem a hx)
              omega
            by_cases hadm2 : (getP u.processes b).arrival_time
                ≤ u.curr_time + getB u.remaining_bursts h
            · have hSG := singleStep3_complete_admit_eq q cap
                (admitP (a :: A') (b :: B') u) h (t ++ (a :: A')) hRG
                (show ¬ q < getB (admitP (a :: A') (b :: B') u).remaining_bursts h
                  from hpre)
                b B' rfl
                (show (getP (admitP (a :: A') (b :: B') u).processes b).arrival_time
                  ≤ (admitP (a :: A') (b :: B') u).curr_time
                    + getB (admitP (a :: A') (b :: B') u).remaining_bursts h from hadm2)
              have hM₁ : measureN (singleStep3 q cap u) + B'.length ≤ M := by
                have h1 : measureN u + (b :: B').length ≤ M + 1 := hM
                rw [List.length_cons] at h1
                omega
              have hjq₁ : (singleStep3 q cap u).jq = (A' ++ [b]) ++ B' := by
                rw [hSu]
                show A' ++ (b :: B') = (A' ++ [b]) ++ B'
                rw [List.append_assoc]
                rfl
              have hadm₁ : ∀ x ∈ A' ++ [b],
                  (getP (singleStep3 q cap u).processes x).arrival_time
                    ≤ (singleStep3 q cap u).curr_time := by
                intro x hx
                rcases List.mem_append.mp hx with hx1 | hx1
                · exact hadmA' x hx1
                · rw [List.mem_singleton.mp hx1]
                  rw [hSu]
                  show (getP (setFinish (setStartIfUnset u.processes h u.curr_time) h
                      (u.curr_time + getB u.remaining_bursts h)) b).arrival_time
                    ≤ u.curr_time + getB u.remaining_bursts h
                  rw [arrival_setFinish, arrival_setStartIfUnset]
                  exact hadm2
              have hrec := IH (singleStep3 q cap u) (A' ++ [b]) B' hM₁ hI₁ hrq₁ hjq₁ hadm₁
              have heq : admitP (A' ++ [b]) B' (singleStep3 q cap u)
                  = singleStep3 q cap (admitP (a :: A') (b :: B') u) := by
                rw [hSu, hSG]
                apply rrState_ext
                · rfl
                · show (t ++ [a]) ++ (A' ++ [b]) = (t ++ (a :: A')) ++ [b]
                  simp only [List.append_assoc, List.cons_append, List.nil_append]
                · rfl
                · rfl
                · rfl
                · rfl
                · rfl
              calc NFinal q cap (admitP (a :: A') (b :: B') u)
                  = NFinal q cap (rrStep false q cap (admitP (a :: A') (b :: B') u)) :=
                    (nfinal_step hIG).symm
                _ = NFinal q cap (admitP (A' ++ [b]) B' (singleStep3 q cap u)) := by
                    rw [hstepG, ← heq]
                _ = NFinal q cap (singleStep3 q cap u) := hrec
                _ = NFinal q cap (rrStep false q cap u) := by rw [hstepu]
                _ = NFinal q cap u := nfinal_step hI
            · have hSG := singleStep3_complete_noadmit_eq q cap
                (admitP (a :: A') (b :: B') u) h (t ++ (a :: A')) hRG
                (show ¬ q < getB (admitP (a :: A') (b :: B') u).remaining_bursts h
                  from hpre)
                b B' rfl
                (show ¬ (getP (admitP (a :: A') (b :: B') u).processes b).arrival_time
                  ≤ (admitP (a :: A') (b :: B') u).curr_time
                    + getB (admitP (a :: A') (b :: B') u).remaining_bursts h from hadm2)
              have hM₁ : measureN (singleStep3 q cap u) + (b :: B').length ≤ M := by
                have h1 : measureN u + (b :: B').length ≤ M + 1 := hM
                omega
              have hjq₁ : (singleStep3 q cap u).jq = A' ++ (b :: B') := by
                rw [hSu]
              have hrec := IH (singleStep3 q cap u) A' (b :: B') hM₁ hI₁ hrq₁ hjq₁ hadmA'
              have heq : admitP A' (b :: B') (singleStep3 q cap u)
                  = singleStep3 q cap (admitP (a :: A') (b :: B') u) := by
                rw [hSu, hSG]
                apply rrState_ext
                · rfl
                · show (t ++ [a]) ++ A' = t ++ (a :: A')
                  simp only [List.append_assoc, List.cons_append, List.nil_append]
                · rfl
                · rfl
                · rfl
                · rfl
                · rfl
              calc NFinal q cap (admitP (a :: A') (b :: B') u)
                  = NFinal q cap (rrStep false q cap (admitP (a :: A') (b :: B') u)) :=
                    (nfinal_step hIG).symm
                _ = NFinal q cap (admitP A' (b :: B') (singleStep3 q cap u)) := by
                    rw [hstepG, ← heq]
                _ = NFinal q cap (singleStep3 q cap u) := hrec
                _ = NFinal q cap (rrStep false q cap u) := by rw [hstepu]
                _ = NFinal q cap u := nfinal_step hI

lemma tie_nfinal {q cap : Int} {v : RRState} (hI : LoopInv q v) (hrq : v.rq ≠ [])
    {j : Int} {js : List Int} (hjq : v.jq = j :: js)
    (htie : (getP v.processes j).arrival_time = v.curr_time) :
    NFinal q cap (singleStep3 q cap v) = NFinal q cap v := by
  have hq := hI.hq
  obtain ⟨h, t, hR⟩ : ∃ h t, v.rq = h :: t := by
    cases hC : v.rq with
    | nil => exact absurd hC hrq
    | cons x xs => exact ⟨x, xs, rfl⟩
  have hmemh : h ∈ v.rq := by
    rw [hR]
    exact List.mem_cons_self h t
  have hbh : 1 ≤ getB v.remaining_bursts h := hI.pos_rq h hmemh
  obtain ⟨J, B, hsplit, hadmJ, hJcons, hBgt⟩ : ∃ J B, v.jq = J ++ B
      ∧ (∀ x ∈ J, (getP v.processes x).arrival_time ≤ v.curr_time)
      ∧ J = j :: js.takeWhile
          (fun p => decide ((getP v.processes p).arrival_time ≤ v.curr_time))
      ∧ (∀ b bs, B = b :: bs → v.curr_time < (getP v.processes b).arrival_time) := by
    refine ⟨v.jq.takeWhile
        (fun p => decide ((getP v.processes p).arrival_time ≤ v.curr_time)),
      v.jq.dropWhile
        (fun p => decide ((getP v.processes p).arrival_time ≤ v.curr_time)),
      (List.takeWhile_append_dropWhile _ _).symm, ?_, ?_, ?_⟩
    · intro x hx
      have hx2 := List.mem_takeWhile_imp hx
      exact of_decide_eq_true hx2
    · rw [hjq, List.takeWhile_cons, if_pos (decide_eq_true (le_of_eq htie))]
    · intro b bs hBc
      have hf := dropWhile_head_false _ v.jq hBc
      have hnb : ¬ (getP v.processes b).arrival_time ≤ v.curr_time :=
        of_decide_eq_false hf
      omega
  have hJlen : J.length = (js.takeWhile
      (fun p => decide ((getP v.processes p).arrival_time ≤ v.curr_time))).length + 1 := by
    rw [hJcons]
    rfl
  have hADM : NFinal q cap (admitP J B v) = NFinal q cap v :=
    @adm q cap (measureN v + B.length) v J B le_rfl hI hrq hsplit hadmJ
  have hIW : LoopInv q (admitP J B v) := loopInv_admit hI J B hsplit hadmJ
  have hWrqne : (admitP J B v).rq ≠ [] := admitP_rq_ne hrq
  have hRW : (admitP J B v).rq = h :: (t ++ J) := by
    show v.rq ++ J = h :: (t ++ J)
    rw [hR]
    rfl
  by_cases hpre : q < getB v.remaining_bursts h
  · -- preemption: one step on each side gives literally the same state
    have hPJ : ∀ x ∈ J,
        (fun p => decide ((getP v.processes p).arrival_time < v.curr_time + q)) x
          = true := by
      intro x hx
      exact decide_eq_true (lt_of_le_of_lt (hadmJ x hx) (by omega))
    have hTW : v.jq.takeWhile
        (fun p => decide ((getP v.processes p).arrival_time < v.curr_time + q))
        = J ++ B.takeWhile
          (fun p => decide ((getP v.processes p).arrival_time < v.curr_time + q)) := by
      rw [hsplit]
      exact takeWhile_append_all _ J B hPJ
    have hDW : v.jq.dropWhile
        (fun p => decide ((getP v.processes p).arrival_time < v.curr_time + q))
        = B.dropWhile
          (fun p => decide ((getP v.processes p).arrival_time < v.curr_time + q)) := by
      rw [hsplit]
      exact dropWhile_append_all _ J B hPJ
    rcases B with _ | ⟨b, B₂⟩
    · have hlenW : (admitP J [] v).rq.length ≠ 1 := by
        rw [hRW, List.length_cons, List.length_append]
        omega
      have hstepW : rrStep false q cap (admitP J [] v)
          = singleStep5 q cap (admitP J [] v) := by
        rw [rrStep_b5_eq false q cap _ hWrqne rfl, block5_go_eq false q cap _ hlenW]
        rfl
      have hdu : v.jq.dropWhile
          (fun p => decide ((getP v.processes p).arrival_time < v.curr_time + q))
          = [] := by
        rw [hDW]
        rfl
      have hSu := singleStep3_preempt_empty_eq q cap v h t hR hpre hdu
      have hSW := singleStep5_preempt_eq q cap (admitP J [] v) h (t ++ J) hRW
        (show q < getB (admitP J [] v).remaining_bursts h from hpre)
      have hsame : singleStep3 q cap v = singleStep5 q cap (admitP J [] v) := by
        rw [hSu, hSW]
        apply rrState_ext
        · rfl
        · show t ++ v.jq.takeWhile
              (fun p => decide ((getP v.processes p).arrival_time < v.curr_time + q))
              ++ [h] = (t ++ J) ++ [h]
          rw [hTW, List.takeWhile_nil, List.append_nil]
        · rfl
        · rfl
        · rfl
        · rfl
        · rfl
      calc NFinal q cap (singleStep3 q cap v)
          = NFinal q cap (rrStep false q cap (admitP J [] v)) := by rw [hsame, hstepW]
        _ = NFinal q cap (admitP J [] v) := nfinal_step hIW
        _ = NFinal q cap v := hADM
    · have htb2 : v.curr_time < (getP v.processes b).arrival_time := hBgt b B₂ rfl
      have hstepW : rrStep false q cap (admitP J (b :: B₂) v)
          = singleStep3 q cap (admitP J (b :: B₂) v) := by
        rw [rrStep_b3_eq false q cap _ hWrqne
            (show (admitP J (b :: B₂) v).jq ≠ [] from List.cons_ne_nil b B₂),
          block3_go_eq false q cap _
            (show (getP (admitP J (b :: B₂) v).processes
                ((admitP J (b :: B₂) v).jq.headD 0)).arrival_time
              ≠ (admitP J (b :: B₂) v).curr_time from ne_of_gt htb2)]
        rfl
      have hsame : singleStep3 q cap v = singleStep3 q cap (admitP J (b :: B₂) v) := by
        cases hd2 : (b :: B₂).dropWhile
            (fun p => decide ((getP v.processes p).arrival_time < v.curr_time + q)) with
        | nil =>
          have hSu := singleStep3_preempt_empty_eq q cap v h t hR hpre (hDW.trans hd2)
          have hSW := singleStep3_preempt_empty_eq q cap (admitP J (b :: B₂) v) h
            (t ++ J) hRW
            (show q < getB (admitP J (b :: B₂) v).remaining_bursts h from hpre) hd2
          rw [hSu, hSW]
          apply rrState_ext
          · rfl
          · show t ++ v.jq.takeWhile
                (fun p => decide ((getP v.processes p).arrival_time < v.curr_time + q))
                ++ [h]
              = (t ++ J) ++ (b :: B₂).takeWhile
                (fun p => decide ((getP v.processes p).arrival_time < v.curr_time + q))
                ++ [h]
            rw [hTW]
            simp only [List.append_assoc]
          · rfl
          · rfl
          · rfl
          · rfl
          · rfl
        | cons j₂ js₂ =>
          by_cases htie2 : (getP v.processes j₂).arrival_time = v.curr_time + q
          · have hSu := singleStep3_preempt_tie_eq q cap v h t hR hpre j₂ js₂
              (hDW.trans hd2) htie2
            have hSW := singleStep3_preempt_tie_eq q cap (admitP J (b :: B₂) v) h
              (t ++ J) hRW
              (show q < getB (admitP J (b :: B₂) v).remaining_bursts h from hpre)
              j₂ js₂ hd2 htie2
            rw [hSu, hSW]
            apply rrState_ext
            · rfl
            · show t ++ v.jq.takeWhile
                  (fun p => decide ((getP v.processes p).arrival_time < v.curr_time + q))
                  ++ [h, j₂]
                = (t ++ J) ++ (b :: B₂).takeWhile
                  (fun p => decide ((getP v.processes p).arrival_time < v.curr_time + q))
                  ++ [h, j₂]
              rw [hTW]
              simp only [List.append_assoc]
            · rfl
            · rfl
            · rfl
            · rfl
            · rfl
          · have hSu := singleStep3_preempt_notie_eq q cap v h t hR hpre j₂ js₂
              (hDW.trans hd2) htie2
            have hSW := singleStep3_preempt_notie_eq q cap (admitP J (b :: B₂) v) h
              (t ++ J) hRW
              (show q < getB (admitP J (b :: B₂) v).remaining_bursts h from hpre)
              j₂ js₂ hd2 htie2
            rw [hSu, hSW]
            apply rrState_ext
            · rfl
            · show t ++ v.jq.takeWhile
                  (fun p => decide ((getP v.processes p).arrival_time < v.curr_time + q))
                  ++ [h]
                = (t ++ J) ++ (b :: B₂).takeWhile
                  (fun p => decide ((getP v.processes p).arrival_time < v.curr_time + q))
                  ++ [h]
              rw [hTW]
              simp only [List.append_assoc]
            · rfl
            · rfl
            · rfl
            · rfl
            · rfl
      calc NFinal q cap (singleStep3 q cap v)
          = NFinal q cap (rrStep false q cap (admitP J (b :: B₂) v)) := by
            rw [hsame, hstepW]
        _ = NFinal q cap (admitP J (b :: B₂) v) := nfinal_step hIW
        _ = NFinal q cap v := hADM
  · -- completion: the head finishes; the two sides differ by an admissible prefix
    have hSu := singleStep3_complete_admit_eq q cap v h t hR hpre j js hjq (by omega)
    have hjs : js = js.takeWhile
        (fun p => decide ((getP v.processes p).arrival_time ≤ v.curr_time)) ++ B := by
      rw [hjq, hJcons, List.cons_append] at hsplit
      injection hsplit
    have hrq₁ : (singleStep3 q cap v).rq ≠ [] := by
      rw [hSu]
      show t ++ [j] ≠ []
      intro hc
      exact List.cons_ne_nil j [] (List.append_eq_nil.mp hc).2
    have hI₁ : LoopInv q (singleStep3 q cap v) := (@inv_singleStep3 q cap v hI hrq).1
    have hadmtw : ∀ x ∈ js.takeWhile
        (fun p => decide ((getP v.processes p).arrival_time ≤ v.curr_time)),
        (getP (singleStep3 q cap v).processes x).arrival_time
          ≤ (singleStep3 q cap v).curr_time := by
      intro x hx
      rw [hSu]
      show (getP (setFinish (setStartIfUnset v.processes h v.curr_time) h
          (v.curr_time + getB v.remaining_bursts h)) x).arrival_time
        ≤ v.curr_time + getB v.remaining_bursts h
      rw [arrival_setFinish, arrival_setStartIfUnset]
      have := hadmJ x (by rw [hJcons]; exact List.mem_cons_of_mem j hx)
      omega
    rcases B with _ | ⟨b, B₂⟩
    · have hlenW : (admitP J [] v).rq.length ≠ 1 := by
        rw [hRW, List.length_cons, List.length_append]
        omega
      have hstepW : rrStep false q cap (admitP J [] v)
          = singleStep5 q cap (admitP J [] v) := by
        rw [rrStep_b5_eq false q cap _ hWrqne rfl, block5_go_eq false q cap _ hlenW]
        rfl
      have hSW := singleStep5_complete_eq q cap (admitP J [] v) h (t ++ J) hRW
        (show ¬ q < getB (admitP J [] v).remaining_bursts h from hpre)
      have hjq₁ : (singleStep3 q cap v).jq = js.takeWhile
          (fun p => decide ((getP v.processes p).arrival_time ≤ v.curr_time)) ++ [] := by
        rw [hSu]
        show js = _
        rw [List.append_nil] at hjs ⊢
        exact hjs
      have hADM₁ := @adm q cap (measureN (singleStep3 q cap v)) (singleStep3 q cap v)
        (js.takeWhile
          (fun p => decide ((getP v.processes p).arrival_time ≤ v.curr_time))) []
        le_rfl hI₁ hrq₁ hjq₁ hadmtw
      have heq : admitP (js.takeWhile
          (fun p => decide ((getP v.processes p).arrival_time ≤ v.curr_time))) []
          (singleStep3 q cap v) = singleStep5 q cap (admitP J [] v) := by
        rw [hSu, hSW]
        apply rrState_ext
        · rfl
        · show (t ++ [j]) ++ js.takeWhile
              (fun p => decide ((getP v.processes p).arrival_time ≤ v.curr_time))
            = t ++ J
          rw [hJcons]
          simp only [List.append_assoc, List.cons_append, List.nil_append]
        · rfl
        · rfl
        · rfl
        · rfl
        · rfl
      calc NFinal q cap (singleStep3 q cap v)
          = NFinal q cap (admitP (js.takeWhile
              (fun p => decide ((getP v.processes p).arrival_time ≤ v.curr_time))) []
              (singleStep3 q cap v)) := hADM₁.symm
        _ = NFinal q cap (rrStep false q cap (admitP J [] v)) := by rw [heq, hstepW]
        _ = NFinal q cap (admitP J [] v) := nfinal_step hIW
        _ = NFinal q cap v := hADM
    · have htb2 : v.curr_time < (getP v.processes b).arrival_time := hBgt b B₂ rfl
      have hstepW : rrStep false q cap (admitP J (b :: B₂) v)
          = singleStep3 q cap (admitP J (b :: B₂) v) := by
        rw [rrStep_b3_eq false q cap _ hWrqne
            (show (admitP J (b :: B₂) v).jq ≠ [] from List.cons_ne_nil b B₂),
          block3_go_eq false q cap _
            (show (getP (admitP J (b :: B₂) v).processes
                ((admitP J (b :: B₂) v).jq.headD 0)).arrival_time
              ≠ (admitP J (b :: B₂) v).curr_time from ne_of_gt htb2)]
        rfl
      by_cases hadm2 : (getP v.processes b).arrival_time
          ≤ v.curr_time + getB v.remaining_bursts h
      · have hSW := singleStep3_complete_admit_eq q cap (admitP J (b :: B₂) v) h
          (t ++ J) hRW
          (show ¬ q < getB (admitP J (b :: B₂) v).remaining_bursts h from hpre)
          b B₂ rfl
          (show (getP (admitP J (b :: B₂) v).processes b).arrival_time
            ≤ (admitP J (b :: B₂) v).curr_time
              + getB (admitP J (b :: B₂) v).remaining_bursts h from hadm2)
        have hjq₁ : (singleStep3 q cap v).jq = (js.takeWhile
            (fun p => decide ((getP v.processes p).arrival_time ≤ v.curr_time))
            ++ [b]) ++ B₂ := by
          rw [hSu]
          show js = _
          conv_lhs => rw [hjs]
          rw [List.append_assoc]
          rfl
        have hadm₁ : ∀ x ∈ js.takeWhile
            (fun p => decide ((getP v.processes p).arrival_time ≤ v.curr_time)) ++ [b],
            (getP (singleStep3 q cap v).processes x).arrival_time
              ≤ (singleStep3 q cap v).curr_time := by
          intro x hx
          rcases List.mem_append.mp hx with hx1 | hx1
          · exact hadmtw x hx1
          · rw [List.mem_singleton.mp hx1, hSu]
            show (getP (setFinish (setStartIfUnset v.processes h v.curr_time) h
                (v.curr_time + getB v.remaining_bursts h)) b).arrival_time
              ≤ v.curr_time + getB v.remaining_bursts h
            rw [arrival_setFinish, arrival_setStartIfUnset]
            exact hadm2
        have hADM₁ := @adm q cap (measureN (singleStep3 q cap v) + B₂.length)
          (singleStep3 q cap v)
          (js.takeWhile
            (fun p => decide ((getP v.processes p).arrival_time ≤ v.curr_time)) ++ [b])
          B₂ le_rfl hI₁ hrq₁ hjq₁ hadm₁
        have heq : admitP (js.takeWhile
            (fun p => decide ((getP v.processes p).arrival_time ≤ v.curr_time)) ++ [b])
            B₂ (singleStep3 q cap v)
            = singleStep3 q cap (admitP J (b :: B₂) v) := by
          rw [hSu, hSW]
          apply rrState_ext
          · rfl
          · show (t ++ [j]) ++ (js.takeWhile
                (fun p => decide ((getP v.processes p).arrival_time ≤ v.curr_time))
                ++ [b])
              = (t ++ J) ++ [b]
            rw [hJcons]
            simp only [List.append_assoc, List.cons_append, List.nil_append]
          · rfl
          · rfl
          · rfl
          · rfl
          · rfl
        calc NFinal q cap (singleStep3 q cap v)
            = NFinal q cap (admitP (js.takeWhile
                (fun p => decide ((getP v.processes p).arrival_time ≤ v.curr_time))
                ++ [b]) B₂ (singleStep3 q cap v)) := hADM₁.symm
          _ = NFinal q cap (rrStep false q cap (admitP J (b :: B₂) v)) := by
              rw [heq, hstepW]
          _ = NFinal q cap (admitP J (b :: B₂) v) := nfinal_step hIW
          _ = NFinal q cap v := hADM
      · have hSW := singleStep3_complete_noadmit_eq q cap (admitP J (b :: B₂) v) h
          (t ++ J) hRW
          (show ¬ q < getB (admitP J (b :: B₂) v).remaining_bursts h from hpre)
          b B₂ rfl
          (show ¬ (getP (admitP J (b :: B₂) v).processes b).arrival_time
            ≤ (admitP J (b :: B₂) v).curr_time
              + getB (admitP J (b :: B₂) v).remaining_bursts h from hadm2)
        have hjq₁ : (singleStep3 q cap v).jq = js.takeWhile
            (fun p => decide ((getP v.processes p).arrival_time ≤ v.curr_time))
            ++ (b :: B₂) := by
          rw [hSu]
          exact hjs
        have hADM₁ := @adm q cap (measureN (singleStep3 q cap v) + (b :: B₂).length)
          (singleStep3 q cap v)
          (js.takeWhile
            (fun p => decide ((getP v.processes p).arrival_time ≤ v.curr_time)))
          (b :: B₂) le_rfl hI₁ hrq₁ hjq₁ hadmtw
        have heq : admitP (js.takeWhile
            (fun p => decide ((getP v.processes p).arrival_time ≤ v.curr_time)))
            (b :: B₂) (singleStep3 q cap v)
            = singleStep3 q cap (admitP J (b :: B₂) v) := by
          rw [hSu, hSW]
          apply rrState_ext
          · rfl
          · show (t ++ [j]) ++ js.takeWhile
                (fun p => decide ((getP v.processes p).arrival_time ≤ v.curr_time))
              = t ++ J
            rw [hJcons]
            simp only [List.append_assoc, List.cons_append, List.nil_append]
          · rfl
          · rfl
          · rfl
          · rfl
          · rfl
        calc NFinal q cap (singleStep3 q cap v)
            = NFinal q cap (admitP (js.takeWhile
                (fun p => decide ((getP v.processes p).arrival_time ≤ v.curr_time)))
                (b :: B₂) (singleStep3 q cap v)) := hADM₁.symm
          _ = NFinal q cap (rrStep false q cap (admitP J (b :: B₂) v)) := by
              rw [heq, hstepW]
          _ = NFinal q cap (admitP J (b :: B₂) v) := nfinal_step hIW
          _ = NFinal q cap v := hADM

lemma getB_le_remSum {bs : List Int} {i : Int} (hlt : i.toNat < bs.length) :
    getB bs i ≤ (remSum bs : Int) := by
  have hmem : (bs.getD i.toNat 0).toNat ∈ bs.map Int.toNat := by
    rw [List.getD_eq_getElem?_getD, List.getElem?_eq_getElem hlt]
    exact List.mem_map.mpr ⟨_, List.getElem_mem hlt, rfl⟩
  have hle : (bs.getD i.toNat 0).toNat ≤ remSum bs :=
    List.single_le_sum (fun x _ => Nat.zero_le x) _ hmem
  show bs.getD i.toNat 0 ≤ (remSum bs : Int)
  omega

lemma measureN_rrStep_le {opt : Bool} {q cap : Int} {s : RRState} (hI : LoopInv q s) :
    measureN (rrStep opt q cap s) ≤ measureN s := by
  by_cases hd : s.rq = [] ∧ s.jq = []
  · rw [rrStep_done_eq opt q cap s hd.1 hd.2]
  · exact le_of_lt (@inv_rrStep opt q cap s hI hd).2

lemma block5_true_nfinal {q cap : Int} {u : RRState} (hI : LoopInv q u) (hrq : u.rq ≠ [])
    (hjq : u.jq = []) (hcap : (measureN u : Int) ≤ cap) :
    NFinal q cap (block5 true q cap u) = NFinal q cap u := by
  have hq := hI.hq
  have hstepf : rrStep false q cap u = block5 false q cap u :=
    rrStep_b5_eq false q cap u hrq hjq
  by_cases hl : u.rq.length = 1
  · rw [block5_one_eq true q cap u hl, ← block5_one_eq false q cap u hl, ← hstepf,
      nfinal_step hI]
  · rw [block5_go_eq true q cap u hl]
    by_cases hf : bulkFlag q u.remaining_bursts u.rq = true
    · obtain ⟨h, t, hR⟩ : ∃ h t, u.rq = h :: t := by
        cases hC : u.rq with
        | nil => exact absurd hC hrq
        | cons x xs => exact ⟨x, xs, rfl⟩
      have hmemh : h ∈ u.rq := by
        rw [hR]
        exact List.mem_cons_self h t
      have hall : ∀ p ∈ u.rq, q < getB u.remaining_bursts p := (bulkFlag_iff q _ _).mp hf
      have hmb : q < minBursts u.remaining_bursts u.rq := lt_minBursts hrq hall
      have hspec := bulkN_spec hq hmb rfl
      obtain ⟨k, hkdef⟩ : ∃ k, bulkN q u.remaining_bursts u.rq = k := ⟨_, rfl⟩
      rw [hkdef] at hspec
      have hk1 : 1 ≤ k := hspec.1
      have hbs : ∀ p ∈ u.rq, q * k < getB u.remaining_bursts p := by
        intro p hp
        have h1 := @minBursts_le_mem u.remaining_bursts u.rq p hp
        omega
      have hkcap : k ≤ cap := by
        have h1 := @minBursts_le_mem u.remaining_bursts u.rq h hmemh
        have h2 : getB u.remaining_bursts h ≤ (remSum u.remaining_bursts : Int) :=
          getB_le_remSum (by rw [hI.lenB]; exact (hI.mem_rq h hmemh).2)
        have h3 : (remSum u.remaining_bursts : Int) ≤ (measureN u : Int) := by
          show _ ≤ ((remSum u.remaining_bursts + u.jq.length : Nat) : Int)
          push_cast
          omega
        have h4 : k ≤ q * k := le_mul_of_one_le_left (by omega) hq
        omega
      obtain ⟨K, hK⟩ : ∃ K : Nat, k = (K : Int) :=
        ⟨k.toNat, (Int.toNat_of_nonneg (by omega)).symm⟩
      have hstr := cycles_strict K k u hK hI hrq hk1 hkcap hbs (Or.inl hjq) (fun _ => hl)
      have hIw : LoopInv q (applyBulk q cap k u) := by
        rw [← hstr]
        exact loopInv_stepsN _ hI
      have hstepw : rrStep false q cap (applyBulk q cap k u)
          = singleStep5 q cap (applyBulk q cap k u) := by
        rw [rrStep_b5_eq false q cap _ (show (applyBulk q cap k u).rq ≠ [] from hrq)
            (show (applyBulk q cap k u).jq = [] from hjq),
          block5_go_eq false q cap _ (show (applyBulk q cap k u).rq.length ≠ 1 from hl)]
        rfl
      calc NFinal q cap (singleStep5 q cap (if true then bulk5 q cap u else u))
          = NFinal q cap (singleStep5 q cap (applyBulk q cap k u)) := by
            rw [show (if true then bulk5 q cap u else u) = bulk5 q cap u from rfl,
              bulk5_pos_eq q cap u hf, hkdef]
        _ = NFinal q cap (rrStep false q cap (applyBulk q cap k u)) := by rw [hstepw]
        _ = NFinal q cap (applyBulk q cap k u) := nfinal_step hIw
        _ = NFinal q cap (stepsN false q cap (u.rq.length * K) u) := by rw [hstr]
        _ = NFinal q cap u := nfinal_stepsN _ hI
    · rw [show (if true then bulk5 q cap u else u) = bulk5 q cap u from rfl,
        bulk5_neg_eq q cap u hf]
      have hss : singleStep5 q cap u = rrStep false q cap u := by
        rw [hstepf, block5_go_eq false q cap u hl]
        rfl
      rw [hss, nfinal_step hI]

lemma block3_true_nfinal {q cap : Int} {u : RRState} (hI : LoopInv q u) (hrq : u.rq ≠ [])
    {j : Int} {js : List Int} (hjq : u.jq = j :: js) (hcap : (measureN u : Int) ≤ cap) :
    NFinal q cap (block3 true q cap u) = NFinal q cap u := by
  have hq := hI.hq
  have hjqne : u.jq ≠ [] := by
    rw [hjq]
    exact List.cons_ne_nil _ _
  have hhead : u.jq.headD 0 = j := by
    rw [hjq]
    rfl
  have hstepf : rrStep false q cap u = block3 false q cap u :=
    rrStep_b3_eq false q cap u hrq hjqne
  by_cases hA : (getP u.processes (u.jq.headD 0)).arrival_time = u.curr_time
  · rw [block3_caseA_eq true q cap u hA, ← block3_caseA_eq false q cap u hA, ← hstepf,
      nfinal_step hI]
  · rw [block3_go_eq true q cap u hA]
    by_cases hg : u.curr_time + (u.rq.length : Int) * q
        < (getP u.processes (u.jq.headD 0)).arrival_time
        ∧ bulkFlag q u.remaining_bursts u.rq = true
    · obtain ⟨hg1, hf⟩ := hg
      obtain ⟨h, t, hR⟩ : ∃ h t, u.rq = h :: t := by
        cases hC : u.rq with
        | nil => exact absurd hC hrq
        | cons x xs => exact ⟨x, xs, rfl⟩
      have hmemh : h ∈ u.rq := by
        rw [hR]
        exact List.mem_cons_self h t
      have hall : ∀ p ∈ u.rq, q < getB u.remaining_bursts p := (bulkFlag_iff q _ _).mp hf
      have hmb : q < minBursts u.remaining_bursts u.rq := lt_minBursts hrq hall
      have hspec := bulkN_spec hq hmb rfl
      have hrqlen : (1 : Int) ≤ (u.rq.length : Int) := by
        rw [hR, List.length_cons]
        push_cast
        omega
      have hrq0 : (0 : Int) < (u.rq.length : Int) * q := mul_pos (by omega) (by omega)
      have hdiv := Int.ediv_add_emod
        ((getP u.processes (u.jq.headD 0)).arrival_time - u.curr_time)
        ((u.rq.length : Int) * q)
      have hmod0 := Int.emod_nonneg
        ((getP u.processes (u.jq.headD 0)).arrival_time - u.curr_time) (ne_of_gt hrq0)
      have hm1 : 1 ≤ ((getP u.processes (u.jq.headD 0)).arrival_time - u.curr_time)
          / ((u.rq.length : Int) * q) := by
        rw [Int.le_ediv_iff_mul_le hrq0, one_mul]
        omega
      obtain ⟨k, hkdef⟩ : ∃ k, min (bulkN q u.remaining_bursts u.rq)
          (((getP u.processes (u.jq.headD 0)).arrival_time - u.curr_time)
            / ((u.rq.length : Int) * q)) = k := ⟨_, rfl⟩
      have hkn : k ≤ bulkN q u.remaining_bursts u.rq := by
        rw [← hkdef]
        exact min_le_left _ _
      have hkm : k ≤ ((getP u.processes (u.jq.headD 0)).arrival_time - u.curr_time)
          / ((u.rq.length : Int) * q) := by
        rw [← hkdef]
        exact min_le_right _ _
      have hk1 : 1 ≤ k := by
        rw [← hkdef]
        exact le_min hspec.1 hm1
      have hqkn : q * k ≤ q * bulkN q u.remaining_bursts u.rq :=
        mul_le_mul_of_nonneg_left hkn (by omega)
      have hbs : ∀ p ∈ u.rq, q * k < getB u.remaining_bursts p := by
        intro p hp
        have h1 := @minBursts_le_mem u.remaining_bursts u.rq p hp
        omega
      have hkcap : k ≤ cap := by
        have h1 := @minBursts_le_mem u.remaining_bursts u.rq h hmemh
        have h2 : getB u.remaining_bursts h ≤ (remSum u.remaining_bursts : Int) :=
          getB_le_remSum (by rw [hI.lenB]; exact (hI.mem_rq h hmemh).2)
        have h3 : (remSum u.remaining_bursts : Int) ≤ (measureN u : Int) := by
          show _ ≤ ((remSum u.remaining_bursts + u.jq.length : Nat) : Int)
          push_cast
          omega
        have h4 : k ≤ q * k := le_mul_of_one_le_left (by omega) hq
        omega
      have hmulm : ((u.rq.length : Int) * q) * k
          ≤ ((u.rq.length : Int) * q)
            * (((getP u.processes (u.jq.headD 0)).arrival_time - u.curr_time)
              / ((u.rq.length : Int) * q)) :=
        mul_le_mul_of_nonneg_left hkm (le_of_lt hrq0)
      have harrle : u.curr_time + (u.rq.length : Int) * q * k
          ≤ (getP u.processes (u.jq.headD 0)).arrival_time := by
        omega
      obtain ⟨K, hK⟩ : ∃ K : Nat, k = (K : Int) :=
        ⟨k.toNat, (Int.toNat_of_nonneg (by omega)).symm⟩
      have hdec : ∀ p ∈ u.rq, 1 ≤ getB u.remaining_bursts p - q * k := by
        intro p hp
        have := hbs p hp
        omega
      by_cases hEq : u.curr_time + (u.rq.length : Int) * q * k
          = (getP u.processes (u.jq.headD 0)).arrival_time
      · -- the admitted bulk rounds end exactly at the pending arrival
        have htie_j : (getP u.processes j).arrival_time
            = u.curr_time + (u.rq.length : Int) * q * k := by
          rw [← hhead]
          exact hEq.symm
        have hct := cycles_tie K k u hK hI hrq hk1 hkcap hbs hjq htie_j
        have hIw : LoopInv q (applyBulk q cap k u) := (inv_applyBulk hI hk1 hdec).1
        have htiew : (getP (applyBulk q cap k u).processes j).arrival_time
            = (applyBulk q cap k u).curr_time := by
          show (getP (u.rq.enum.foldl
              (fun ps ip => setStartIfUnset ps ip.2 (u.curr_time + q * (ip.1 : Int)))
              u.processes) j).arrival_time
            = u.curr_time + (u.rq.length : Int) * q * k
          rw [arrival_foldl_setStart]
          exact htie_j
        have ht := @tie_nfinal q cap (applyBulk q cap k u) hIw
          (show (applyBulk q cap k u).rq ≠ [] from hrq) j js
          (show (applyBulk q cap k u).jq = j :: js from hjq) htiew
        calc NFinal q cap (singleStep3 q cap (if true then bulk3 q cap u else u))
            = NFinal q cap (singleStep3 q cap (applyBulk q cap k u)) := by
              rw [show (if true then bulk3 q cap u else u) = bulk3 q cap u from rfl,
                bulk3_pos_eq q cap u hg1 hf, hkdef]
          _ = NFinal q cap (applyBulk q cap k u) := ht
          _ = NFinal q cap (rrStep false q cap (applyBulk q cap k u)) :=
              (nfinal_step hIw).symm
          _ = NFinal q cap (stepsN false q cap (u.rq.length * K) u) := by rw [hct]
          _ = NFinal q cap u := nfinal_stepsN _ hI
      · have hlt : u.curr_time + (u.rq.length : Int) * q * k
            < (getP u.processes (u.jq.headD 0)).arrival_time :=
          lt_of_le_of_ne harrle hEq
        have hstr := cycles_strict K k u hK hI hrq hk1 hkcap hbs (Or.inr hlt)
          (fun hc => absurd hc hjqne)
        have hIw : LoopInv q (applyBulk q cap k u) := by
          rw [← hstr]
          exact loopInv_stepsN _ hI
        have hstepw : rrStep false q cap (applyBulk q cap k u)
            = singleStep3 q cap (applyBulk q cap k u) := by
          rw [rrStep_b3_eq false q cap _ (show (applyBulk q cap k u).rq ≠ [] from hrq)
              (show (applyBulk q cap k u).jq ≠ [] from hjqne),
            block3_go_eq false q cap _ ?hne]
          · rfl
          case hne =>
            show (getP (u.rq.enum.foldl
                (fun ps ip => setStartIfUnset ps ip.2 (u.curr_time + q * (ip.1 : Int)))
                u.processes) (u.jq.headD 0)).arrival_time
              ≠ u.curr_time + (u.rq.length : Int) * q * k
            rw [arrival_foldl_setStart]
            exact ne_of_gt hlt
        calc NFinal q cap (singleStep3 q cap (if true then bulk3 q cap u else u))
            = NFinal q cap (singleStep3 q cap (applyBulk q cap k u)) := by
              rw [show (if true then bulk3 q cap u else u) = bulk3 q cap u from rfl,
                bulk3_pos_eq q cap u hg1 hf, hkdef]
          _ = NFinal q cap (rrStep false q cap (applyBulk q cap k u)) := by rw [hstepw]
          _ = NFinal q cap (applyBulk q cap k u) := nfinal_step hIw
          _ = NFinal q cap (stepsN false q cap (u.rq.length * K) u) := by rw [hstr]
          _ = NFinal q cap u := nfinal_stepsN _ hI
    · rw [show (if true then bulk3 q cap u else u) = bulk3 q cap u from rfl,
        bulk3_neg_eq q cap u hg]
      have hss : singleStep3 q cap u = rrStep false q cap u := by
        rw [hstepf, block3_go_eq false q cap u hA]
        rfl
      rw [hss, nfinal_step hI]

lemma main_step {q cap : Int} {v : RRState} (hI : LoopInv q v)
    (hcap : (measureN v : Int) ≤ cap) :
    NFinal q cap (rrStep true q cap v) = NFinal q cap v := by
  by_cases hd : v.rq = [] ∧ v.jq = []
  · rw [rrStep_done_eq true q cap v hd.1 hd.2]
  · by_cases hb : v.rq = []
    · -- bootstrap dispatch, identical in both variants, then a block step
      have hjqne : v.jq ≠ [] := fun hc => hd ⟨hb, hc⟩
      obtain ⟨j, js, hjq⟩ : ∃ j js, v.jq = j :: js := by
        cases hC : v.jq with
        | nil => exact absurd hC hjqne
        | cons x xs => exact ⟨x, xs, rfl⟩
      have hboot := @inv_bootstrap q cap v hI j js hb hjq
      have hIb := hboot.1
      have hcapb : (measureN (bootstrap cap v) : Int) ≤ cap := by
        have := hboot.2
        omega
      have hbrq : (bootstrap cap v).rq ≠ [] := by
        rw [bootstrap_eq cap v j js hjq]
        show v.rq ++ [j] ≠ []
        intro hc
        exact List.cons_ne_nil j [] (List.append_eq_nil.mp hc).2
      have hT := rrStep_boot_eq true q cap v hb hjqne
      have hF := rrStep_boot_eq false q cap v hb hjqne
      by_cases hbj : (bootstrap cap v).jq = []
      · rw [hT, if_pos hbj, block5_true_nfinal hIb hbrq hbj hcapb]
        have hFb : rrStep false q cap (bootstrap cap v)
            = block5 false q cap (bootstrap cap v) :=
          rrStep_b5_eq false q cap _ hbrq hbj
        calc NFinal q cap (bootstrap cap v)
            = NFinal q cap (rrStep false q cap (bootstrap cap v)) :=
              (nfinal_step hIb).symm
          _ = NFinal q cap (rrStep false q cap v) := by rw [hFb, hF, if_pos hbj]
          _ = NFinal q cap v := nfinal_step hI
      · obtain ⟨j2, js2, hjq2⟩ : ∃ a b, (bootstrap cap v).jq = a :: b := by
          cases hC : (bootstrap cap v).jq with
          | nil => exact absurd hC hbj
          | cons x xs => exact ⟨x, xs, rfl⟩
        rw [hT, if_neg hbj, block3_true_nfinal hIb hbrq hjq2 hcapb]
        have hFb : rrStep false q cap (bootstrap cap v)
            = block3 false q cap (bootstrap cap v) :=
          rrStep_b3_eq false q cap _ hbrq hbj
        calc NFinal q cap (bootstrap cap v)
            = NFinal q cap (rrStep false q cap (bootstrap cap v)) :=
              (nfinal_step hIb).symm
          _ = NFinal q cap (rrStep false q cap v) := by rw [hFb, hF, if_neg hbj]
          _ = NFinal q cap v := nfinal_step hI
    · by_cases hj : v.jq = []
      · rw [rrStep_b5_eq true q cap v hb hj, block5_true_nfinal hI hb hj hcap]
      · obtain ⟨j, js, hjq⟩ : ∃ j js, v.jq = j :: js := by
          cases hC : v.jq with
          | nil => exact absurd hC hj
          | cons x xs => exact ⟨x, xs, rfl⟩
        rw [rrStep_b3_eq true q cap v hb hj, block3_true_nfinal hI hb hjq hcap]

lemma nfinal_stepsN_true {q cap : Int} :
    ∀ (n : Nat) {v : RRState}, LoopInv q v → (measureN v : Int) ≤ cap →
      NFinal q cap (stepsN true q cap n v) = NFinal q cap v
  | 0, _, _, _ => rfl
  | n + 1, v, hI, hcap => by
    show NFinal q cap (stepsN true q cap n (rrStep true q cap v)) = NFinal q cap v
    have h1 : (measureN (rrStep true q cap v) : Int) ≤ cap := by
      have := @measureN_rrStep_le true q cap v hI
      omega
    rw [nfinal_stepsN_true n (loopInv_rrStep_any hI) h1, main_step hI hcap]

lemma totalBurst_nonneg {q : Int} {procs : List Process} (hwf : WellFormed q procs) :
    0 ≤ totalBurst procs := by
  unfold totalBurst
  rw [totalBurst_foldl]
  simp only [zero_add]
  apply List.sum_nonneg
  intro x hx
  rcases List.mem_map.mp hx with ⟨r, hr, rfl⟩
  have := hwf.2.2.1 r hr
  omega

lemma measureN_init_eq {q : Int} {procs : List Process} (hwf : WellFormed q procs) :
    (measureN (initState procs) : Int) = totalBurst procs + (procs.length : Int)
    ∧ measureN (initState procs) ≤ fuelBound procs := by
  have hpos : ∀ p ∈ procs, 0 ≤ p.burst := fun p hp => by
    have := hwf.2.2.1 p hp
    omega
  have h1 : measureN (initState procs) = (totalBurst procs).toNat + procs.length := by
    unfold measureN initState
    dsimp only
    rw [remSum_map_burst hpos]
    simp
  have h2 : 0 ≤ totalBurst procs := totalBurst_nonneg hwf
  constructor
  · rw [h1]
    push_cast
    omega
  · rw [h1]
    unfold fuelBound
    omega

/-! ## Claim C1: bulk-skip versus naive single-quantum stepping -/

/-- C1: for every well-formed input, the bulk-skip optimization is
observationally equivalent to naive one-quantum-at-a-time stepping: when
`max_seq_len` is at least the total burst plus the process count (so the trace
cap never binds during the run), the optimized and naive simulations produce
identical final states — the same trace and the same `start_time`/`finish_time`
for every process; moreover, for every `max_seq_len` whatsoever the final
`processes` array (hence every `start_time` and `finish_time`) is identical. -/
theorem C1_bulk_skip_equiv (q : Int) (procs : List Process) (hwf : WellFormed q procs) :
    (∀ cap : Int, totalBurst procs + (procs.length : Int) ≤ cap →
      simulate_rr q cap procs = simulate_rr_nobulk q cap procs)
    ∧ ∀ cap : Int, (simulate_rr q cap procs).processes
        = (simulate_rr_nobulk q cap procs).processes := by
  have hIi := loopInv_init hwf
  obtain ⟨hm1, hm2⟩ := measureN_init_eq hwf
  have hmain : ∀ cap : Int, totalBurst procs + (procs.length : Int) ≤ cap →
      simulate_rr q cap procs = simulate_rr_nobulk q cap procs := by
    intro cap hcap
    have hcap' : (measureN (initState procs) : Int) ≤ cap := by
      rw [hm1]
      exact hcap
    have hdone := queues_empty_final q cap hwf
    have hNF : NFinal q cap (simulate_rr q cap procs)
        = NFinal q cap (initState procs) :=
      nfinal_stepsN_true (fuelBound procs) hIi hcap'
    have hFfix : NFinal q cap (simulate_rr q cap procs) = simulate_rr q cap procs := by
      show stepsN false q cap _ _ = _
      exact stepsN_fixed hdone.1 hdone.2 _
    have hnb : simulate_rr_nobulk q cap procs = NFinal q cap (initState procs) := by
      show stepsN false q cap (fuelBound procs) (initState procs) = _
      exact nfinal_eq_stepsN hIi hm2
    rw [← hFfix, hNF, hnb]
  refine ⟨hmain, ?_⟩
  intro cap
  have hbig := hmain (totalBurst procs + (procs.length : Int)) le_rfl
  have hsc1 : SameCore (simulate_rr q cap procs)
      (simulate_rr q (totalBurst procs + (procs.length : Int)) procs) :=
    sameCore_stepsN true q cap (totalBurst procs + (procs.length : Int))
      (fuelBound procs) ⟨rfl, rfl, rfl, rfl, rfl, rfl⟩
  have hsc2 : SameCore (simulate_rr_nobulk q (totalBurst procs + (procs.length : Int)) procs)
      (simulate_rr_nobulk q cap procs) :=
    sameCore_stepsN false q (totalBurst procs + (procs.length : Int)) cap
      (fuelBound procs) ⟨rfl, rfl, rfl, rfl, rfl, rfl⟩
  exact hsc1.2.2.2.2.1.trans ((congrArg RRState.processes hbig).trans hsc2.2.2.2.2.1)

set_option maxHeartbeats 2000000 in
/-- Witness for C1 at a concrete input: one process, id 0, arrival 0,
burst 1, quantum 1, large cap 5 for the full-state equality and cap 0 for the
cap-independent `processes` equality. -/
theorem C1_bulk_skip_equiv_witness :
    WellFormed 1 [⟨0, 0, 1, -1, -1⟩]
    ∧ simulate_rr 1 5 [⟨0, 0, 1, -1, -1⟩] = simulate_rr_nobulk 1 5 [⟨0, 0, 1, -1, -1⟩]
    ∧ (simulate_rr 1 0 [⟨0, 0, 1, -1, -1⟩]).processes
        = (simulate_rr_nobulk 1 0 [⟨0, 0, 1, -1, -1⟩]).processes :=
  ⟨⟨by decide, by decide, by decide, by decide⟩,
    (C1_bulk_skip_equiv 1 [⟨0, 0, 1, -1, -1⟩]
      ⟨by decide, by decide, by decide, by decide⟩).1 5 (by decide),
    (C1_bulk_skip_equiv 1 [⟨0, 0, 1, -1, -1⟩]
      ⟨by decide, by decide, by decide, by decide⟩).2 0⟩
